import Mathlib

/-!
AMReX FabArray communication core: embedding and verified properties.

Shallow embedding of the tag ordering, the cache keys and the cache
statistics (`AMReX_FabArrayBase.H`), of `FabArrayBase::localindex`, of the CPU
transfer routines of `AMReX_FBI.H` (`FB_local_copy_cpu`,
`pack_send_buffer_cpu`, `unpack_recv_buffer_cpu`) and of the control flow and
kernels of its GPU routines (`FB_local_copy_gpu`, `unpack_recv_buffer_gpu`),
of the tagged parallel-for (`AMReX_TagParallelFor.H`), of the particle id/cpu
words, `NextID` and `atomicSetID` (`AMReX_Particle.H`), of the host branch of
`Gpu::Atomic::If` (`AMReX_GpuAtomic.H`) and of `face_linear_face_interp_x`
(`AMReX_Interp_C.H`); the FillBoundary metadata builder and its cache, whose
bodies are not among the sources, are modelled from the specification.

Conventions.
* C++ `int`/`Long` values are unbounded `Int`; the routines below do no
  arithmetic that can leave the machine range for boxes that fit in memory.
  The 64-bit particle word is a `Nat` with the bit operations of `Nat` and an
  explicit reduction modulo 2^64 where a shift can overflow.
* A fab is a total function of `(i, j, k, n)`; a `FabArray` is a total
  function of the global grid index and `(i, j, k, n)`.
* A communication buffer is a map from the byte offset (relative to
  `send_data[j]` / `recv_data[k]`) at which an element starts to that element.
* `#pragma omp parallel for` loops are run in index order; order independence
  is stated separately where it is claimed.  GPU kernels are run thread by
  thread in launch order.
-/

namespace amrex

/-! ## Index vectors and boxes -/

/-- Three-dimensional integer index (`IntVect`, `AMREX_SPACEDIM == 3`). -/
structure IntVect where
  x : Int
  y : Int
  z : Int
deriving DecidableEq, Repr

/-- Componentwise difference, `IntVect::operator-`. -/
def IntVect.sub (a b : IntVect) : IntVect := ⟨a.x - b.x, a.y - b.y, a.z - b.z⟩

/-- Componentwise sum, `IntVect::operator+`. -/
def IntVect.add (a b : IntVect) : IntVect := ⟨a.x + b.x, a.y + b.y, a.z + b.z⟩

/-- A lexicographic comparison of index vectors (z most significant).
`IntVect::operator<` itself is not part of the sources at hand; the tag order
below takes it as a parameter and this function is one admissible choice. -/
def IntVect.lexLt (a b : IntVect) : Bool :=
  decide (a.z < b.z) || (decide (a.z = b.z) &&
    (decide (a.y < b.y) || (decide (a.y = b.y) && decide (a.x < b.x))))

/-- Axis-aligned index box given by its low and high corners (both inclusive). -/
structure Box where
  smallend : IntVect
  bigend : IntVect
deriving DecidableEq, Repr

/-- Low corner, `Box::smallEnd()`. -/
def Box.smallEnd (b : Box) : IntVect := b.smallend

/-- High corner, `Box::bigEnd()`. -/
def Box.bigEnd (b : Box) : IntVect := b.bigend

/-! ## Copy tags and their order (`AMReX_FabArrayBase.H`) -/

/-- One region-copy instruction, `FabArrayBase::CopyComTag`. -/
structure CopyComTag where
  dbox : Box
  sbox : Box
  dstIndex : Int
  srcIndex : Int
deriving DecidableEq, Repr

/-- `CopyComTag::operator<` (AMReX_FabArrayBase.H:195-201); `ivlt` stands for
`IntVect::operator<`, which the comparison applies to the low corners. -/
def CopyComTag.lt (ivlt : IntVect → IntVect → Bool) (a rhs : CopyComTag) : Bool :=
  decide (a.srcIndex < rhs.srcIndex) || (decide (a.srcIndex = rhs.srcIndex) && (
    (ivlt a.sbox.smallEnd rhs.sbox.smallEnd
      || (decide (a.sbox.smallEnd = rhs.sbox.smallEnd) && (
    decide (a.dstIndex < rhs.dstIndex) || (decide (a.dstIndex = rhs.dstIndex) && (
    (ivlt a.dbox.smallEnd rhs.dbox.smallEnd))))))))

/-- The 4-tuple the specification orders tags by:
(source slot, source-box low corner, destination slot, destination-box low corner). -/
def CopyComTag.key (t : CopyComTag) : Int × IntVect × Int × IntVect :=
  (t.srcIndex, t.sbox.smallEnd, t.dstIndex, t.dbox.smallEnd)

/-- Lexicographic strict order on the key 4-tuples, written from the
specification's words with `Prod.Lex`. -/
def keyLexLt (ivlt : IntVect → IntVect → Bool) :
    Int × IntVect × Int × IntVect → Int × IntVect × Int × IntVect → Prop :=
  Prod.Lex (fun a b => a < b)
    (Prod.Lex (fun u v => ivlt u v = true)
      (Prod.Lex (fun a b => a < b) (fun u v => ivlt u v = true)))

/-- Two tags that share every key component and differ only in the high corner
of the destination box. -/
def tagSmall : CopyComTag :=
  { dbox := ⟨⟨0, 0, 0⟩, ⟨0, 0, 0⟩⟩, sbox := ⟨⟨4, 0, 0⟩, ⟨4, 0, 0⟩⟩, dstIndex := 0, srcIndex := 1 }

/-- Same as `tagSmall` with a longer destination box. -/
def tagLong : CopyComTag :=
  { dbox := ⟨⟨0, 0, 0⟩, ⟨1, 0, 0⟩⟩, sbox := ⟨⟨4, 0, 0⟩, ⟨4, 0, 0⟩⟩, dstIndex := 0, srcIndex := 1 }

/-! ## `FabArrayBase::localindex` -/

/-- The halving loop of `std::lower_bound` on `indexArray`: `first` is the
iterator position, `count` the length of the remaining range.  The loop body
runs at most `count` times, which is what `fuel` bounds. -/
def lower_bound_loop (indexArray : List Int) (K : Int) : Nat → Nat → Nat → Nat
  | 0, first, _ => first
  | fuel + 1, first, count =>
    if 0 < count then
      let step := count / 2
      let it := first + step
      if indexArray.getD it 0 < K then
        lower_bound_loop indexArray K fuel (it + 1) (count - (step + 1))
      else
        lower_bound_loop indexArray K fuel first step
    else first

/-- `std::lower_bound(indexArray.begin(), indexArray.end(), K)` as a position. -/
def lower_bound (indexArray : List Int) (K : Int) : Nat :=
  lower_bound_loop indexArray K indexArray.length 0 indexArray.length

/-- `FabArrayBase::localindex` (AMReX_FabArrayBase.H:110-119). -/
def localindex (indexArray : List Int) (K : Int) : Int :=
  let low := lower_bound indexArray K
  if low ≠ indexArray.length ∧ indexArray.getD low 0 = K then
    (low : Int)
  else
    -1

/-! ## Boxes: extents, cells, loops

`Box`, `Array4` and `LoopConcurrentOnCpu` are declared in headers that are not
among the sources at hand; the definitions of this section follow the
specification's description of them. -/

/-- Modelled from the spec: `Box::length()`, the extents of a box (number of
cells per direction, "same extents, possibly different origin"). -/
def Box.length (b : Box) : IntVect :=
  ⟨b.bigend.x - b.smallend.x + 1, b.bigend.y - b.smallend.y + 1,
   b.bigend.z - b.smallend.z + 1⟩

/-- Modelled from the spec: `Box::ok()`, the box has at least one cell. -/
def Box.ok (b : Box) : Bool :=
  decide (b.smallend.x ≤ b.bigend.x) && decide (b.smallend.y ≤ b.bigend.y) &&
    decide (b.smallend.z ≤ b.bigend.z)

/-- Modelled from the spec: `Box::numPts()`, the "tag volume" (number of
cells), zero for a box without cells. -/
def Box.numPts (b : Box) : Int :=
  if b.ok then b.length.x * b.length.y * b.length.z else 0

/-- Modelled from the spec: `Box::contains(IntVect)`, cell membership. -/
def Box.contains (b : Box) (p : IntVect) : Bool :=
  decide (b.smallend.x ≤ p.x) && decide (p.x ≤ b.bigend.x) &&
  decide (b.smallend.y ≤ p.y) && decide (p.y ≤ b.bigend.y) &&
  decide (b.smallend.z ≤ p.z) && decide (p.z ≤ b.bigend.z)

/-- Modelled from the spec: `Box::sameSize`, "destination box and source box
have equal shape (same extents, possibly different origin)". -/
def Box.sameSize (a b : Box) : Bool := decide (a.length = b.length)

/-- Modelled from the spec: `Box::intersects`, the two boxes share a cell
("destination regions that may overlap across tags"). -/
def Box.intersects (a b : Box) : Bool :=
  decide (max a.smallend.x b.smallend.x ≤ min a.bigend.x b.bigend.x) &&
  decide (max a.smallend.y b.smallend.y ≤ min a.bigend.y b.bigend.y) &&
  decide (max a.smallend.z b.smallend.z ≤ min a.bigend.z b.bigend.z)

/-- The integers `lo, lo+1, ..., hi` in ascending order: the values taken by
the loop variable of `for (int i = lo; i <= hi; ++i)`. -/
def intRange (lo hi : Int) : List Int :=
  (List.range (hi - lo + 1).toNat).map (fun (t : Nat) => lo + (t : Int))

/-- Modelled from the spec: `amrex::LoopConcurrentOnCpu(bx, ncomp, f)`, "run a
function over a region", sequentially: component outermost, then z, then y,
with x fastest.  The body `f` transforms the state it writes to. -/
def LoopConcurrentOnCpu {σ : Type} (bx : Box) (ncomp : Nat)
    (f : σ → Int → Int → Int → Int → σ) (s : σ) : σ :=
  (List.range ncomp).foldl (fun s (n : Nat) =>
    (intRange bx.smallend.z bx.bigend.z).foldl (fun s k =>
      (intRange bx.smallend.y bx.bigend.y).foldl (fun s j =>
        (intRange bx.smallend.x bx.bigend.x).foldl (fun s i =>
          f s i j k (n : Int)) s) s) s) s

/-- Modelled from the spec: the element index of `(i,j,k,n)` in the `Array4`
made by `makeArray4(p, bx, ncomp)`: "`ncomp` component-planes ..., each plane
itself contiguous in the natural linearization (x fastest, then y, then z) of
the tag's box". -/
def Array4.offsetOf (bx : Box) (i j k n : Int) : Int :=
  (i - bx.smallend.x) + bx.length.x * ((j - bx.smallend.y) +
    bx.length.y * ((k - bx.smallend.z) + bx.length.z * n))

/-! ## Fab storage and communication buffers -/

/-- The data of all fabs of a `FabArray`: grid index, then cell `(i,j,k)` and
component `n`. -/
abbrev FabArray (α : Type) := Int → Int → Int → Int → Int → α

/-- Store `v` into component `n` of cell `(i,j,k)` of fab `K`. -/
def FabArray.set {α : Type} (fa : FabArray α) (K i j k n : Int) (v : α) : FabArray α :=
  fun K' i' j' k' n' =>
    if K' = K ∧ i' = i ∧ j' = j ∧ k' = k ∧ n' = n then v else fa K' i' j' k' n'

/-- A communication buffer: the element that starts at a given byte offset. -/
abbrev Buffer (α : Type) := Int → α

/-- Store `v` at byte offset `addr`. -/
def Buffer.write {α : Type} (b : Buffer α) (addr : Int) (v : α) : Buffer α :=
  fun a => if a = addr then v else b a

/-- One peer of an exchange: entry `j` of the parallel vectors
`send_data`/`send_size`/`send_cctc` (or `recv_data`/`recv_size`/`recv_cctc`). -/
structure CommPeer (α : Type) where
  data : Buffer α
  size : Nat
  cctc : List CopyComTag

/-- The copy operator, `FabArrayBase::CpOp`. -/
inductive CpOp where
  | COPY
  | ADD
deriving DecidableEq, Repr

/-- `FabCopyTag` (AMReX_FBI.H:4-9); `sfab` is the grid index of the fab the
pointer `this->fabPtr(tag.srcIndex)` refers to. -/
structure FabCopyTag where
  sfab : Int
  dbox : Box
  offset : IntVect

/-- `VoidCopyTag` (AMReX_FBI.H:11-14); the pointer `p` is a byte offset into
the receive buffer `mem` it points into. -/
structure VoidCopyTag (α : Type) where
  mem : Buffer α
  p : Int
  dbox : Box

/-- Modelled from the spec: `LayoutData<Vector<T>>`, one list per destination
sub-domain, addressed by the grid index ("partition work by destination
sub-domain"). -/
abbrev LayoutData (τ : Type) := Int → List τ

/-- Modelled from the spec: `loc_copy_tags[K].push_back(t)` on a `LayoutData`. -/
def LayoutData.push_back {τ : Type} (ld : LayoutData τ) (K : Int) (t : τ) : LayoutData τ :=
  fun K' => if K' = K then ld K' ++ [t] else ld K'

/-- The part of `FabArrayBase::FB` the local copy reads: the local tags and
their thread-safety flag. -/
structure FB where
  m_LocTags : List CopyComTag
  m_threadsafe_loc : Bool

/-! ## The CPU transfer routines (`AMReX_FBI.H`) -/

/-- Modelled from the spec: `BaseFab::copy<RunOn::Host>(src, srcbox, srccomp,
destbox, destcomp, numcomp)` applied to fab `dstK` with source fab `srcK`:
"copy sbox→dbox directly between in-process storage", the cell of `destbox`
at a given position relative to its low corner receiving the cell of `srcbox`
at the same relative position. -/
def BaseFab.copy {α : Type} (fa : FabArray α) (dstK srcK : Int) (srcbox : Box) (srccomp : Int)
    (destbox : Box) (destcomp : Int) (numcomp : Nat) : FabArray α :=
  let offset := srcbox.smallEnd.sub destbox.smallEnd
  LoopConcurrentOnCpu destbox numcomp (fun fa i j k n =>
    fa.set dstK i j k (n + destcomp)
      (fa srcK (i + offset.x) (j + offset.y) (k + offset.z) (n + srccomp))) fa

/-- The loop that files every local tag under its destination
(AMReX_FBI.H:233-243). -/
def FB_local_copy_cpu.loc_copy_tags (LocTags : List CopyComTag) : LayoutData FabCopyTag :=
  LocTags.foldl (fun ld tag =>
    ld.push_back tag.dstIndex
      ⟨tag.srcIndex, tag.dbox, tag.sbox.smallEnd.sub tag.dbox.smallEnd⟩) (fun _ => [])

/-- `FabArray<FAB>::FB_local_copy_cpu` (AMReX_FBI.H:206-263).  `indexArray`
lists the grids `MFIter` visits (the local fabs of `*this`, ascending); `fa`
is the data of `*this` before the call and the result its data afterwards. -/
def FB_local_copy_cpu {α : Type} (indexArray : List Int) (TheFB : FB) (scomp : Int) (ncomp : Nat)
    (fa : FabArray α) : FabArray α :=
  let LocTags := TheFB.m_LocTags
  let N_locs := LocTags.length
  if N_locs = 0 then fa
  else
    let is_thread_safe := TheFB.m_threadsafe_loc
    if is_thread_safe then
      LocTags.foldl (fun fa tag =>
        BaseFab.copy fa tag.dstIndex tag.srcIndex tag.sbox scomp tag.dbox scomp ncomp) fa
    else
      let loc_copy_tags := FB_local_copy_cpu.loc_copy_tags LocTags
      indexArray.foldl (fun fa mfi =>
        (loc_copy_tags mfi).foldl (fun fa tag =>
          let offset := tag.offset
          LoopConcurrentOnCpu tag.dbox ncomp (fun fa i j k n =>
            fa.set mfi i j k (n + scomp)
              (fa tag.sfab (i + offset.x) (j + offset.y) (k + offset.z) (n + scomp))) fa) fa) fa

/-- The body of the tag loop of `pack_send_buffer_cpu` (AMReX_FBI.H:910-921):
the state is the buffer and the running pointer `dptr`; `sz` is
`sizeof(value_type)`. -/
def pack_send_buffer_cpu.tag {α : Type} (sz : Int) (src : FabArray α) (scomp : Int) (ncomp : Nat)
    (st : Buffer α × Int) (tag : CopyComTag) : Buffer α × Int :=
  let dptr := st.2
  let bx := tag.sbox
  let buf := LoopConcurrentOnCpu bx ncomp (fun buf ii jj kk n =>
    buf.write (dptr + sz * Array4.offsetOf bx ii jj kk n)
      (src tag.srcIndex ii jj kk (n + scomp))) st.1
  (buf, dptr + bx.numPts * (ncomp : Int) * sz)

/-- The body of the peer loop of `pack_send_buffer_cpu` (AMReX_FBI.H:904-924):
the buffer of the peer after the call together with the final value of `dptr`
(as an offset from `send_data[j]`), which the assertion of line 922 compares
with `send_size[j]`. -/
def pack_send_buffer_cpu.peer {α : Type} (sz : Int) (src : FabArray α) (scomp : Int) (ncomp : Nat)
    (pr : CommPeer α) : Buffer α × Int :=
  if 0 < pr.size then
    pr.cctc.foldl (pack_send_buffer_cpu.tag sz src scomp ncomp) (pr.data, 0)
  else (pr.data, 0)

/-- `FabArray<FAB>::pack_send_buffer_cpu` (AMReX_FBI.H:889-925): the contents
of the send buffers after the call, peer by peer. -/
def pack_send_buffer_cpu {α : Type} (sz : Int) (src : FabArray α) (scomp : Int) (ncomp : Nat)
    (snd : List (CommPeer α)) : List (Buffer α) :=
  snd.map (fun pr => (pack_send_buffer_cpu.peer sz src scomp ncomp pr).1)

/-- Modelled from the spec: `BaseFab::copyFromMem<RunOn::Host>(bx, dcomp,
ncomp, dptr)` on fab `K`: "unpack each tag's region into the destination",
the memory at `dptr` being read in the wire format (`ncomp` planes of `bx`,
x fastest); operator "overwrite". -/
def BaseFab.copyFromMem {α : Type} (sz : Int) (fa : FabArray α) (K : Int) (bx : Box) (dcomp : Int)
    (ncomp : Nat) (mem : Buffer α) (dptr : Int) : FabArray α :=
  LoopConcurrentOnCpu bx ncomp (fun fa i j k n =>
    fa.set K i j k (n + dcomp) (mem (dptr + sz * Array4.offsetOf bx i j k n))) fa

/-- Modelled from the spec: `BaseFab::addFromMem<RunOn::Host>(bx, dcomp,
ncomp, dptr)` on fab `K`: as `copyFromMem` with the operator "accumulate
(add)". -/
def BaseFab.addFromMem {α : Type} [Add α] (sz : Int) (fa : FabArray α) (K : Int) (bx : Box)
    (dcomp : Int) (ncomp : Nat) (mem : Buffer α) (dptr : Int) : FabArray α :=
  LoopConcurrentOnCpu bx ncomp (fun fa i j k n =>
    fa.set K i j k (n + dcomp)
      (fa K i j k (n + dcomp) + mem (dptr + sz * Array4.offsetOf bx i j k n))) fa

/-- The body of the tag loop in the thread-safe branch of
`unpack_recv_buffer_cpu` (AMReX_FBI.H:951-964): the state is the destination
data and the running pointer `dptr` into the peer's buffer `mem`. -/
def unpack_recv_buffer_cpu.tag {α : Type} [Add α] (sz : Int) (dcomp : Int) (ncomp : Nat)
    (op : CpOp) (mem : Buffer α) (st : FabArray α × Int) (tag : CopyComTag) :
    FabArray α × Int :=
  let dptr := st.2
  let bx := tag.dbox
  let dst :=
    match op with
    | CpOp.COPY => BaseFab.copyFromMem sz st.1 tag.dstIndex bx dcomp ncomp mem dptr
    | CpOp.ADD => BaseFab.addFromMem sz st.1 tag.dstIndex tag.dbox dcomp ncomp mem dptr
  (dst, dptr + bx.numPts * (ncomp : Int) * sz)

/-- The body of the peer loop in the thread-safe branch of
`unpack_recv_buffer_cpu` (AMReX_FBI.H:945-967): destination data after the
peer was unpacked, and the final `dptr` the assertion of line 965 looks at. -/
def unpack_recv_buffer_cpu.peer {α : Type} [Add α] (sz : Int) (dcomp : Int) (ncomp : Nat)
    (op : CpOp) (dst : FabArray α) (pr : CommPeer α) : FabArray α × Int :=
  if 0 < pr.size then
    pr.cctc.foldl (unpack_recv_buffer_cpu.tag sz dcomp ncomp op pr.data) (dst, 0)
  else (dst, 0)

/-- The body of the peer loop that files the receive tags under their
destination in the other branch (AMReX_FBI.H:973-986), with the final `dptr`
the assertion of line 984 looks at. -/
def unpack_recv_buffer_cpu.file {α : Type} (sz : Int) (ncomp : Nat)
    (ld : LayoutData (VoidCopyTag α)) (pr : CommPeer α) : LayoutData (VoidCopyTag α) × Int :=
  if 0 < pr.size then
    pr.cctc.foldl (fun (st : LayoutData (VoidCopyTag α) × Int) tag =>
      (st.1.push_back tag.dstIndex ⟨pr.data, st.2, tag.dbox⟩,
       st.2 + tag.dbox.numPts * (ncomp : Int) * sz)) (ld, 0)
  else (ld, 0)

/-- The body of the loop over a destination's filed tags
(AMReX_FBI.H:995-1014). -/
def unpack_recv_buffer_cpu.apply {α : Type} [Add α] (sz : Int) (dcomp : Int) (ncomp : Nat)
    (op : CpOp) (mfi : Int) (dst : FabArray α) (tag : VoidCopyTag α) : FabArray α :=
  let pfab := fun (i j k n : Int) => tag.mem (tag.p + sz * Array4.offsetOf tag.dbox i j k n)
  match op with
  | CpOp.COPY =>
    LoopConcurrentOnCpu tag.dbox ncomp (fun dfab i j k n =>
      dfab.set mfi i j k (n + dcomp) (pfab i j k n)) dst
  | CpOp.ADD =>
    LoopConcurrentOnCpu tag.dbox ncomp (fun dfab i j k n =>
      dfab.set mfi i j k (n + dcomp) (dfab mfi i j k (n + dcomp) + pfab i j k n)) dst

/-- `FabArray<FAB>::unpack_recv_buffer_cpu` (AMReX_FBI.H:927-1017).
`indexArray` lists the grids `MFIter(dst)` visits; the result is the data of
`dst` after the call. -/
def unpack_recv_buffer_cpu {α : Type} [Add α] (sz : Int) (indexArray : List Int)
    (dst : FabArray α) (dcomp : Int) (ncomp : Nat) (rcv : List (CommPeer α))
    (op : CpOp) (is_thread_safe : Bool) : FabArray α :=
  let N_rcvs := rcv.length
  if N_rcvs = 0 then dst
  else if is_thread_safe then
    rcv.foldl (fun dst pr => (unpack_recv_buffer_cpu.peer sz dcomp ncomp op dst pr).1) dst
  else
    let recv_copy_tags :=
      rcv.foldl (fun ld pr => (unpack_recv_buffer_cpu.file sz ncomp ld pr).1) (fun _ => [])
    indexArray.foldl (fun dst mfi =>
      (recv_copy_tags mfi).foldl (unpack_recv_buffer_cpu.apply sz dcomp ncomp op mfi) dst) dst

/-- A location of a `FabArray`: grid index, cell and component. -/
abbrev Loc := Int × Int × Int × Int × Int

/-- A `FabArray` as a function of locations. -/
def FabArray.toFun {α : Type} (fa : FabArray α) : Loc → α :=
  fun q => fa q.1 q.2.1 q.2.2.1 q.2.2.2.1 q.2.2.2.2

/-- An in-place update of one location: `s[u.1] = u.2 (s[u.1])`. -/
def applyUpd {κ α : Type} [DecidableEq κ] (s : κ → α) (u : κ × (α → α)) : κ → α :=
  fun q => if q = u.1 then u.2 (s u.1) else s q

/-- A move between locations: `s[m.1] = s[m.2]`. -/
def applyMove {κ α : Type} [DecidableEq κ] (s : κ → α) (m : κ × κ) : κ → α :=
  fun q => if q = m.1 then s m.2 else s q

/-- The index tuples `(i,j,k,n)` in the order `LoopConcurrentOnCpu` visits them. -/
def loopIndices (bx : Box) (ncomp : Nat) : List (Int × Int × Int × Int) :=
  (List.range ncomp).flatMap (fun (n : Nat) =>
    (intRange bx.smallend.z bx.bigend.z).flatMap (fun k =>
      (intRange bx.smallend.y bx.bigend.y).flatMap (fun j =>
        (intRange bx.smallend.x bx.bigend.x).map (fun i => (i, j, k, (n : Int))))))

/-- The items of `T` grouped by destination, destinations in `indexArray`
order, items of one destination in their original order. -/
def regroup {τ : Type} (key : τ → Int) (indexArray : List Int) (T : List τ) : List τ :=
  indexArray.flatMap (fun K => T.filter (fun t => decide (key t = K)))

/-- The moves of one local tag: destination location and source location of
every store, in loop order. -/
def tagMoves (scomp : Int) (ncomp : Nat) (t : CopyComTag) : List (Loc × Loc) :=
  (loopIndices t.dbox ncomp).map (fun c =>
    ((t.dstIndex, c.1, c.2.1, c.2.2.1, c.2.2.2 + scomp),
     (t.srcIndex, c.1 + (t.sbox.smallEnd.sub t.dbox.smallEnd).x,
        c.2.1 + (t.sbox.smallEnd.sub t.dbox.smallEnd).y,
        c.2.2.1 + (t.sbox.smallEnd.sub t.dbox.smallEnd).z, c.2.2.2 + scomp)))

/-- Bytes a list of tags occupies in a send buffer: the sum of
`sbox.numPts() * ncomp * sizeof(value_type)`. -/
def sendBytes (sz : Int) (ncomp : Nat) (tags : List CopyComTag) : Int :=
  (tags.map (fun t => t.sbox.numPts * (ncomp : Int) * sz)).sum

/-- Bytes a list of tags occupies in a receive buffer: the sum of
`dbox.numPts() * ncomp * sizeof(value_type)`. -/
def recvBytes (sz : Int) (ncomp : Nat) (tags : List CopyComTag) : Int :=
  (tags.map (fun t => t.dbox.numPts * (ncomp : Int) * sz)).sum

/-- The stores of one tag of `pack_send_buffer_cpu` when `dptr` is `d`. -/
def packUpds {α : Type} (sz : Int) (src : FabArray α) (scomp : Int) (ncomp : Nat) (d : Int)
    (t : CopyComTag) : List (Int × (α → α)) :=
  (loopIndices t.sbox ncomp).map (fun c =>
    (d + sz * Array4.offsetOf t.sbox c.1 c.2.1 c.2.2.1 c.2.2.2,
     fun _ => src t.srcIndex c.1 c.2.1 c.2.2.1 (c.2.2.2 + scomp)))

/-- The stores of a list of tags of `pack_send_buffer_cpu`, `dptr` starting at `d`. -/
def packUpdsFrom {α : Type} (sz : Int) (src : FabArray α) (scomp : Int) (ncomp : Nat) :
    Int → List CopyComTag → List (Int × (α → α))
  | _, [] => []
  | d, t :: ts =>
    packUpds sz src scomp ncomp d t ++
      packUpdsFrom sz src scomp ncomp (d + t.sbox.numPts * (ncomp : Int) * sz) ts

/-- The receive tags of one buffer with the pointer each is unpacked from,
`dptr` starting at `d`: destination grid and `VoidCopyTag`. -/
def place {α : Type} (sz : Int) (ncomp : Nat) (mem : Buffer α) :
    Int → List CopyComTag → List (Int × VoidCopyTag α)
  | _, [] => []
  | d, t :: ts =>
    (t.dstIndex, ⟨mem, d, t.dbox⟩) ::
      place sz ncomp mem (d + t.dbox.numPts * (ncomp : Int) * sz) ts

/-- The placed receive tags of a peer; none when `recv_size[k]` is zero. -/
def placedPeer {α : Type} (sz : Int) (ncomp : Nat) (pr : CommPeer α) :
    List (Int × VoidCopyTag α) :=
  if 0 < pr.size then place sz ncomp pr.data 0 pr.cctc else []

/-- What the copy operator does to a destination value given the buffer value. -/
def opFun {α : Type} [Add α] (op : CpOp) (y : α) : α → α :=
  match op with
  | CpOp.COPY => fun _ => y
  | CpOp.ADD => fun x => x + y

/-- The stores of one placed receive tag. -/
def voidUpds {α : Type} [Add α] (sz : Int) (dcomp : Int) (ncomp : Nat) (op : CpOp)
    (x : Int × VoidCopyTag α) : List (Loc × (α → α)) :=
  (loopIndices x.2.dbox ncomp).map (fun c =>
    ((x.1, c.1, c.2.1, c.2.2.1, c.2.2.2 + dcomp),
     opFun op (x.2.mem (x.2.p + sz * Array4.offsetOf x.2.dbox c.1 c.2.1 c.2.2.1 c.2.2.2))))

/-! ## Sample inputs -/

/-- Fab data in which every cell holds a value naming its fab and x index. -/
def cexFab : FabArray Int := fun K i _ _ _ => 100 * K + i

/-- Low-end wrap of the periodic example: cells 8..9 fill the halo -2..-1. -/
def wrapLo : CopyComTag :=
  { dbox := ⟨⟨-2, 0, 0⟩, ⟨-1, 0, 0⟩⟩, sbox := ⟨⟨8, 0, 0⟩, ⟨9, 0, 0⟩⟩, dstIndex := 0, srcIndex := 0 }

/-- High-end wrap of the periodic example: cells 0..1 fill the halo 10..11. -/
def wrapHi : CopyComTag :=
  { dbox := ⟨⟨10, 0, 0⟩, ⟨11, 0, 0⟩⟩, sbox := ⟨⟨0, 0, 0⟩, ⟨1, 0, 0⟩⟩, dstIndex := 0, srcIndex := 0 }

/-! ## Cache keys and cache statistics (`AMReX_FabArrayBase.H`) -/

/-- `FabArrayBase::BDKey` (AMReX_FabArrayBase.H:222-240).  `BoxArray::RefID`
and `DistributionMapping::RefID` are declared elsewhere; they are the type
parameters `BA` and `DM`, compared by their own `<`, `==` and `!=`. -/
structure BDKey (BA DM : Type) where
  m_ba_id : BA
  m_dm_id : DM
deriving DecidableEq, Repr

/-- `BDKey::operator<` (AMReX_FabArrayBase.H:226-229). -/
def BDKey.lt {BA DM : Type} [LinearOrder BA] [LinearOrder DM] (a rhs : BDKey BA DM) : Bool :=
  decide (a.m_ba_id < rhs.m_ba_id) ||
    (decide (a.m_ba_id = rhs.m_ba_id) && decide (a.m_dm_id < rhs.m_dm_id))

/-- `BDKey::operator==` (AMReX_FabArrayBase.H:230-232). -/
def BDKey.eq {BA DM : Type} [LinearOrder BA] [LinearOrder DM] (a rhs : BDKey BA DM) : Bool :=
  decide (a.m_ba_id = rhs.m_ba_id) && decide (a.m_dm_id = rhs.m_dm_id)

/-- `BDKey::operator!=` (AMReX_FabArrayBase.H:233-235). -/
def BDKey.ne {BA DM : Type} [LinearOrder BA] [LinearOrder DM] (a rhs : BDKey BA DM) : Bool :=
  decide (a.m_ba_id ≠ rhs.m_ba_id) || decide (a.m_dm_id ≠ rhs.m_dm_id)

/-- `FabArrayBase::CacheStats` (AMReX_FabArrayBase.H:149-183).  The counters
are taken in their mathematical value: signed overflow has no defined result
in C++. -/
structure CacheStats where
  size : Int
  maxsize : Int
  maxuse : Int
  nuse : Int
  nbuild : Int
  nerase : Int
  bytes : Int
  bytes_hwm : Int
  name : String
deriving DecidableEq, Repr

/-- The constructor `CacheStats (const std::string& name_)`
(AMReX_FabArrayBase.H:160-162). -/
def CacheStats.new (name_ : String) : CacheStats :=
  { size := 0, maxsize := 0, maxuse := 0, nuse := 0, nbuild := 0, nerase := 0,
    bytes := 0, bytes_hwm := 0, name := name_ }

/-- `CacheStats::recordBuild` (AMReX_FabArrayBase.H:163-167). -/
def CacheStats.recordBuild (s : CacheStats) : CacheStats :=
  let s1 := { s with size := s.size + 1 }
  let s2 := { s1 with nbuild := s1.nbuild + 1 }
  { s2 with maxsize := max s2.maxsize s2.size }

/-- `CacheStats::recordErase` (AMReX_FabArrayBase.H:168-173); `n` is how many
times the item to be deleted has been used. -/
def CacheStats.recordErase (s : CacheStats) (n : Int) : CacheStats :=
  let s1 := { s with size := s.size - 1 }
  let s2 := { s1 with nerase := s1.nerase + 1 }
  { s2 with maxuse := max s2.maxuse n }

/-- `CacheStats::recordUse` (AMReX_FabArrayBase.H:174). -/
def CacheStats.recordUse (s : CacheStats) : CacheStats :=
  { s with nuse := s.nuse + 1 }

/-- One call of a recording member function of `CacheStats`. -/
inductive CacheCall where
  | recordBuild
  | recordErase (n : Int)
  | recordUse
deriving DecidableEq, Repr

/-- The effect of one call. -/
def CacheStats.call (s : CacheStats) (c : CacheCall) : CacheStats :=
  match c with
  | CacheCall.recordBuild => s.recordBuild
  | CacheCall.recordErase n => s.recordErase n
  | CacheCall.recordUse => s.recordUse

/-- The effect of a finite sequence of calls. -/
def CacheStats.run (s : CacheStats) (calls : List CacheCall) : CacheStats :=
  calls.foldl CacheStats.call s

/-- The values the field `size` holds in the course of a sequence of calls:
before the first call and after every call. -/
def CacheStats.sizeHistory : CacheStats → List CacheCall → List Int
  | s, [] => [s.size]
  | s, c :: cs => s.size :: CacheStats.sizeHistory (s.call c) cs

/-! ## Particles (`AMReX_Particle.H`) -/

/-- `GhostParticleID` (AMReX_Particle.H:18), 2**39-1. -/
def GhostParticleID : Int := 549755813887

/-- `VirtualParticleID` (AMReX_Particle.H:19). -/
def VirtualParticleID : Int := GhostParticleID - 1

/-- `LastParticleID` (AMReX_Particle.H:20). -/
def LastParticleID : Int := GhostParticleID - 2

/-- Conversion of a signed C++ integer to `uint64_t`: reduction modulo 2^64. -/
def toUInt64 (x : Int) : Nat := (x % 18446744073709551616).toNat

/-- Conversion `static_cast<Long>` of a `uint64_t` value (two's complement). -/
def toLong (x : Nat) : Int :=
  if x % 18446744073709551616 < 9223372036854775808 then ((x % 18446744073709551616 : Nat) : Int)
  else ((x % 18446744073709551616 : Nat) : Int) - 18446744073709551616

/-- Conversion of a `uint64_t` value to `int` (two's complement, 32 bits). -/
def toInt32 (x : Nat) : Int :=
  if x % 4294967296 < 2147483648 then ((x % 4294967296 : Nat) : Int)
  else ((x % 4294967296 : Nat) : Int) - 4294967296

/-- `ParticleIDWrapper::operator= (const Long id)` (AMReX_Particle.H:44-67):
the new value of the 64-bit word `m_idata`. -/
def ParticleIDWrapper.assign (m_idata : Nat) (id : Int) : Nat :=
  let m0 := m_idata &&& 0x00FFFFFF
  let sign : Nat := if id ≥ 0 then 1 else 0
  let val : Nat := if sign ≠ 0 then toUInt64 id else toUInt64 (-id)
  let m1 := m0 ||| ((sign <<< 63) % 18446744073709551616)
  let m2 := m1 ||| ((val <<< 24) % 18446744073709551616)
  m2

/-- `ParticleIDWrapper::operator Long` (AMReX_Particle.H:70-80). -/
def ParticleIDWrapper.toLong (m_idata : Nat) : Int :=
  let sign := m_idata >>> 63
  let val := (m_idata >>> 24) &&& 0x7FFFFFFFFF
  let lval := amrex.toLong val
  if sign ≠ 0 then lval else -lval

/-- `ConstParticleIDWrapper::operator Long` (AMReX_Particle.H:131-141). -/
def ConstParticleIDWrapper.toLong (m_idata : Nat) : Int :=
  let sign := m_idata >>> 63
  let val := (m_idata >>> 24) &&& 0x7FFFFFFFFF
  let lval := amrex.toLong val
  if sign ≠ 0 then lval else -lval

/-- `ParticleCPUWrapper::operator= (const int cpu)` (AMReX_Particle.H:102-112):
the new value of the 64-bit word `m_idata`.  The mask `~ 0x00FFFFFF` is an
`int`, converted to `uint64_t` for the `&=`. -/
def ParticleCPUWrapper.assign (m_idata : Nat) (cpu : Int) : Nat :=
  let m0 := m_idata &&& toUInt64 (-(0x00FFFFFF : Int) - 1)
  m0 ||| toUInt64 cpu

/-- `ParticleCPUWrapper::operator int` (AMReX_Particle.H:115-118). -/
def ParticleCPUWrapper.toInt (m_idata : Nat) : Int :=
  toInt32 (m_idata &&& 0x00FFFFFF)

/-- `ConstParticleCPUWrapper::operator int` (AMReX_Particle.H:154). -/
def ConstParticleCPUWrapper.toInt (m_idata : Nat) : Int :=
  toInt32 (m_idata &&& 0x00FFFFFF)

/-- `Particle::NextID ()` (AMReX_Particle.H:385-403) on the value of
`the_next_id`: the value returned, or `none` when the call aborts, and the
new value of `the_next_id`. -/
def Particle.NextID (the_next_id : Int) : Option Int × Int :=
  let next := the_next_id
  let the_next_id := the_next_id + 1
  if next > LastParticleID then (none, the_next_id) else (some next, the_next_id)

/-- The initial value of `Particle::the_next_id` (AMReX_Particle.H:383). -/
def Particle.the_next_id_init : Int := 1

/-- The first `k` calls of `NextID ()` starting with the given `the_next_id`:
the values returned in call order and the final `the_next_id`, or `none` when
one of the calls aborts the program. -/
def Particle.NextID_calls : Nat → Int → Option (List Int × Int)
  | 0, s => some ([], s)
  | k + 1, s =>
    match Particle.NextID_calls k s with
    | none => none
    | some (ids, s') =>
      match Particle.NextID s' with
      | (none, _) => none
      | (some next, s'') => some (ids ++ [next], s'')

/-! ## Atomics on the host (`AMReX_GpuAtomic.H`) -/

/-- The host branch of `Gpu::Atomic::If` (AMReX_GpuAtomic.H:239-255): the
value returned and the value stored at `add` afterwards, given the value
stored at `add` before. -/
def Gpu.Atomic.If {T : Type} (add : T) (value : T) (op : T → T → T) (cond : T → Bool) :
    Bool × T :=
  let old := add
  let tmp := op old value
  if cond tmp then (true, tmp) else (false, add)

/-! ## Face interpolation (`AMReX_Interp_C.H`) -/

/-- `face_linear_face_interp_x` (AMReX_Interp_C.H:21-44) for
`AMREX_SPACEDIM == 3`: the contents of `fine` after the call.
`amrex::coarsen(int,int)` is declared elsewhere and is the parameter
`coarsen`. -/
def face_linear_face_interp_x {T : Type} (coarsen : Int → Int → Int) (fi fj fk n : Int)
    (fine crse : Int → Int → Int → Int → T) (mask : Int → Int → Int → Int → Int)
    (ratio : IntVect) : Int → Int → Int → Int → T :=
  let ci := coarsen fi ratio.x
  if ci * ratio.x = fi then
    let cj := coarsen fj ratio.y
    let ck := coarsen fk ratio.z
    if mask ci cj ck n ≠ 0 then
      fun i j k m => if i = fi ∧ j = fj ∧ k = fk ∧ m = n then crse ci cj ck n else fine i j k m
    else fine
  else fine

/-! ## Building and caching the FillBoundary metadata

`FabArrayBase::FB::FB`, `define_fb`, `getFB` and `flushFB` are only declared
in `AMReX_FabArrayBase.H`; their bodies, the class `Periodicity` and the box
operations they use are not among the sources at hand.  They are modelled here
from sections 3, 4.2 and 4.3 of the specification. -/

/-- Modelled from the spec: `amrex::grow(Box, IntVect)`, a sub-domain "grown
by destination halo". -/
def Box.grow (b : Box) (ng : IntVect) : Box := ⟨b.smallend.sub ng, b.bigend.add ng⟩

/-- Modelled from the spec: `Box::operator+ (IntVect)`, the box "translated
by v". -/
def Box.shift (b : Box) (v : IntVect) : Box := ⟨b.smallend.add v, b.bigend.add v⟩

/-- Modelled from the spec: `Box::operator& (Box)`, the "geometric
intersection" of two boxes (without cells when they are disjoint). -/
def Box.inter (a b : Box) : Box :=
  ⟨⟨max a.smallend.x b.smallend.x, max a.smallend.y b.smallend.y,
    max a.smallend.z b.smallend.z⟩,
   ⟨min a.bigend.x b.bigend.x, min a.bigend.y b.bigend.y, min a.bigend.z b.bigend.z⟩⟩

/-- Modelled from the spec: the class `Periodicity`, built from the vector of
periods (zero in a direction that does not wrap). -/
structure Periodicity where
  period : IntVect
deriving DecidableEq, Repr

/-- The data of `Geometry` that `periodicity()` reads: the domain box and the
flags `is_periodic[dir]` (0 or 1). -/
structure Geometry where
  domain : Box
  is_periodic : IntVect
deriving DecidableEq, Repr

/-- `Geometry::periodicity ()` (AMReX_Geometry.H:275-279). -/
def Geometry.periodicity (g : Geometry) : Periodicity :=
  Periodicity.mk ⟨g.domain.length.x * g.is_periodic.x, g.domain.length.y * g.is_periodic.y,
    g.domain.length.z * g.is_periodic.z⟩

/-- Modelled from the spec: the multiples of one period tried in one
direction, `-p, 0, p`; only `0` in a direction that does not wrap. -/
def Periodicity.shifts1 (p : Int) : List Int := if p = 0 then [0] else [-p, 0, p]

/-- Modelled from the spec: `Periodicity::shiftIntVect`, the "list of lattice
shift vectors to try, always including the zero shift": every combination of
a shift by minus one, zero or one period in each direction that wraps. -/
def Periodicity.shiftIntVect (p : Periodicity) : List IntVect :=
  (Periodicity.shifts1 p.period.x).flatMap (fun i =>
    (Periodicity.shifts1 p.period.y).flatMap (fun j =>
      (Periodicity.shifts1 p.period.z).map (fun k => IntVect.mk i j k)))

/-- `FabArrayBase::CommMetaData` (AMReX_FabArrayBase.H:475-483); the maps from
peer rank to tag container are association lists. -/
structure CommMetaData where
  m_threadsafe_loc : Bool
  m_threadsafe_rcv : Bool
  m_LocTags : List CopyComTag
  m_SndTags : List (Int × List CopyComTag)
  m_RcvTags : List (Int × List CopyComTag)
deriving DecidableEq, Repr

/-- The data of a `FabArrayBase` the metadata depends on
(AMReX_FabArrayBase.H:448-454): the boxes, the owner of every box, and the
key of the pair. -/
structure FabArrayBase where
  boxarray : List Box
  distributionMap : List Int
  m_bdkey : BDKey Nat Nat
deriving DecidableEq, Repr

/-- The boxes of a `BoxArray` with their global indices. -/
def indexedBoxes (boxes : List Box) : List (Int × Box) :=
  (List.range boxes.length).map (fun (k : Nat) => ((k : Int), boxes.getD k ⟨⟨0, 0, 0⟩, ⟨-1, -1, -1⟩⟩))

/-- Modelled from the spec: the tag generation of section 4.2 for a halo fill
of a decomposition from itself.  For every destination sub-domain `D` (grown
by the halo), every shift `v` and every source sub-domain `S` (its valid
region), the intersection of the shifted grown `D` with `S` is taken in the
source index space; when it has cells and is not the trivial self region
(same sub-domain, zero shift) it yields the tag with `sbox` the intersection
and `dbox` the intersection translated back by `-v`. -/
def FB.tags (boxes : List Box) (nghost : IntVect) (period : Periodicity) : List CopyComTag :=
  (indexedBoxes boxes).flatMap (fun D =>
    period.shiftIntVect.flatMap (fun v =>
      (indexedBoxes boxes).filterMap (fun S =>
        let isect := ((D.2.grow nghost).shift v).inter S.2
        if isect.ok = true ∧ ¬ (D.1 = S.1 ∧ v = ⟨0, 0, 0⟩) then
          some (CopyComTag.mk (isect.shift ⟨-v.x, -v.y, -v.z⟩) isect D.1 S.1)
        else none)))

/-- Modelled from the spec: file a tag under a peer rank in a map from peer
rank to tag list. -/
def filePeer (m : List (Int × List CopyComTag)) (peer : Int) (t : CopyComTag) :
    List (Int × List CopyComTag) :=
  match m with
  | [] => [(peer, [t])]
  | (p, ts) :: rest =>
    if p = peer then (p, ts ++ [t]) :: rest else (p, ts) :: filePeer rest peer t

/-- Modelled from the spec: the metadata of section 4.2 as seen by process
`MyProc`: a tag is local if owner(srcIndex) == owner(dstIndex) == this
process; otherwise it is a send tag filed under owner(dstIndex) on the process
that owns the source, and a receive tag filed under owner(srcIndex) on the
process that owns the destination.  A tag set is thread-safe iff no two tags
write overlapping destination regions. -/
def FB.define_fb (fa : FabArrayBase) (nghost : IntVect) (period : Periodicity) (MyProc : Int) :
    CommMetaData :=
  let owner := fun (k : Int) => fa.distributionMap.getD k.toNat (-1)
  let tags := FB.tags fa.boxarray nghost period
  let loc := tags.filter (fun t =>
    decide (owner t.srcIndex = MyProc ∧ owner t.dstIndex = MyProc))
  let snd := (tags.filter (fun t =>
    decide (owner t.srcIndex = MyProc ∧ owner t.dstIndex ≠ MyProc))).foldl
      (fun m t => filePeer m (owner t.dstIndex) t) []
  let rcvtags := tags.filter (fun t =>
    decide (owner t.dstIndex = MyProc ∧ owner t.srcIndex ≠ MyProc))
  let rcv := rcvtags.foldl (fun m t => filePeer m (owner t.srcIndex) t) []
  let disjoint := fun (l : List CopyComTag) =>
    decide (l.Pairwise (fun a b => a.dstIndex = b.dstIndex → a.dbox.intersects b.dbox = false))
  { m_threadsafe_loc := disjoint loc, m_threadsafe_rcv := disjoint rcvtags,
    m_LocTags := loc, m_SndTags := snd, m_RcvTags := rcv }

/-- The periodic example of the specification: the domain `[0,9]` (one cell
thick in y and z), wrapping in x. -/
def exampleGeometry : Geometry :=
  { domain := ⟨⟨0, 0, 0⟩, ⟨9, 0, 0⟩⟩, is_periodic := ⟨1, 0, 0⟩ }

/-- The periodic example of the specification: a single sub-domain `[0,9]`
owned by rank 0. -/
def exampleFabArray : FabArrayBase :=
  { boxarray := [⟨⟨0, 0, 0⟩, ⟨9, 0, 0⟩⟩], distributionMap := [0], m_bdkey := ⟨0, 0⟩ }

/-- A `FabArrayBase::FB` object in the cache (AMReX_FabArrayBase.H:487-515)
with the identity `addr` of the heap object. -/
structure FBObject where
  addr : Nat
  data : CommMetaData
  m_ngrow : IntVect
  m_cross : Bool
  m_epo : Bool
  m_period : Periodicity
  m_nuse : Int
deriving DecidableEq, Repr

/-- The static cache `m_TheFBCache` with its statistics `m_FBC_stats`
(AMReX_FabArrayBase.H:517-521); `next_addr` is the identity the next object
built will get. -/
structure FBCacheState where
  m_TheFBCache : List (BDKey Nat Nat × FBObject)
  m_FBC_stats : CacheStats
  next_addr : Nat
deriving DecidableEq, Repr

/-- The cache before anything was built. -/
def FBCacheState.empty : FBCacheState :=
  { m_TheFBCache := [], m_FBC_stats := CacheStats.new "FBCache", next_addr := 0 }

/-- Whether a cache entry answers a request: equal key and equal halo,
periodicity and flags. -/
def FBCacheState.matches (fa : FabArrayBase) (nghost : IntVect) (period : Periodicity)
    (cross epo : Bool) (e : BDKey Nat Nat × FBObject) : Bool :=
  decide (e.1 = fa.m_bdkey) && decide (e.2.m_ngrow = nghost) && decide (e.2.m_cross = cross) &&
    decide (e.2.m_epo = epo) && decide (e.2.m_period = period)

/-- Increment the use counter of the first entry that answers the request. -/
def FBCacheState.useFirst (p : BDKey Nat Nat × FBObject → Bool) :
    List (BDKey Nat Nat × FBObject) → List (BDKey Nat Nat × FBObject)
  | [] => []
  | e :: rest =>
    if p e then (e.1, { e.2 with m_nuse := e.2.m_nuse + 1 }) :: rest
    else e :: FBCacheState.useFirst p rest

/-- The object `getFB` builds on a cache miss: `new FB(...)` with a fresh
identity and the use counter of its first lookup. -/
def getFB.new_fb (build : FabArrayBase → IntVect → Bool → Periodicity → Bool → CommMetaData)
    (fa : FabArrayBase) (nghost : IntVect) (period : Periodicity) (cross epo : Bool)
    (st : FBCacheState) : FBObject :=
  { addr := st.next_addr, data := build fa nghost cross period epo, m_ngrow := nghost,
    m_cross := cross, m_epo := epo, m_period := period, m_nuse := 0 + 1 }

/-- Modelled from the spec: `FabArrayBase::getFB`, the `lookup-or-build` of
section 4.3: "increments use counter on every lookup, records a build on cache
miss".  `build` stands for the constructor of `FB`.  The result is the cache
after the call and the identity of the object the returned reference names. -/
def getFB (build : FabArrayBase → IntVect → Bool → Periodicity → Bool → CommMetaData)
    (fa : FabArrayBase) (nghost : IntVect) (period : Periodicity) (cross epo : Bool)
    (st : FBCacheState) : FBCacheState × Nat :=
  match st.m_TheFBCache.find? (FBCacheState.matches fa nghost period cross epo) with
  | some e =>
    ({ st with
        m_TheFBCache :=
          FBCacheState.useFirst (FBCacheState.matches fa nghost period cross epo)
            st.m_TheFBCache,
        m_FBC_stats := st.m_FBC_stats.recordUse }, e.2.addr)
  | none =>
    let new_fb := getFB.new_fb build fa nghost period cross epo st
    ({ m_TheFBCache := st.m_TheFBCache ++ [(fa.m_bdkey, new_fb)],
       m_FBC_stats := st.m_FBC_stats.recordBuild.recordUse,
       next_addr := st.next_addr + 1 }, new_fb.addr)

/-- Modelled from the spec: `FabArrayBase::flushFB`, the `flush(BDKey)` of
section 4.3, which "removes all entries whose key matches", recording one
erase per entry removed. -/
def flushFB (fa : FabArrayBase) (st : FBCacheState) : FBCacheState :=
  { st with
    m_TheFBCache := st.m_TheFBCache.filter (fun e => !decide (e.1 = fa.m_bdkey)),
    m_FBC_stats :=
      (st.m_TheFBCache.filter (fun e => decide (e.1 = fa.m_bdkey))).foldl
        (fun s e => s.recordErase e.2.m_nuse) st.m_FBC_stats }

/-- The use counter `m_nuse` of the cached object with identity `a`, zero
when there is no such object. -/
def FBCacheState.nuse (st : FBCacheState) (a : Nat) : Int :=
  match st.m_TheFBCache.find? (fun e => decide (e.2.addr = a)) with
  | some e => e.2.m_nuse
  | none => 0

/-- Cache objects have pairwise different identities, all handed out before
`next_addr`. -/
def FBCacheState.wf (st : FBCacheState) : Prop :=
  (st.m_TheFBCache.map (fun e => e.2.addr)).Nodup ∧
  ∀ e ∈ st.m_TheFBCache, e.2.addr < st.next_addr

/-! ## The loops of the regrouping branches (`AMReX_FBI.H`) -/

/-- The `FabCopyTag` that `FB_local_copy_cpu` files for a local tag
(AMReX_FBI.H:242-243). -/
def FB_local_copy_cpu.fabCopyTag (tag : CopyComTag) : FabCopyTag :=
  ⟨tag.srcIndex, tag.dbox, tag.sbox.smallEnd.sub tag.dbox.smallEnd⟩

/-- One iteration of the `MFIter` loop of `FB_local_copy_cpu`
(AMReX_FBI.H:247-261): the tags filed under grid `mfi` are applied to the
`Array4` of fab `mfi`. -/
def FB_local_copy_cpu.mfi_body {α : Type} (loc_copy_tags : LayoutData FabCopyTag) (scomp : Int)
    (ncomp : Nat) (fa : FabArray α) (mfi : Int) : FabArray α :=
  (loc_copy_tags mfi).foldl (fun fa tag =>
    let offset := tag.offset
    LoopConcurrentOnCpu tag.dbox ncomp (fun fa i j k n =>
      fa.set mfi i j k (n + scomp)
        (fa tag.sfab (i + offset.x) (j + offset.y) (k + offset.z) (n + scomp))) fa) fa

/-- The contents of `recv_copy_tags` after the filing loop of
`unpack_recv_buffer_cpu` (AMReX_FBI.H:971-986). -/
def unpack_recv_buffer_cpu.recv_copy_tags {α : Type} (sz : Int) (ncomp : Nat)
    (rcv : List (CommPeer α)) : LayoutData (VoidCopyTag α) :=
  rcv.foldl (fun ld pr => (unpack_recv_buffer_cpu.file sz ncomp ld pr).1) (fun _ => [])

/-- One iteration of the `MFIter` loop of `unpack_recv_buffer_cpu`
(AMReX_FBI.H:991-1015). -/
def unpack_recv_buffer_cpu.mfi_body {α : Type} [Add α] (sz : Int) (dcomp : Int) (ncomp : Nat)
    (op : CpOp) (recv_copy_tags : LayoutData (VoidCopyTag α)) (dst : FabArray α) (mfi : Int) :
    FabArray α :=
  (recv_copy_tags mfi).foldl (unpack_recv_buffer_cpu.apply sz dcomp ncomp op mfi) dst

/-- The receive tags the filing loop of `unpack_recv_buffer_cpu` goes through,
in peer order and container order: those of the peers with `recv_size[k] > 0`. -/
def unpack_recv_buffer_cpu.filed_tags {α : Type} (rcv : List (CommPeer α)) : List CopyComTag :=
  rcv.flatMap (fun pr => if 0 < pr.size then pr.cctc else [])

/-- Two local tags with the same destination box on fab 0, read from different
cells of fab 1. -/
def overlapTagA : CopyComTag :=
  { dbox := ⟨⟨0, 0, 0⟩, ⟨1, 0, 0⟩⟩, sbox := ⟨⟨4, 0, 0⟩, ⟨5, 0, 0⟩⟩, dstIndex := 0, srcIndex := 1 }

/-- The second tag writing cells 0..1 of fab 0. -/
def overlapTagB : CopyComTag :=
  { dbox := ⟨⟨0, 0, 0⟩, ⟨1, 0, 0⟩⟩, sbox := ⟨⟨6, 0, 0⟩, ⟨7, 0, 0⟩⟩, dstIndex := 0, srcIndex := 1 }

/-- A tag writing fab 1 from fab 0, listed between the two above. -/
def overlapTagC : CopyComTag :=
  { dbox := ⟨⟨0, 0, 0⟩, ⟨1, 0, 0⟩⟩, sbox := ⟨⟨4, 0, 0⟩, ⟨5, 0, 0⟩⟩, dstIndex := 1, srcIndex := 0 }

/-- `Particle::atomicSetID` (AMReX_Particle.H:223-235): the new value of the
64-bit word `m_idcpu`.  The atomic write (`Gpu::Atomic::Exch` without OpenMP)
stores `wrapper.m_idata` as the whole word. -/
def Particle.atomicSetID (m_idcpu : Nat) (id : Int) : Nat :=
  let tmp : Nat := 0
  let wrapper_m_idata := ParticleIDWrapper.assign tmp id
  let _old := m_idcpu
  wrapper_m_idata

/-! ## Tagged parallel-for (`AMReX_TagParallelFor.H`)

`Gpu::Device::warp_size`, `amrex::bisect` and `amrex::launch` are declared in
headers that are not among the sources at hand: the warp size and `bisect` are
parameters, and `launch` runs the kernel once for every thread of every block.
C++ `int` division and remainder are `Int.tdiv` and `Int.tmod`; the cell count
of a box is a `Long` and is narrowed where the source stores it in an `int`. -/

/-- The conversion of a `Long` value to `int`: the low 32 bits in two's
complement (`static_cast<int>` and the initialisation of an `int`). -/
def longToInt (x : Int) : Int :=
  toInt32 (toUInt64 x)

/-- `detail::get_tag_size` for a tag with a box (AMReX_TagParallelFor.H:87-94),
`static_cast<int>(tag.box().numPts())`; `box` stands for the member function
`tag.box()`. -/
def detail.get_tag_size {τ : Type} (box : τ → Box) (tag : τ) : Int :=
  longToInt (box tag).numPts

/-- `detail::tagparfor_call_f` for a tag with a box
(AMReX_TagParallelFor.H:105-128): the call of `f` on the state `s`.
`amrex::length` and `amrex::lbound` of a box are its extents and low corner. -/
def detail.tagparfor_call_f {τ σ : Type} (box : τ → Box) (icell : Int) (tag : τ)
    (f : σ → Int → Int → Int → Int → Int → τ → σ) (s : σ) : σ :=
  let ncells := longToInt (box tag).numPts
  let len := (box tag).length
  let lo := (box tag).smallend
  let k := Int.tdiv icell (len.x * len.y)
  let j := Int.tdiv (icell - k * (len.x * len.y)) len.x
  let i := (icell - k * (len.x * len.y)) - j * len.x
  let i := i + lo.x
  let j := j + lo.y
  let k := k + lo.z
  f s icell ncells i j k tag

/-- The loop of `ParallelFor_doit` that counts warps
(AMReX_TagParallelFor.H:154-163): the vector `nwarps` and `ntotwarps` after
the loop. -/
def detail.ParallelFor_doit.count {τ : Type} (warp_size : Int) (box : τ → Box)
    (tags : List τ) : List Int × Int :=
  tags.foldl (fun (st : List Int × Int) tag =>
    (st.1 ++ [st.2],
     st.2 + Int.tdiv (detail.get_tag_size box tag + warp_size - 1) warp_size)) ([], 0)

/-- The value of `ntotwarps` at the launch. -/
def detail.ParallelFor_doit.ntotwarps {τ : Type} (warp_size : Int) (box : τ → Box)
    (tags : List τ) : Int :=
  (detail.ParallelFor_doit.count warp_size box tags).2

/-- The vector `nwarps` after `nwarps.push_back(ntotwarps)`
(AMReX_TagParallelFor.H:164), which the kernel reads as `d_nwarps`. -/
def detail.ParallelFor_doit.nwarps {τ : Type} (warp_size : Int) (box : τ → Box)
    (tags : List τ) : List Int :=
  (detail.ParallelFor_doit.count warp_size box tags).1 ++
    [detail.ParallelFor_doit.ntotwarps warp_size box tags]

/-- The number of blocks of the launch (AMReX_TagParallelFor.H:181-183). -/
def detail.ParallelFor_doit.nblocks {τ : Type} (warp_size : Int) (box : τ → Box)
    (tags : List τ) : Int :=
  let nthreads : Int := 256
  let nwarps_per_block := Int.tdiv nthreads warp_size
  Int.tdiv (detail.ParallelFor_doit.ntotwarps warp_size box tags + nwarps_per_block - 1)
    nwarps_per_block

/-- The tag index and the cell index the kernel of `ParallelFor_doit`
(AMReX_TagParallelFor.H:192-215) computes in thread `threadIdx` of block
`blockIdx`; `none` when the thread returns at line 199. -/
def detail.ParallelFor_doit.handed {τ : Type} (warp_size : Int)
    (bisect : List Int → Int → Int → Int → Int) (box : τ → Box) (tags : List τ)
    (blockIdx threadIdx : Int) : Option (Int × Int) :=
  let ntags : Int := tags.length
  let d_nwarps := detail.ParallelFor_doit.nwarps warp_size box tags
  let ntotwarps := detail.ParallelFor_doit.ntotwarps warp_size box tags
  let blockDim : Int := 256
  let g_tid := blockDim * blockIdx + threadIdx
  let g_wid := Int.tdiv g_tid warp_size
  if g_wid ≥ ntotwarps then none
  else
    let tag_id := bisect d_nwarps 0 ntags g_wid
    let b_wid := g_wid - d_nwarps.getD tag_id.toNat 0
    let lane := Int.tmod threadIdx warp_size
    let icell := b_wid * warp_size + lane
    some (tag_id, icell)

/-- The kernel of `ParallelFor_doit` (AMReX_TagParallelFor.H:192-215) in thread
`threadIdx` of block `blockIdx`: the thread returns, or calls
`tagparfor_call_f(icell, d_tags[tag_id], f)`. -/
def detail.ParallelFor_doit.kernel {τ σ : Type} (warp_size : Int)
    (bisect : List Int → Int → Int → Int → Int) (box : τ → Box) (tags : List τ)
    (f : σ → Int → Int → Int → Int → Int → τ → σ) (blockIdx threadIdx : Int) (s : σ) : σ :=
  match detail.ParallelFor_doit.handed warp_size bisect box tags blockIdx threadIdx with
  | none => s
  | some (tag_id, icell) =>
    match tags[tag_id.toNat]? with
    | some tag => detail.tagparfor_call_f box icell tag f s
    | none => s

/-- The launch `amrex::launch(nblocks, nthreads, stream, kernel)` followed by
`Gpu::synchronize()`, the threads taken block by block in index order. -/
def launch {σ : Type} (nblocks nthreads : Int) (kernel : Int → Int → σ → σ) (s : σ) : σ :=
  (intRange 0 (nblocks - 1)).foldl (fun s blockIdx =>
    (intRange 0 (nthreads - 1)).foldl (fun s threadIdx => kernel blockIdx threadIdx s) s) s

/-- The threads of a launch, `(blockIdx, threadIdx)`, in the order `launch`
runs them. -/
def launch.threads (nblocks nthreads : Int) : List (Int × Int) :=
  (intRange 0 (nblocks - 1)).flatMap (fun blockIdx =>
    (intRange 0 (nthreads - 1)).map (fun threadIdx => (blockIdx, threadIdx)))

/-- `detail::ParallelFor_doit` (AMReX_TagParallelFor.H:147-221); the staging of
`tags` and `nwarps` in device memory is left out. -/
def detail.ParallelFor_doit {τ σ : Type} (warp_size : Int)
    (bisect : List Int → Int → Int → Int → Int) (box : τ → Box) (tags : List τ)
    (f : σ → Int → Int → Int → Int → Int → τ → σ) (s : σ) : σ :=
  let ntags := tags.length
  if ntags = 0 then s
  else
    let nthreads : Int := 256
    let nblocks := detail.ParallelFor_doit.nblocks warp_size box tags
    launch nblocks nthreads (detail.ParallelFor_doit.kernel warp_size bisect box tags f) s

/-- The pairs of tag index and cell index the threads of the launch of
`ParallelFor_doit` compute, in launch order. -/
def detail.ParallelFor_doit.calls {τ : Type} (warp_size : Int)
    (bisect : List Int → Int → Int → Int → Int) (box : τ → Box) (tags : List τ) :
    List (Int × Int) :=
  (launch.threads (detail.ParallelFor_doit.nblocks warp_size box tags) 256).filterMap
    (fun th => detail.ParallelFor_doit.handed warp_size bisect box tags th.1 th.2)

/-- A search with the behaviour the kernel expects of `amrex::bisect`: the last
index `t` in `[lo, hi)` with `d[t] <= v`. -/
def bisectLinear (d : List Int) (lo hi v : Int) : Int :=
  ((List.range (hi - lo).toNat).foldl
    (fun (r : Int) (t : Nat) => if d.getD (lo.toNat + t) 0 ≤ v then lo + (t : Int) else r) lo)

/-- `Array4CopyTag<T>` (AMReX_TagParallelFor.H:24-33).  `dfab` is the grid
whose fab the destination `Array4` views; `sfab` reads the source `Array4`,
which views a fab of the data being written or a receive buffer. -/
structure Array4CopyTag (α : Type) where
  dfab : Int
  sfab : FabArray α → Int → Int → Int → Int → α
  dbox : Box
  offset : IntVect

/-- `Array4Tag<int>` (AMReX_TagParallelFor.H:47-53) of a mask: the local index
of the mask fab it views. -/
structure Array4Tag where
  dfab : Int

/-- `detail::CellStore` (AMReX_FBI.H:20-28): the destination value after
`*d = s`. -/
def detail.CellStore {α : Type} (_d s : α) : α := s

/-- `detail::CellAdd` (AMReX_FBI.H:30-38): the destination value after
`*d += s`. -/
def detail.CellAdd {α : Type} [Add α] (d s : α) : α := d + s

/-- `detail::CellAtomicAdd` (AMReX_FBI.H:40-50): the destination value after
`Gpu::Atomic::AddNoRet(d, s)`. -/
def detail.CellAtomicAdd {α : Type} [Add α] (d s : α) : α := d + s

/-- `detail::fab_to_fab` without masks (AMReX_FBI.H:52-71). -/
def detail.fab_to_fab {α : Type} (warp_size : Int) (bisect : List Int → Int → Int → Int → Int)
    (copy_tags : List (Array4CopyTag α)) (scomp dcomp : Int) (ncomp : Nat) (f : α → α → α)
    (fa : FabArray α) : Option (FabArray α) :=
  some (detail.ParallelFor_doit warp_size bisect Array4CopyTag.dbox copy_tags
    (fun fa icell ncells i j k tag =>
      if icell < ncells then
        (List.range ncomp).foldl (fun fa (n : Nat) =>
          fa.set tag.dfab i j k ((n : Int) + dcomp)
            (f (fa tag.dfab i j k ((n : Int) + dcomp))
              (tag.sfab fa (i + tag.offset.x) (j + tag.offset.y) (k + tag.offset.z)
                ((n : Int) + scomp)))) fa
      else fa) fa)

/-- `detail::fab_to_fab` with masks (AMReX_FBI.H:73-168): after the vector of
`Array4MaskCopyTag` is built the function calls `amrex::Abort` (line 87); the
kernel that follows the call is not reached. -/
def detail.fab_to_fab_masks {α : Type} (_warp_size : Int)
    (_bisect : List Int → Int → Int → Int → Int) (copy_tags : List (Array4CopyTag α))
    (_scomp _dcomp : Int) (_ncomp : Nat) (_f : α → α → α) (masks : List Array4Tag)
    (_fa : FabArray α) : Option (FabArray α) :=
  let _tags := copy_tags.zip masks
  none

/-- `detail::fab_to_fab_atomic_cpy` (AMReX_FBI.H:170-184): the overload the
trait `IsStoreAtomic` selects. -/
def detail.fab_to_fab_atomic_cpy {α : Type} (IsStoreAtomic : Bool) (warp_size : Int)
    (bisect : List Int → Int → Int → Int → Int) (copy_tags : List (Array4CopyTag α))
    (scomp dcomp : Int) (ncomp : Nat) (masks : List Array4Tag) (fa : FabArray α) :
    Option (FabArray α) :=
  if IsStoreAtomic then
    detail.fab_to_fab warp_size bisect copy_tags scomp dcomp ncomp detail.CellStore fa
  else
    detail.fab_to_fab_masks warp_size bisect copy_tags scomp dcomp ncomp detail.CellStore
      masks fa

/-- `detail::fab_to_fab_atomic_add` (AMReX_FBI.H:186-200): the overload the
trait `HasAtomicAdd` selects. -/
def detail.fab_to_fab_atomic_add {α : Type} [Add α] (HasAtomicAdd : Bool) (warp_size : Int)
    (bisect : List Int → Int → Int → Int → Int) (copy_tags : List (Array4CopyTag α))
    (scomp dcomp : Int) (ncomp : Nat) (masks : List Array4Tag) (fa : FabArray α) :
    Option (FabArray α) :=
  if HasAtomicAdd then
    detail.fab_to_fab warp_size bisect copy_tags scomp dcomp ncomp detail.CellAtomicAdd fa
  else
    detail.fab_to_fab_masks warp_size bisect copy_tags scomp dcomp ncomp detail.CellAdd
      masks fa

/-- The grid of the fab `atLocalIdx(li)` refers to: entry `li` of `indexArray`. -/
def atLocalIdx (indexArray : List Int) (li : Int) : Int :=
  indexArray.getD li.toNat 0

/-- `FabArray<FAB>::FB_local_copy_gpu` (AMReX_FBI.H:266-323): the data of
`*this` after the call, or `none` when the call aborts. -/
def FB_local_copy_gpu {α : Type} (IsStoreAtomic : Bool) (warp_size : Int)
    (bisect : List Int → Int → Int → Int → Int) (indexArray : List Int) (TheFB : FB)
    (scomp : Int) (ncomp : Nat) (fa : FabArray α) : Option (FabArray α) :=
  let LocTags := TheFB.m_LocTags
  let N_locs := LocTags.length
  if N_locs = 0 then some fa
  else
    let is_thread_safe := TheFB.m_threadsafe_loc
    let maskfabs_size : Nat :=
      if !IsStoreAtomic && !is_thread_safe then indexArray.length else 0
    let st := LocTags.foldl
      (fun (st : List (Array4CopyTag α) × List Array4Tag) tag =>
        let li := localindex indexArray tag.dstIndex
        let loc_copy_tags := st.1 ++
          [⟨atLocalIdx indexArray li, fun fa => fa tag.srcIndex, tag.dbox,
            tag.sbox.smallEnd.sub tag.dbox.smallEnd⟩]
        let masks := if maskfabs_size > 0 then st.2 ++ [⟨li⟩] else st.2
        (loc_copy_tags, masks)) ([], [])
    let loc_copy_tags := st.1
    let masks := st.2
    if is_thread_safe then
      detail.fab_to_fab warp_size bisect loc_copy_tags scomp scomp ncomp detail.CellStore fa
    else
      detail.fab_to_fab_atomic_cpy IsStoreAtomic warp_size bisect loc_copy_tags scomp scomp
        ncomp masks fa

/-- `FabArray<FAB>::unpack_recv_buffer_gpu` (AMReX_FBI.H:782-885): the data of
`dst` after the call, or `none` when the call aborts.  The receive buffers are
one allocation, so `pbuffer + offset` is `recv_data[k]`. -/
def unpack_recv_buffer_gpu {α : Type} [Add α] (IsStoreAtomic HasAtomicAdd : Bool)
    (warp_size : Int) (bisect : List Int → Int → Int → Int → Int) (sz : Int)
    (indexArray : List Int) (dst : FabArray α) (dcomp : Int) (ncomp : Nat)
    (rcv : List (CommPeer α)) (op : CpOp) (is_thread_safe : Bool) : Option (FabArray α) :=
  let N_rcvs := rcv.length
  if N_rcvs = 0 then some dst
  else
    let maskfabs_size : Nat :=
      if !is_thread_safe then
        if (decide (op = CpOp.COPY) && !IsStoreAtomic) ||
            (decide (op = CpOp.ADD) && !HasAtomicAdd) then indexArray.length
        else 0
      else 0
    let st := rcv.foldl
      (fun (st : List (Array4CopyTag α) × List Array4Tag) pr =>
        if 0 < pr.size then
          (pr.cctc.foldl
            (fun (a : (List (Array4CopyTag α) × List Array4Tag) × Int) tag =>
              let dptr := a.2
              let li := localindex indexArray tag.dstIndex
              let recv_copy_tags := a.1.1 ++
                [⟨atLocalIdx indexArray li,
                  fun _ i j k n => pr.data (dptr + sz * Array4.offsetOf tag.dbox i j k n),
                  tag.dbox, ⟨0, 0, 0⟩⟩]
              let masks := if maskfabs_size > 0 then a.1.2 ++ [⟨li⟩] else a.1.2
              ((recv_copy_tags, masks), dptr + tag.dbox.numPts * (ncomp : Int) * sz))
            (st, 0)).1
        else st) ([], [])
    let recv_copy_tags := st.1
    let masks := st.2
    match op with
    | CpOp.COPY =>
      if is_thread_safe then
        detail.fab_to_fab warp_size bisect recv_copy_tags 0 dcomp ncomp detail.CellStore dst
      else
        detail.fab_to_fab_atomic_cpy IsStoreAtomic warp_size bisect recv_copy_tags 0 dcomp
          ncomp masks dst
    | CpOp.ADD =>
      if is_thread_safe then
        detail.fab_to_fab warp_size bisect recv_copy_tags 0 dcomp ncomp detail.CellAdd dst
      else
        detail.fab_to_fab_atomic_add HasAtomicAdd warp_size bisect recv_copy_tags 0 dcomp
          ncomp masks dst

/-! ## Theorems -/

theorem CopyComTag.lt_iff (ivlt : IntVect → IntVect → Bool) (a b : CopyComTag) :
    CopyComTag.lt ivlt a b = true ↔
      (a.srcIndex < b.srcIndex ∨ (a.srcIndex = b.srcIndex ∧
        (ivlt a.sbox.smallEnd b.sbox.smallEnd = true ∨ (a.sbox.smallEnd = b.sbox.smallEnd ∧
          (a.dstIndex < b.dstIndex ∨ (a.dstIndex = b.dstIndex ∧
            ivlt a.dbox.smallEnd b.dbox.smallEnd = true)))))) := by
  simp [CopyComTag.lt]

theorem keyLexLt_iff (ivlt : IntVect → IntVect → Bool) (a b : CopyComTag) :
    keyLexLt ivlt a.key b.key ↔
      (a.srcIndex < b.srcIndex ∨ (a.srcIndex = b.srcIndex ∧
        (ivlt a.sbox.smallEnd b.sbox.smallEnd = true ∨ (a.sbox.smallEnd = b.sbox.smallEnd ∧
          (a.dstIndex < b.dstIndex ∨ (a.dstIndex = b.dstIndex ∧
            ivlt a.dbox.smallEnd b.dbox.smallEnd = true)))))) := by
  simp [keyLexLt, CopyComTag.key, Prod.lex_def]

theorem IntVect.lexLt_iff (a b : IntVect) :
    IntVect.lexLt a b = true ↔
      (a.z < b.z ∨ (a.z = b.z ∧ (a.y < b.y ∨ (a.y = b.y ∧ a.x < b.x)))) := by
  simp [IntVect.lexLt]

theorem IntVect.lexLt_irrefl (v : IntVect) : IntVect.lexLt v v = false := by
  simp [IntVect.lexLt]

theorem IntVect.lexLt_trans (u v w : IntVect)
    (h1 : IntVect.lexLt u v = true) (h2 : IntVect.lexLt v w = true) :
    IntVect.lexLt u w = true := by
  rw [IntVect.lexLt_iff] at *
  omega

theorem IntVect.lexLt_total (u v : IntVect) (h : u ≠ v) :
    IntVect.lexLt u v = true ∨ IntVect.lexLt v u = true := by
  rw [IntVect.lexLt_iff, IntVect.lexLt_iff]
  have hne : ¬ (u.x = v.x ∧ u.y = v.y ∧ u.z = v.z) := by
    rintro ⟨hx, hy, hz⟩
    apply h
    cases u; cases v; simp_all
  omega

theorem CopyComTag.lt_irrefl_of (ivlt : IntVect → IntVect → Bool)
    (hirr : ∀ v, ivlt v v = false) (a : CopyComTag) : CopyComTag.lt ivlt a a = false := by
  simp [CopyComTag.lt, hirr]

theorem CopyComTag.lt_trans_of (ivlt : IntVect → IntVect → Bool)
    (htr : ∀ u v w, ivlt u v = true → ivlt v w = true → ivlt u w = true)
    (a b c : CopyComTag)
    (h1 : CopyComTag.lt ivlt a b = true) (h2 : CopyComTag.lt ivlt b c = true) :
    CopyComTag.lt ivlt a c = true := by
  rw [CopyComTag.lt_iff] at *
  rcases h1 with h1 | ⟨e1, h1⟩
  · left
    rcases h2 with h2 | ⟨e2, _⟩ <;> omega
  rcases h2 with h2 | ⟨e2, h2⟩
  · left; omega
  refine Or.inr ⟨e1.trans e2, ?_⟩
  rcases h1 with h1 | ⟨f1, h1⟩
  · left
    rcases h2 with h2 | ⟨f2, _⟩
    · exact htr _ _ _ h1 h2
    · rw [← f2]; exact h1
  rcases h2 with h2 | ⟨f2, h2⟩
  · left; rw [f1]; exact h2
  refine Or.inr ⟨f1.trans f2, ?_⟩
  rcases h1 with h1 | ⟨g1, h1⟩
  · left
    rcases h2 with h2 | ⟨g2, _⟩ <;> omega
  rcases h2 with h2 | ⟨g2, h2⟩
  · left; omega
  refine Or.inr ⟨g1.trans g2, ?_⟩
  exact htr _ _ _ h1 h2

/-- C1: `CopyComTag::operator<` is exactly the lexicographic strict order on
(srcIndex, sbox.smallEnd(), dstIndex, dbox.smallEnd()) with the low corners
compared by `IntVect::operator<`; when that comparison is irreflexive and
transitive, the tag relation is irreflexive, asymmetric and transitive. -/
theorem copyComTag_lt_is_lexicographic (ivlt : IntVect → IntVect → Bool)
    (hirr : ∀ v, ivlt v v = false)
    (htr : ∀ u v w, ivlt u v = true → ivlt v w = true → ivlt u w = true) :
    (∀ a b : CopyComTag, CopyComTag.lt ivlt a b = true ↔ keyLexLt ivlt a.key b.key) ∧
    (∀ a : CopyComTag, CopyComTag.lt ivlt a a = false) ∧
    (∀ a b : CopyComTag, CopyComTag.lt ivlt a b = true → CopyComTag.lt ivlt b a = false) ∧
    (∀ a b c : CopyComTag, CopyComTag.lt ivlt a b = true → CopyComTag.lt ivlt b c = true →
      CopyComTag.lt ivlt a c = true) := by
  refine ⟨fun a b => ?_, CopyComTag.lt_irrefl_of ivlt hirr, fun a b hab => ?_,
    CopyComTag.lt_trans_of ivlt htr⟩
  · rw [CopyComTag.lt_iff, keyLexLt_iff]
  · cases hba : CopyComTag.lt ivlt b a
    · rfl
    · have haa := CopyComTag.lt_trans_of ivlt htr a b a hab hba
      rw [CopyComTag.lt_irrefl_of ivlt hirr a] at haa
      exact absurd haa (by decide)

theorem copyComTag_lt_is_lexicographic_witness :
    (∀ v, IntVect.lexLt v v = false) ∧
    (∀ u v w, IntVect.lexLt u v = true → IntVect.lexLt v w = true →
      IntVect.lexLt u w = true) ∧
    ((∀ a b : CopyComTag,
        CopyComTag.lt IntVect.lexLt a b = true ↔ keyLexLt IntVect.lexLt a.key b.key) ∧
     (∀ a : CopyComTag, CopyComTag.lt IntVect.lexLt a a = false) ∧
     (∀ a b : CopyComTag, CopyComTag.lt IntVect.lexLt a b = true →
        CopyComTag.lt IntVect.lexLt b a = false) ∧
     (∀ a b c : CopyComTag, CopyComTag.lt IntVect.lexLt a b = true →
        CopyComTag.lt IntVect.lexLt b c = true → CopyComTag.lt IntVect.lexLt a c = true)) :=
  ⟨IntVect.lexLt_irrefl, IntVect.lexLt_trans,
    copyComTag_lt_is_lexicographic IntVect.lexLt IntVect.lexLt_irrefl IntVect.lexLt_trans⟩

/-- C2 (as stated, refuted): `tagSmall` and `tagLong` differ in the field
`dbox`, yet whatever `IntVect::operator<` is, it is not the case that exactly
one of `tagSmall < tagLong` and `tagLong < tagSmall` holds. -/
theorem copyComTag_lt_not_total_on_fields :
    tagSmall ≠ tagLong ∧
    tagSmall.dbox ≠ tagLong.dbox ∧
    ∀ ivlt : IntVect → IntVect → Bool,
      ¬ ((CopyComTag.lt ivlt tagSmall tagLong = true ∧
            CopyComTag.lt ivlt tagLong tagSmall = false) ∨
         (CopyComTag.lt ivlt tagSmall tagLong = false ∧
            CopyComTag.lt ivlt tagLong tagSmall = true)) := by
  refine ⟨by decide, by decide, fun ivlt => ?_⟩
  have h : CopyComTag.lt ivlt tagSmall tagLong = CopyComTag.lt ivlt tagLong tagSmall := by
    simp [CopyComTag.lt, tagSmall, tagLong, Box.smallEnd]
  rw [h]
  cases CopyComTag.lt ivlt tagLong tagSmall <;> simp

/-- C2 (amended): when `IntVect::operator<` is a strict total order, two tags
whose keys (srcIndex, sbox.smallEnd(), dstIndex, dbox.smallEnd()) differ are
ordered one way and not the other, and two tags with equal keys are not
ordered either way. -/
theorem copyComTag_lt_total_on_keys (ivlt : IntVect → IntVect → Bool)
    (hirr : ∀ v, ivlt v v = false)
    (htr : ∀ u v w, ivlt u v = true → ivlt v w = true → ivlt u w = true)
    (htot : ∀ u v, u ≠ v → ivlt u v = true ∨ ivlt v u = true)
    (a b : CopyComTag) :
    (a.key ≠ b.key →
      ((CopyComTag.lt ivlt a b = true ∧ CopyComTag.lt ivlt b a = false) ∨
       (CopyComTag.lt ivlt a b = false ∧ CopyComTag.lt ivlt b a = true))) ∧
    (a.key = b.key →
      CopyComTag.lt ivlt a b = false ∧ CopyComTag.lt ivlt b a = false) := by
  have hasym : ∀ x y : CopyComTag, CopyComTag.lt ivlt x y = true →
      CopyComTag.lt ivlt y x = false := by
    intro x y hxy
    cases hyx : CopyComTag.lt ivlt y x
    · rfl
    · have hxx := CopyComTag.lt_trans_of ivlt htr x y x hxy hyx
      rw [CopyComTag.lt_irrefl_of ivlt hirr x] at hxx
      exact absurd hxx (by decide)
  constructor
  · intro hne
    have hcmp : CopyComTag.lt ivlt a b = true ∨ CopyComTag.lt ivlt b a = true := by
      rw [CopyComTag.lt_iff, CopyComTag.lt_iff]
      by_cases e1 : a.srcIndex = b.srcIndex
      swap
      · rcases lt_or_gt_of_ne e1 with h | h
        · exact Or.inl (Or.inl h)
        · exact Or.inr (Or.inl h)
      by_cases e2 : a.sbox.smallEnd = b.sbox.smallEnd
      swap
      · rcases htot _ _ e2 with h | h
        · exact Or.inl (Or.inr ⟨e1, Or.inl h⟩)
        · exact Or.inr (Or.inr ⟨e1.symm, Or.inl h⟩)
      by_cases e3 : a.dstIndex = b.dstIndex
      swap
      · rcases lt_or_gt_of_ne e3 with h | h
        · exact Or.inl (Or.inr ⟨e1, Or.inr ⟨e2, Or.inl h⟩⟩)
        · exact Or.inr (Or.inr ⟨e1.symm, Or.inr ⟨e2.symm, Or.inl h⟩⟩)
      by_cases e4 : a.dbox.smallEnd = b.dbox.smallEnd
      · exact absurd (by simp [CopyComTag.key, e1, e2, e3, e4]) hne
      · rcases htot _ _ e4 with h | h
        · exact Or.inl (Or.inr ⟨e1, Or.inr ⟨e2, Or.inr ⟨e3, h⟩⟩⟩)
        · exact Or.inr (Or.inr ⟨e1.symm, Or.inr ⟨e2.symm, Or.inr ⟨e3.symm, h⟩⟩⟩)
    rcases hcmp with h | h
    · exact Or.inl ⟨h, hasym a b h⟩
    · exact Or.inr ⟨hasym b a h, h⟩
  · intro he
    simp only [CopyComTag.key, Prod.mk.injEq] at he
    obtain ⟨e1, e2, e3, e4⟩ := he
    constructor
    · simp [CopyComTag.lt, e1, e2, e3, e4, hirr]
    · simp [CopyComTag.lt, e1, e2, e3, e4, hirr]

theorem copyComTag_lt_total_on_keys_witness :
    (∀ v, IntVect.lexLt v v = false) ∧
    (∀ u v w, IntVect.lexLt u v = true → IntVect.lexLt v w = true →
      IntVect.lexLt u w = true) ∧
    (∀ u v, u ≠ v → IntVect.lexLt u v = true ∨ IntVect.lexLt v u = true) ∧
    ((tagSmall.key ≠ (CopyComTag.mk tagSmall.dbox tagSmall.sbox 3 1).key →
      ((CopyComTag.lt IntVect.lexLt tagSmall (CopyComTag.mk tagSmall.dbox tagSmall.sbox 3 1) = true ∧
        CopyComTag.lt IntVect.lexLt (CopyComTag.mk tagSmall.dbox tagSmall.sbox 3 1) tagSmall = false) ∨
       (CopyComTag.lt IntVect.lexLt tagSmall (CopyComTag.mk tagSmall.dbox tagSmall.sbox 3 1) = false ∧
        CopyComTag.lt IntVect.lexLt (CopyComTag.mk tagSmall.dbox tagSmall.sbox 3 1) tagSmall = true))) ∧
     (tagSmall.key = (CopyComTag.mk tagSmall.dbox tagSmall.sbox 3 1).key →
      CopyComTag.lt IntVect.lexLt tagSmall (CopyComTag.mk tagSmall.dbox tagSmall.sbox 3 1) = false ∧
      CopyComTag.lt IntVect.lexLt (CopyComTag.mk tagSmall.dbox tagSmall.sbox 3 1) tagSmall = false)) :=
  ⟨IntVect.lexLt_irrefl, IntVect.lexLt_trans, IntVect.lexLt_total,
    copyComTag_lt_total_on_keys IntVect.lexLt IntVect.lexLt_irrefl IntVect.lexLt_trans
      IntVect.lexLt_total tagSmall (CopyComTag.mk tagSmall.dbox tagSmall.sbox 3 1)⟩

theorem getD_lt_of_sorted (l : List Int) (hs : l.Pairwise (fun a b => a < b))
    (i j : Nat) (hij : i < j) (hj : j < l.length) : l.getD i 0 < l.getD j 0 := by
  rw [List.getD_eq_getElem l 0 (lt_trans hij hj), List.getD_eq_getElem l 0 hj]
  exact List.pairwise_iff_getElem.mp hs i j (lt_trans hij hj) hj hij

theorem getD_le_of_sorted (l : List Int) (hs : l.Pairwise (fun a b => a < b))
    (i j : Nat) (hij : i ≤ j) (hj : j < l.length) : l.getD i 0 ≤ l.getD j 0 := by
  rcases Nat.lt_or_eq_of_le hij with h | h
  · exact le_of_lt (getD_lt_of_sorted l hs i j h hj)
  · rw [h]

/-- Loop invariant of `std::lower_bound` on a strictly ascending list: the
returned position splits the list into the entries below `K` and the rest. -/
theorem lower_bound_loop_spec (l : List Int) (K : Int)
    (hs : l.Pairwise (fun a b => a < b)) :
    ∀ fuel first count, count ≤ fuel → first + count ≤ l.length →
      (∀ i, i < first → l.getD i 0 < K) →
      (∀ i, first + count ≤ i → i < l.length → K ≤ l.getD i 0) →
      (∀ i, i < lower_bound_loop l K fuel first count → l.getD i 0 < K) ∧
      (∀ i, lower_bound_loop l K fuel first count ≤ i → i < l.length → K ≤ l.getD i 0) ∧
      lower_bound_loop l K fuel first count ≤ l.length := by
  intro fuel
  induction fuel with
  | zero =>
    intro first count hc hlen hlo hhi
    have h0 : count = 0 := by omega
    subst h0
    simp only [lower_bound_loop]
    exact ⟨hlo, fun i hi hil => hhi i (by omega) hil, by omega⟩
  | succ fuel ih =>
    intro first count hc hlen hlo hhi
    simp only [lower_bound_loop]
    by_cases hpos : 0 < count
    · rw [if_pos hpos]
      have hstep : count / 2 < count := Nat.div_lt_self hpos (by decide)
      by_cases hlt : l.getD (first + count / 2) 0 < K
      · rw [if_pos hlt]
        apply ih
        · omega
        · omega
        · intro i hi
          have hle := getD_le_of_sorted l hs i (first + count / 2) (by omega) (by omega)
          omega
        · intro i hi hil
          exact hhi i (by omega) hil
      · rw [if_neg hlt]
        apply ih
        · omega
        · omega
        · exact hlo
        · intro i hi hil
          have hle := getD_le_of_sorted l hs (first + count / 2) i hi hil
          omega
    · rw [if_neg hpos]
      exact ⟨hlo, fun i hi hil => hhi i (by omega) hil, by omega⟩

theorem lower_bound_spec (l : List Int) (K : Int) (hs : l.Pairwise (fun a b => a < b)) :
    (∀ i, i < lower_bound l K → l.getD i 0 < K) ∧
    (∀ i, lower_bound l K ≤ i → i < l.length → K ≤ l.getD i 0) ∧
    lower_bound l K ≤ l.length := by
  unfold lower_bound
  apply lower_bound_loop_spec l K hs
  · exact le_refl _
  · omega
  · intro i hi; omega
  · intro i hi hil; omega

theorem localindex_of_getD (l : List Int) (hs : l.Pairwise (fun a b => a < b))
    (i : Nat) (hi : i < l.length) : localindex l (l.getD i 0) = (i : Int) := by
  obtain ⟨hlo, hhi, hlen⟩ := lower_bound_spec l (l.getD i 0) hs
  have hlow : lower_bound l (l.getD i 0) = i := by
    apply le_antisymm
    · by_contra hcon
      have := hlo i (by omega)
      omega
    · by_contra hcon
      push_neg at hcon
      have h1 := hhi (lower_bound l (l.getD i 0)) (le_refl _) (by omega)
      have h2 := getD_lt_of_sorted l hs (lower_bound l (l.getD i 0)) i hcon hi
      omega
  unfold localindex
  simp only [hlow]
  simp only [and_true]
  rw [if_pos (by omega)]

theorem localindex_of_not_mem (l : List Int) (hs : l.Pairwise (fun a b => a < b))
    (K : Int) (hK : K ∉ l) : localindex l K = -1 := by
  obtain ⟨_, _, hlen⟩ := lower_bound_spec l K hs
  unfold localindex
  simp only
  rw [if_neg]
  rintro ⟨hne, heq⟩
  have hlt : lower_bound l K < l.length := by omega
  apply hK
  rw [← heq, List.getD_eq_getElem l 0 hlt]
  exact List.getElem_mem hlt

/-- C10: on a strictly ascending `indexArray`, `localindex(K)` is the position
of `K` when `K` occurs (so `localindex(indexArray[i]) == i` for every valid
`i`) and `-1` when `K` does not occur. -/
theorem localindex_correct (indexArray : List Int)
    (hs : indexArray.Pairwise (fun a b => a < b)) (K : Int) :
    (∀ i (hi : i < indexArray.length), localindex indexArray (indexArray.get ⟨i, hi⟩) = (i : Int)) ∧
    (K ∈ indexArray → ∃ i, ∃ hi : i < indexArray.length,
      indexArray.get ⟨i, hi⟩ = K ∧ localindex indexArray K = (i : Int)) ∧
    (K ∉ indexArray → localindex indexArray K = -1) := by
  have h1 : ∀ i (hi : i < indexArray.length),
      localindex indexArray (indexArray.get ⟨i, hi⟩) = (i : Int) := by
    intro i hi
    have := localindex_of_getD indexArray hs i hi
    rw [List.getD_eq_getElem indexArray 0 hi] at this
    exact this
  refine ⟨h1, ?_, localindex_of_not_mem indexArray hs K⟩
  intro hmem
  obtain ⟨i, hi, hik⟩ := List.mem_iff_getElem.mp hmem
  refine ⟨i, hi, hik, ?_⟩
  have := h1 i hi
  rw [List.get_eq_getElem] at this
  rw [← hik]
  exact this

theorem localindex_correct_witness :
    [2, 5, 7, 11].Pairwise (fun a b : Int => a < b) ∧
    ((∀ i (hi : i < [2, 5, 7, (11 : Int)].length),
        localindex [2, 5, 7, 11] ([2, 5, 7, (11 : Int)].get ⟨i, hi⟩) = (i : Int)) ∧
     ((7 : Int) ∈ [2, 5, 7, (11 : Int)] → ∃ i, ∃ hi : i < [2, 5, 7, (11 : Int)].length,
        [2, 5, 7, (11 : Int)].get ⟨i, hi⟩ = 7 ∧ localindex [2, 5, 7, 11] 7 = (i : Int)) ∧
     ((7 : Int) ∉ [2, 5, 7, (11 : Int)] → localindex [2, 5, 7, 11] 7 = -1)) :=
  ⟨by decide, localindex_correct [2, 5, 7, 11] (by decide) 7⟩

/-! ### Generic facts about folds of stores -/

theorem foldl_flatMap_eq {α β γ : Type} (f : β → γ → β) (g : α → List γ) (l : List α) (b : β) :
    (l.flatMap g).foldl f b = l.foldl (fun b a => (g a).foldl f b) b := by
  induction l generalizing b with
  | nil => rfl
  | cons a l ih => simp only [List.flatMap_cons, List.foldl_append, List.foldl_cons, ih]

theorem foldl_hom_flatMap {σ τ a b : Type} (φ : σ → τ) (f : σ → a → σ) (g : τ → b → τ)
    (mk : a → List b) (h : ∀ s x, φ (f s x) = (mk x).foldl g (φ s)) (l : List a) (s : σ) :
    φ (l.foldl f s) = (l.flatMap mk).foldl g (φ s) := by
  induction l generalizing s with
  | nil => rfl
  | cons x l ih =>
    simp only [List.foldl_cons, List.flatMap_cons, List.foldl_append]
    rw [ih, h]

theorem foldl_hom_flatMap_mem {σ τ a b : Type} (φ : σ → τ) (f : σ → a → σ) (g : τ → b → τ)
    (mk : a → List b) (l : List a) (h : ∀ s, ∀ x ∈ l, φ (f s x) = (mk x).foldl g (φ s)) (s : σ) :
    φ (l.foldl f s) = (l.flatMap mk).foldl g (φ s) := by
  induction l generalizing s with
  | nil => rfl
  | cons x l ih =>
    simp only [List.foldl_cons, List.flatMap_cons, List.foldl_append]
    rw [ih (fun s y hy => h s y (List.mem_cons_of_mem _ hy)), h s x (List.mem_cons_self _ _)]

theorem foldl_map_step {σ a b : Type} (f : σ → a → σ) (g : σ → b → σ) (mk : a → b)
    (h : ∀ s x, f s x = g s (mk x)) (l : List a) (s : σ) :
    l.foldl f s = (l.map mk).foldl g s := by
  induction l generalizing s with
  | nil => rfl
  | cons x l ih =>
    simp only [List.foldl_cons, List.map_cons]
    rw [ih, h]

theorem foldl_hom_map {σ τ a b : Type} (φ : σ → τ) (f : σ → a → σ) (g : τ → b → τ)
    (mk : a → b) (h : ∀ s x, φ (f s x) = g (φ s) (mk x)) (l : List a) (s : σ) :
    φ (l.foldl f s) = (l.map mk).foldl g (φ s) := by
  induction l generalizing s with
  | nil => rfl
  | cons x l ih =>
    simp only [List.foldl_cons, List.map_cons]
    rw [ih, h]

theorem LoopConcurrentOnCpu_eq_foldl {σ : Type} (bx : Box) (ncomp : Nat)
    (f : σ → Int → Int → Int → Int → σ) (s : σ) :
    LoopConcurrentOnCpu bx ncomp f s =
      (loopIndices bx ncomp).foldl (fun s c => f s c.1 c.2.1 c.2.2.1 c.2.2.2) s := by
  unfold LoopConcurrentOnCpu loopIndices
  simp only [foldl_flatMap_eq, List.foldl_map]

/-- The value a location holds after a list of in-place updates is obtained by
applying, in order, the updates that name this location. -/
theorem foldl_applyUpd_apply {κ α : Type} [DecidableEq κ] (l : List (κ × (α → α)))
    (s : κ → α) (q : κ) :
    (l.foldl applyUpd s) q =
      (l.filter (fun u => decide (u.1 = q))).foldl (fun v u => u.2 v) (s q) := by
  induction l generalizing s with
  | nil => rfl
  | cons u l ih =>
    rw [List.foldl_cons, ih]
    by_cases h : u.1 = q
    · rw [List.filter_cons_of_pos (by simpa using h), List.foldl_cons]
      simp [applyUpd, h]
    · rw [List.filter_cons_of_neg (by simpa using h)]
      have : applyUpd s u q = s q := by
        simp only [applyUpd]
        rw [if_neg (fun hq => h hq.symm)]
      rw [this]

theorem foldl_applyUpd_frame {κ α : Type} [DecidableEq κ] (l : List (κ × (α → α)))
    (s : κ → α) (q : κ) (h : ∀ u ∈ l, u.1 ≠ q) : (l.foldl applyUpd s) q = s q := by
  rw [foldl_applyUpd_apply]
  have : l.filter (fun u => decide (u.1 = q)) = [] := by
    rw [List.filter_eq_nil_iff]
    intro u hu
    simpa using h u hu
  rw [this]
  rfl

theorem foldl_const_updates {κ α : Type} (l : List (κ × (α → α))) (c : α) (v : α)
    (hne : l ≠ []) (h : ∀ u ∈ l, ∀ x, u.2 x = c) :
    l.foldl (fun v u => u.2 v) v = c := by
  induction l generalizing v with
  | nil => exact absurd rfl hne
  | cons u l ih =>
    rw [List.foldl_cons]
    by_cases hl : l = []
    · subst hl
      exact h u (List.mem_cons_self _ _) v
    · exact ih _ hl (fun w hw => h w (List.mem_cons_of_mem _ hw))

/-- Moves none of whose sources is written behave as stores of the initial
values of their sources. -/
theorem foldl_applyMove_eq {κ α : Type} [DecidableEq κ] (l : List (κ × κ)) (s : κ → α)
    (h : ∀ m ∈ l, ∀ m' ∈ l, m.2 ≠ m'.1) :
    l.foldl applyMove s = (l.map (fun m => (m.1, fun _ : α => s m.2))).foldl applyUpd s := by
  induction l using List.reverseRecOn with
  | nil => rfl
  | append_singleton l m ih =>
    rw [List.foldl_append, List.map_append, List.foldl_append]
    have hl : ∀ a ∈ l, ∀ a' ∈ l, a.2 ≠ a'.1 := fun a ha a' ha' =>
      h a (List.mem_append_left _ ha) a' (List.mem_append_left _ ha')
    rw [ih hl]
    simp only [List.foldl_cons, List.foldl_nil, List.map_cons, List.map_nil]
    funext q
    simp only [applyMove, applyUpd]
    by_cases hq : q = m.1
    · rw [if_pos hq, if_pos hq]
      apply foldl_applyUpd_frame
      intro u hu
      obtain ⟨a, ha, rfl⟩ := List.mem_map.mp hu
      exact fun hcon => h m (List.mem_append_right _ (List.mem_singleton_self _)) a
        (List.mem_append_left _ ha) hcon.symm
    · rw [if_neg hq, if_neg hq]

theorem FabArray.toFun_set {α : Type} (fa : FabArray α) (K i j k n : Int) (v : α) :
    (fa.set K i j k n v).toFun = fun q => if q = (K, i, j, k, n) then v else fa.toFun q := by
  funext q
  obtain ⟨K', i', j', k', n'⟩ := q
  simp only [FabArray.toFun, FabArray.set, Prod.mk.injEq]

theorem FabArray.toFun_inj {α : Type} (fa fb : FabArray α) (h : fa.toFun = fb.toFun) :
    fa = fb := by
  funext K i j k n
  exact congrFun h (K, i, j, k, n)

/-! ### Boxes, loop indices and the linearisation -/

theorem mem_intRange (lo hi t : Int) : t ∈ intRange lo hi ↔ lo ≤ t ∧ t ≤ hi := by
  unfold intRange
  simp only [List.mem_map, List.mem_range]
  constructor
  · rintro ⟨a, ha, rfl⟩
    omega
  · rintro ⟨h1, h2⟩
    exact ⟨(t - lo).toNat, by omega, by omega⟩

theorem nodup_intRange (lo hi : Int) : (intRange lo hi).Nodup := by
  unfold intRange
  apply List.Nodup.map _ (List.nodup_range _)
  intro a b h
  simp only at h
  omega

theorem nodup_flatMap_of_tagged {α β : Type} (l : List α) (f : α → List β)
    (hl : l.Nodup) (hf : ∀ x ∈ l, (f x).Nodup)
    (htag : ∀ x ∈ l, ∀ y ∈ l, ∀ c, c ∈ f x → c ∈ f y → x = y) : (l.flatMap f).Nodup := by
  induction l with
  | nil => simp
  | cons a l ih =>
    rw [List.flatMap_cons, List.nodup_append]
    refine ⟨hf a (List.mem_cons_self _ _), ?_, ?_⟩
    · exact ih (List.nodup_cons.mp hl).2 (fun x hx => hf x (List.mem_cons_of_mem _ hx))
        (fun x hx y hy => htag x (List.mem_cons_of_mem _ hx) y (List.mem_cons_of_mem _ hy))
    · intro c hca hcl
      obtain ⟨y, hy, hcy⟩ := List.mem_flatMap.mp hcl
      have : a = y := htag a (List.mem_cons_self _ _) y (List.mem_cons_of_mem _ hy) c hca hcy
      subst this
      exact (List.nodup_cons.mp hl).1 hy

theorem Box.contains_iff (b : Box) (p : IntVect) :
    b.contains p = true ↔
      (b.smallend.x ≤ p.x ∧ p.x ≤ b.bigend.x) ∧ (b.smallend.y ≤ p.y ∧ p.y ≤ b.bigend.y) ∧
      (b.smallend.z ≤ p.z ∧ p.z ≤ b.bigend.z) := by
  simp only [Box.contains, Bool.and_eq_true, decide_eq_true_eq]
  tauto

theorem mem_loopIndices (bx : Box) (ncomp : Nat) (c : Int × Int × Int × Int) :
    c ∈ loopIndices bx ncomp ↔
      bx.contains ⟨c.1, c.2.1, c.2.2.1⟩ = true ∧ 0 ≤ c.2.2.2 ∧ c.2.2.2 < (ncomp : Int) := by
  obtain ⟨i, j, k, n⟩ := c
  unfold loopIndices
  simp only [List.mem_flatMap, List.mem_map, List.mem_range, mem_intRange, Prod.mk.injEq,
    Box.contains_iff]
  constructor
  · rintro ⟨n', hn', k', hk', j', hj', i', hi', rfl, rfl, rfl, rfl⟩
    exact ⟨⟨hi', hj', hk'⟩, by omega, by omega⟩
  · rintro ⟨⟨hi, hj, hk⟩, hn0, hn1⟩
    exact ⟨n.toNat, by omega, k, hk, j, hj, i, hi, rfl, rfl, rfl, by omega⟩

theorem nodup_loopIndices (bx : Box) (ncomp : Nat) : (loopIndices bx ncomp).Nodup := by
  unfold loopIndices
  apply nodup_flatMap_of_tagged _ _ (List.nodup_range _)
  · intro n _
    apply nodup_flatMap_of_tagged _ _ (nodup_intRange _ _)
    · intro k _
      apply nodup_flatMap_of_tagged _ _ (nodup_intRange _ _)
      · intro j _
        apply List.Nodup.map _ (nodup_intRange _ _)
        intro a b h
        simp only [Prod.mk.injEq] at h
        exact h.1
      · intro j _ j' _ c hc hc'
        simp only [List.mem_map] at hc hc'
        obtain ⟨_, _, rfl⟩ := hc
        obtain ⟨_, _, h⟩ := hc'
        simp only [Prod.mk.injEq] at h
        exact h.2.1.symm
    · intro k _ k' _ c hc hc'
      simp only [List.mem_flatMap, List.mem_map] at hc hc'
      obtain ⟨_, _, _, _, rfl⟩ := hc
      obtain ⟨_, _, _, _, h⟩ := hc'
      simp only [Prod.mk.injEq] at h
      exact h.2.2.1.symm
  · intro n _ n' _ c hc hc'
    simp only [List.mem_flatMap, List.mem_map] at hc hc'
    obtain ⟨_, _, _, _, _, _, rfl⟩ := hc
    obtain ⟨_, _, _, _, _, _, h⟩ := hc'
    simp only [Prod.mk.injEq] at h
    have := h.2.2.2
    omega

theorem lin_bound (a m B M : Int) (ha : 0 ≤ a) (ham : a < m) (hB : 0 ≤ B) (hBM : B < M) :
    0 ≤ a + m * B ∧ a + m * B < m * M := by
  have hm : 0 ≤ m := by omega
  have h1 : 0 ≤ m * B := mul_nonneg hm hB
  have h2 : 0 ≤ m * (M - B - 1) := mul_nonneg hm (by omega)
  constructor
  · omega
  · nlinarith

theorem lin_inj (a a' m B B' : Int) (ha : 0 ≤ a) (ham : a < m) (ha' : 0 ≤ a') (ham' : a' < m)
    (h : a + m * B = a' + m * B') : a = a' ∧ B = B' := by
  have e1 : (a + m * B) % m = a := by
    rw [Int.add_mul_emod_self_left]
    exact Int.emod_eq_of_lt ha ham
  have e2 : (a' + m * B') % m = a' := by
    rw [Int.add_mul_emod_self_left]
    exact Int.emod_eq_of_lt ha' ham'
  have haa : a = a' := by rw [← e1, ← e2, h]
  refine ⟨haa, ?_⟩
  subst haa
  have hm : m ≠ 0 := by omega
  have : m * B = m * B' := by omega
  exact mul_left_cancel₀ hm this

theorem Box.ok_of_contains (b : Box) (p : IntVect) (h : b.contains p = true) : b.ok = true := by
  rw [Box.contains_iff] at h
  simp only [Box.ok, Bool.and_eq_true, decide_eq_true_eq]
  omega

theorem Box.numPts_nonneg (b : Box) : 0 ≤ b.numPts := by
  unfold Box.numPts
  split
  · rename_i h
    simp only [Box.ok, Bool.and_eq_true, decide_eq_true_eq] at h
    simp only [Box.length]
    apply mul_nonneg (mul_nonneg _ _) _ <;> omega
  · exact le_refl _

/-- The linear index of a cell of the box and a valid component lies in
`[0, numPts * ncomp)`. -/
theorem Array4.offsetOf_bound (bx : Box) (ncomp : Nat) (i j k n : Int)
    (hc : bx.contains ⟨i, j, k⟩ = true) (hn0 : 0 ≤ n) (hn1 : n < (ncomp : Int)) :
    0 ≤ Array4.offsetOf bx i j k n ∧ Array4.offsetOf bx i j k n < bx.numPts * (ncomp : Int) := by
  have hok := Box.ok_of_contains bx _ hc
  rw [Box.contains_iff] at hc
  simp only at hc
  obtain ⟨⟨hx0, hx1⟩, ⟨hy0, hy1⟩, ⟨hz0, hz1⟩⟩ := hc
  unfold Box.numPts
  rw [if_pos hok]
  unfold Array4.offsetOf
  simp only [Box.length]
  have b1 := lin_bound (k - bx.smallend.z) (bx.bigend.z - bx.smallend.z + 1) n (ncomp : Int)
    (by omega) (by omega) hn0 hn1
  have b2 := lin_bound (j - bx.smallend.y) (bx.bigend.y - bx.smallend.y + 1) _ _
    (by omega) (by omega) b1.1 b1.2
  have b3 := lin_bound (i - bx.smallend.x) (bx.bigend.x - bx.smallend.x + 1) _ _
    (by omega) (by omega) b2.1 b2.2
  refine ⟨b3.1, ?_⟩
  calc _ < _ := b3.2
    _ = _ := by ring

/-- The linearisation is injective on the cells of the box. -/
theorem Array4.offsetOf_inj (bx : Box) (i j k n i' j' k' n' : Int)
    (hc : bx.contains ⟨i, j, k⟩ = true) (hc' : bx.contains ⟨i', j', k'⟩ = true)
    (h : Array4.offsetOf bx i j k n = Array4.offsetOf bx i' j' k' n') :
    i = i' ∧ j = j' ∧ k = k' ∧ n = n' := by
  rw [Box.contains_iff] at hc hc'
  simp only at hc hc'
  obtain ⟨⟨hx0, hx1⟩, ⟨hy0, hy1⟩, ⟨hz0, hz1⟩⟩ := hc
  obtain ⟨⟨hx0', hx1'⟩, ⟨hy0', hy1'⟩, ⟨hz0', hz1'⟩⟩ := hc'
  unfold Array4.offsetOf at h
  simp only [Box.length] at h
  obtain ⟨e1, h⟩ := lin_inj _ _ _ _ _ (by omega) (by omega) (by omega) (by omega) h
  obtain ⟨e2, h⟩ := lin_inj _ _ _ _ _ (by omega) (by omega) (by omega) (by omega) h
  obtain ⟨e3, h⟩ := lin_inj _ _ _ _ _ (by omega) (by omega) (by omega) (by omega) h
  exact ⟨by omega, by omega, by omega, h⟩

theorem Box.sameSize_iff (a b : Box) :
    a.sameSize b = true ↔
      a.bigend.x - a.smallend.x = b.bigend.x - b.smallend.x ∧
      a.bigend.y - a.smallend.y = b.bigend.y - b.smallend.y ∧
      a.bigend.z - a.smallend.z = b.bigend.z - b.smallend.z := by
  simp only [Box.sameSize, Box.length, decide_eq_true_eq, IntVect.mk.injEq]
  omega

theorem Box.numPts_eq_of_sameSize (a b : Box) (h : a.sameSize b = true) :
    a.numPts = b.numPts := by
  have hl : a.length = b.length := by simpa [Box.sameSize] using h
  rw [Box.sameSize_iff] at h
  have hok : a.ok = b.ok := by
    simp only [Box.ok]
    congr 1
    · congr 1
      · simp only [decide_eq_decide]; omega
      · simp only [decide_eq_decide]; omega
    · simp only [decide_eq_decide]; omega
  unfold Box.numPts
  rw [hok, hl]

/-- With equal extents, shifting by the difference of the low corners maps the
cells of the destination box into the source box. -/
theorem Box.contains_shift (d s : Box) (h : d.sameSize s = true) (p : IntVect) :
    s.contains (p.add (s.smallEnd.sub d.smallEnd)) = d.contains p := by
  rw [Box.sameSize_iff] at h
  rw [Bool.eq_iff_iff, Box.contains_iff, Box.contains_iff]
  simp only [IntVect.add, IntVect.sub, Box.smallEnd]
  omega

/-- With equal extents, a destination cell and the source cell it is copied
from have the same linear index in their boxes. -/
theorem Array4.offsetOf_shift (d s : Box) (h : d.sameSize s = true) (i j k n : Int) :
    Array4.offsetOf s (i + (s.smallEnd.sub d.smallEnd).x) (j + (s.smallEnd.sub d.smallEnd).y)
      (k + (s.smallEnd.sub d.smallEnd).z) n = Array4.offsetOf d i j k n := by
  have hl : d.length = s.length := by simpa [Box.sameSize] using h
  unfold Array4.offsetOf
  rw [hl]
  simp only [IntVect.sub, Box.smallEnd]
  ring

theorem Box.not_intersects (a b : Box) (h : a.intersects b = false) (p : IntVect) :
    ¬ (a.contains p = true ∧ b.contains p = true) := by
  rw [Box.contains_iff, Box.contains_iff]
  simp only [Box.intersects, Bool.and_eq_false_iff, decide_eq_false_iff_not] at h
  omega

theorem Box.intersects_comm (a b : Box) : a.intersects b = b.intersects a := by
  simp only [Box.intersects, max_comm, min_comm]

/-! ### The local copy as a list of moves -/

theorem LayoutData.build_apply {σ τ : Type} (key : σ → Int) (val : σ → τ) (T : List σ)
    (ld : LayoutData τ) (K : Int) :
    (T.foldl (fun ld t => LayoutData.push_back ld (key t) (val t)) ld) K =
      ld K ++ (T.filter (fun t => decide (key t = K))).map val := by
  induction T generalizing ld with
  | nil => simp
  | cons t T ih =>
    rw [List.foldl_cons, ih]
    by_cases h : key t = K
    · rw [List.filter_cons_of_pos (by simpa using h)]
      simp [LayoutData.push_back, h]
    · rw [List.filter_cons_of_neg (by simpa using h)]
      simp only [LayoutData.push_back]
      rw [if_neg (fun hk => h hk.symm)]

theorem FB_local_copy_cpu.loc_copy_tags_apply (T : List CopyComTag) (K : Int) :
    FB_local_copy_cpu.loc_copy_tags T K =
      (T.filter (fun t => decide (t.dstIndex = K))).map
        (fun t => ⟨t.srcIndex, t.dbox, t.sbox.smallEnd.sub t.dbox.smallEnd⟩) := by
  unfold FB_local_copy_cpu.loc_copy_tags
  rw [LayoutData.build_apply (fun t : CopyComTag => t.dstIndex)
    (fun t : CopyComTag => (⟨t.srcIndex, t.dbox, t.sbox.smallEnd.sub t.dbox.smallEnd⟩ : FabCopyTag))]
  simp

theorem toFun_set_move {α : Type} (fa : FabArray α) (dK sK i j k n i' j' k' n' : Int) :
    (fa.set dK i j k n (fa sK i' j' k' n')).toFun =
      applyMove fa.toFun ((dK, i, j, k, n), (sK, i', j', k', n')) := by
  rw [FabArray.toFun_set]
  rfl

theorem BaseFab.copy_toFun {α : Type} (fa : FabArray α) (scomp : Int) (ncomp : Nat)
    (t : CopyComTag) :
    (BaseFab.copy fa t.dstIndex t.srcIndex t.sbox scomp t.dbox scomp ncomp).toFun =
      (tagMoves scomp ncomp t).foldl applyMove fa.toFun := by
  unfold BaseFab.copy tagMoves
  simp only
  rw [LoopConcurrentOnCpu_eq_foldl]
  apply foldl_hom_map FabArray.toFun
  intro s c
  exact toFun_set_move s _ _ _ _ _ _ _ _ _ _

/-- The thread-safe branch of `FB_local_copy_cpu` performs the moves of the
tags in list order. -/
theorem FB_local_copy_cpu.local_toFun_threadsafe {α : Type} (indexArray : List Int)
    (T : List CopyComTag) (scomp : Int) (ncomp : Nat) (fa : FabArray α) :
    (FB_local_copy_cpu indexArray ⟨T, true⟩ scomp ncomp fa).toFun =
      (T.flatMap (tagMoves scomp ncomp)).foldl applyMove fa.toFun := by
  unfold FB_local_copy_cpu
  simp only
  by_cases h0 : T.length = 0
  · rw [if_pos h0]
    have : T = [] := List.length_eq_zero.mp h0
    subst this
    rfl
  · rw [if_neg h0]
    simp only [if_true]
    exact foldl_hom_flatMap FabArray.toFun _ applyMove (tagMoves scomp ncomp)
      (fun s t => BaseFab.copy_toFun s scomp ncomp t) T fa

/-- The other branch of `FB_local_copy_cpu` performs the moves of the tags
regrouped by destination. -/
theorem FB_local_copy_cpu.local_toFun_regrouped {α : Type} (indexArray : List Int)
    (T : List CopyComTag) (scomp : Int) (ncomp : Nat) (fa : FabArray α) :
    (FB_local_copy_cpu indexArray ⟨T, false⟩ scomp ncomp fa).toFun =
      ((regroup CopyComTag.dstIndex indexArray T).flatMap (tagMoves scomp ncomp)).foldl
        applyMove fa.toFun := by
  unfold FB_local_copy_cpu
  simp only
  by_cases h0 : T.length = 0
  · rw [if_pos h0]
    have : T = [] := List.length_eq_zero.mp h0
    subst this
    have : regroup CopyComTag.dstIndex indexArray ([] : List CopyComTag) = [] := by
      unfold regroup
      simp
    rw [this]
    rfl
  · rw [if_neg h0]
    simp only [Bool.false_eq_true, if_false]
    unfold regroup
    rw [List.flatMap_assoc]
    apply foldl_hom_flatMap FabArray.toFun
    intro s K
    rw [FB_local_copy_cpu.loc_copy_tags_apply, List.foldl_map]
    apply foldl_hom_flatMap_mem FabArray.toFun
    intro s' t ht
    have hK : t.dstIndex = K := by simpa using (List.mem_filter.mp ht).2
    subst hK
    simp only
    rw [LoopConcurrentOnCpu_eq_foldl]
    unfold tagMoves
    apply foldl_hom_map FabArray.toFun
    intro s'' c
    exact toFun_set_move s'' _ _ _ _ _ _ _ _ _ _

theorem mem_tagMoves (scomp : Int) (ncomp : Nat) (t : CopyComTag) (m : Loc × Loc) :
    m ∈ tagMoves scomp ncomp t ↔
      ∃ i j k n, t.dbox.contains ⟨i, j, k⟩ = true ∧ 0 ≤ n ∧ n < (ncomp : Int) ∧
        m = ((t.dstIndex, i, j, k, n + scomp),
             (t.srcIndex, i + (t.sbox.smallEnd.sub t.dbox.smallEnd).x,
                j + (t.sbox.smallEnd.sub t.dbox.smallEnd).y,
                k + (t.sbox.smallEnd.sub t.dbox.smallEnd).z, n + scomp)) := by
  unfold tagMoves
  simp only [List.mem_map, mem_loopIndices]
  constructor
  · rintro ⟨⟨i, j, k, n⟩, ⟨hc, h0, h1⟩, rfl⟩
    exact ⟨i, j, k, n, hc, h0, h1, rfl⟩
  · rintro ⟨i, j, k, n, hc, h0, h1, rfl⟩
    exact ⟨(i, j, k, n), ⟨hc, h0, h1⟩, rfl⟩

theorem mem_regroup {τ : Type} (key : τ → Int) (indexArray : List Int) (T : List τ) (t : τ) :
    t ∈ regroup key indexArray T ↔ t ∈ T ∧ key t ∈ indexArray := by
  unfold regroup
  simp only [List.mem_flatMap, List.mem_filter, decide_eq_true_eq]
  constructor
  · rintro ⟨K, hK, ht, rfl⟩
    exact ⟨ht, hK⟩
  · rintro ⟨ht, hK⟩
    exact ⟨key t, hK, ht, rfl⟩

/-- When every tag has equal extents and no destination box meets a source box
of the same fab, no move reads a location that some move writes. -/
theorem tagMoves_noninterfering (L : List CopyComTag) (scomp : Int) (ncomp : Nat)
    (hds : ∀ a ∈ L, ∀ b ∈ L, a.dstIndex = b.srcIndex → a.dbox.intersects b.sbox = false)
    (hsame : ∀ t ∈ L, t.dbox.sameSize t.sbox = true) :
    ∀ m ∈ L.flatMap (tagMoves scomp ncomp), ∀ m' ∈ L.flatMap (tagMoves scomp ncomp),
      m.2 ≠ m'.1 := by
  intro m hm m' hm' heq
  obtain ⟨t, ht, hmt⟩ := List.mem_flatMap.mp hm
  obtain ⟨t', ht', hmt'⟩ := List.mem_flatMap.mp hm'
  obtain ⟨i, j, k, n, hc, _, _, rfl⟩ := (mem_tagMoves _ _ _ _).mp hmt
  obtain ⟨i', j', k', n', hc', _, _, rfl⟩ := (mem_tagMoves _ _ _ _).mp hmt'
  simp only [Prod.mk.injEq] at heq
  obtain ⟨hK, hi, hj, hk, _⟩ := heq
  have hs := Box.contains_shift t.dbox t.sbox (hsame t ht) ⟨i, j, k⟩
  rw [hc] at hs
  simp only [IntVect.add] at hs
  rw [hi, hj, hk] at hs
  exact Box.not_intersects _ _ (hds t' ht' t ht hK.symm) ⟨i', j', k'⟩ ⟨hc', hs⟩

/-- Result of the moves of a list of local tags with equal extents, pairwise
disjoint destination boxes per fab and no destination box meeting a source
box of the same fab: destinations hold the initial source values, everything
else is unchanged. -/
theorem local_moves_result {α : Type} (L : List CopyComTag) (scomp : Int) (ncomp : Nat)
    (s : Loc → α)
    (hdd : ∀ a ∈ L, ∀ b ∈ L, a ≠ b → a.dstIndex = b.dstIndex →
      a.dbox.intersects b.dbox = false)
    (hds : ∀ a ∈ L, ∀ b ∈ L, a.dstIndex = b.srcIndex → a.dbox.intersects b.sbox = false)
    (hsame : ∀ t ∈ L, t.dbox.sameSize t.sbox = true) :
    (∀ t ∈ L, ∀ i j k n, t.dbox.contains ⟨i, j, k⟩ = true → 0 ≤ n → n < (ncomp : Int) →
      (L.flatMap (tagMoves scomp ncomp)).foldl applyMove s (t.dstIndex, i, j, k, n + scomp) =
        s (t.srcIndex, i + (t.sbox.smallEnd.sub t.dbox.smallEnd).x,
            j + (t.sbox.smallEnd.sub t.dbox.smallEnd).y,
            k + (t.sbox.smallEnd.sub t.dbox.smallEnd).z, n + scomp)) ∧
    (∀ q : Loc,
      (∀ t ∈ L, ¬ (q.1 = t.dstIndex ∧ t.dbox.contains ⟨q.2.1, q.2.2.1, q.2.2.2.1⟩ = true ∧
        scomp ≤ q.2.2.2.2 ∧ q.2.2.2.2 < scomp + (ncomp : Int))) →
      (L.flatMap (tagMoves scomp ncomp)).foldl applyMove s q = s q) := by
  rw [foldl_applyMove_eq _ _ (tagMoves_noninterfering L scomp ncomp hds hsame)]
  constructor
  · intro t ht i j k n hc h0 h1
    rw [foldl_applyUpd_apply]
    apply foldl_const_updates
    · intro hnil
      rw [List.filter_eq_nil_iff] at hnil
      refine hnil (_, fun _ => s _) (List.mem_map.mpr ⟨_, List.mem_flatMap.mpr
        ⟨t, ht, (mem_tagMoves _ _ _ _).mpr ⟨i, j, k, n, hc, h0, h1, rfl⟩⟩, rfl⟩) ?_
      simp
    · intro u hu x
      obtain ⟨hu1, hu2⟩ := List.mem_filter.mp hu
      obtain ⟨m, hm, rfl⟩ := List.mem_map.mp hu1
      obtain ⟨t', ht', hmt'⟩ := List.mem_flatMap.mp hm
      obtain ⟨i', j', k', n', hc', _, _, rfl⟩ := (mem_tagMoves _ _ _ _).mp hmt'
      simp only [decide_eq_true_eq, Prod.mk.injEq] at hu2
      obtain ⟨hK, hi, hj, hk, hn⟩ := hu2
      subst hi hj hk
      have hnn : n' = n := by omega
      subst hnn
      by_cases htt : t' = t
      · subst htt
        rfl
      · exact absurd ⟨hc', hc⟩ (Box.not_intersects _ _ (hdd t' ht' t ht htt hK) ⟨i', j', k'⟩)
  · intro q hq
    apply foldl_applyUpd_frame
    intro u hu hcon
    obtain ⟨m, hm, rfl⟩ := List.mem_map.mp hu
    obtain ⟨t', ht', hmt'⟩ := List.mem_flatMap.mp hm
    obtain ⟨i', j', k', n', hc', h0', h1', rfl⟩ := (mem_tagMoves _ _ _ _).mp hmt'
    simp only at hcon
    subst hcon
    exact hq t' ht' ⟨rfl, hc', by simp only; omega, by simp only; omega⟩

theorem pairwise_disjoint_forall (T : List CopyComTag)
    (hdd : T.Pairwise (fun a b => a.dstIndex = b.dstIndex → a.dbox.intersects b.dbox = false)) :
    ∀ a ∈ T, ∀ b ∈ T, a ≠ b → a.dstIndex = b.dstIndex → a.dbox.intersects b.dbox = false := by
  intro a ha b hb hab
  refine List.Pairwise.forall ?_ hdd ha hb hab
  intro x y hxy he
  rw [Box.intersects_comm]
  exact hxy he.symm

/-- C6: for a local tag list whose destination boxes on a common fab are
pairwise disjoint and none of whose destination boxes meets a source box on
the same fab (the two boxes of every tag having equal extents, as the boxes of
a copy tag do, and the destinations being grids `MFIter` visits where the
routine regroups by destination), after `FB_local_copy_cpu` (either branch)
every cell `p` of every `tag.dbox` holds, in every component `n` of
`[scomp, scomp+ncomp)`, the pre-call value of
`fab[srcIndex](p + sbox.smallEnd() - dbox.smallEnd(), n)`, and every location
that is not such a cell and component is unchanged. -/
theorem FB_local_copy_cpu_fills_dboxes {α : Type} (indexArray : List Int)
    (T : List CopyComTag) (ts : Bool) (scomp : Int) (ncomp : Nat) (fa : FabArray α)
    (hlocal : ts = false → ∀ t ∈ T, t.dstIndex ∈ indexArray)
    (hsame : ∀ t ∈ T, t.dbox.sameSize t.sbox = true)
    (hdd : T.Pairwise (fun a b => a.dstIndex = b.dstIndex → a.dbox.intersects b.dbox = false))
    (hds : ∀ a ∈ T, ∀ b ∈ T, a.dstIndex = b.srcIndex → a.dbox.intersects b.sbox = false) :
    (∀ t ∈ T, ∀ p : IntVect, t.dbox.contains p = true →
      ∀ n : Int, scomp ≤ n → n < scomp + (ncomp : Int) →
        FB_local_copy_cpu indexArray ⟨T, ts⟩ scomp ncomp fa t.dstIndex p.x p.y p.z n =
          fa t.srcIndex (p.add (t.sbox.smallEnd.sub t.dbox.smallEnd)).x
            (p.add (t.sbox.smallEnd.sub t.dbox.smallEnd)).y
            (p.add (t.sbox.smallEnd.sub t.dbox.smallEnd)).z n) ∧
    (∀ (K : Int) (p : IntVect) (n : Int),
      (∀ t ∈ T, ¬ (t.dstIndex = K ∧ t.dbox.contains p = true ∧
        scomp ≤ n ∧ n < scomp + (ncomp : Int))) →
      FB_local_copy_cpu indexArray ⟨T, ts⟩ scomp ncomp fa K p.x p.y p.z n =
        fa K p.x p.y p.z n) := by
  have hall := pairwise_disjoint_forall T hdd
  have key : ∃ L : List CopyComTag, (∀ t, t ∈ L ↔ t ∈ T) ∧
      (FB_local_copy_cpu indexArray ⟨T, ts⟩ scomp ncomp fa).toFun =
        (L.flatMap (tagMoves scomp ncomp)).foldl applyMove fa.toFun := by
    cases ts
    · refine ⟨regroup CopyComTag.dstIndex indexArray T, fun t => ?_,
        FB_local_copy_cpu.local_toFun_regrouped indexArray T scomp ncomp fa⟩
      rw [mem_regroup]
      exact ⟨fun h => h.1, fun h => ⟨h, hlocal rfl t h⟩⟩
    · exact ⟨T, fun t => Iff.rfl, FB_local_copy_cpu.local_toFun_threadsafe indexArray T scomp ncomp fa⟩
  obtain ⟨L, hL, hfun⟩ := key
  have hres := local_moves_result L scomp ncomp fa.toFun
    (fun a ha b hb => hall a ((hL a).mp ha) b ((hL b).mp hb))
    (fun a ha b hb => hds a ((hL a).mp ha) b ((hL b).mp hb))
    (fun t ht => hsame t ((hL t).mp ht))
  rw [← hfun] at hres
  constructor
  · intro t ht p hp n hn0 hn1
    have := hres.1 t ((hL t).mpr ht) p.x p.y p.z (n - scomp) hp (by omega) (by omega)
    simp only [FabArray.toFun, sub_add_cancel] at this
    exact this
  · intro K p n hq
    have := hres.2 (K, p.x, p.y, p.z, n) (fun t ht hcon =>
      hq t ((hL t).mp ht) ⟨hcon.1.symm, hcon.2.1, hcon.2.2.1, hcon.2.2.2⟩)
    exact this

theorem FB_local_copy_cpu_fills_dboxes_witness :
    (false = false → ∀ t ∈ [wrapLo, wrapHi], t.dstIndex ∈ [(0 : Int)]) ∧
    (∀ t ∈ [wrapLo, wrapHi], t.dbox.sameSize t.sbox = true) ∧
    [wrapLo, wrapHi].Pairwise
      (fun a b => a.dstIndex = b.dstIndex → a.dbox.intersects b.dbox = false) ∧
    (∀ a ∈ [wrapLo, wrapHi], ∀ b ∈ [wrapLo, wrapHi],
      a.dstIndex = b.srcIndex → a.dbox.intersects b.sbox = false) ∧
    FB_local_copy_cpu [0] ⟨[wrapLo, wrapHi], false⟩ 0 1 cexFab 0 (-2) 0 0 0 = cexFab 0 8 0 0 0 ∧
    FB_local_copy_cpu [0] ⟨[wrapLo, wrapHi], false⟩ 0 1 cexFab 0 5 0 0 0 = cexFab 0 5 0 0 0 :=
  ⟨fun _ => by decide, by decide, by decide, by decide,
    (FB_local_copy_cpu_fills_dboxes [0] [wrapLo, wrapHi] false 0 1 cexFab
      (fun _ => by decide) (by decide) (by decide) (by decide)).1 wrapLo (by decide) ⟨-2, 0, 0⟩
      (by decide) 0 (by decide) (by decide),
    (FB_local_copy_cpu_fills_dboxes [0] [wrapLo, wrapHi] false 0 1 cexFab
      (fun _ => by decide) (by decide) (by decide) (by decide)).2 0 ⟨5, 0, 0⟩ 0 (by decide)⟩

/-- C8: for a tag list whose destination boxes on a common fab are pairwise
disjoint and none of whose destination boxes meets a source box on the same
fab (the two boxes of every tag having equal extents, as the boxes of a copy
tag do), the thread-safe branch of `FB_local_copy_cpu` run over any
permutation of the list leaves the same contents in every fab. -/
theorem FB_local_copy_cpu_order_independent {α : Type} (indexArray : List Int)
    (T T' : List CopyComTag) (scomp : Int) (ncomp : Nat) (fa : FabArray α)
    (hperm : T'.Perm T)
    (hsame : ∀ t ∈ T, t.dbox.sameSize t.sbox = true)
    (hdd : T.Pairwise (fun a b => a.dstIndex = b.dstIndex → a.dbox.intersects b.dbox = false))
    (hds : ∀ a ∈ T, ∀ b ∈ T, a.dstIndex = b.srcIndex → a.dbox.intersects b.sbox = false) :
    FB_local_copy_cpu indexArray ⟨T', true⟩ scomp ncomp fa =
      FB_local_copy_cpu indexArray ⟨T, true⟩ scomp ncomp fa := by
  have hall := pairwise_disjoint_forall T hdd
  have hmem : ∀ t, t ∈ T' ↔ t ∈ T := fun t => hperm.mem_iff
  have hres := local_moves_result T scomp ncomp fa.toFun hall hds hsame
  have hres' := local_moves_result T' scomp ncomp fa.toFun
    (fun a ha b hb => hall a ((hmem a).mp ha) b ((hmem b).mp hb))
    (fun a ha b hb => hds a ((hmem a).mp ha) b ((hmem b).mp hb))
    (fun t ht => hsame t ((hmem t).mp ht))
  apply FabArray.toFun_inj
  rw [FB_local_copy_cpu.local_toFun_threadsafe, FB_local_copy_cpu.local_toFun_threadsafe]
  funext q
  by_cases hq : ∃ t ∈ T, q.1 = t.dstIndex ∧
      t.dbox.contains ⟨q.2.1, q.2.2.1, q.2.2.2.1⟩ = true ∧
      scomp ≤ q.2.2.2.2 ∧ q.2.2.2.2 < scomp + (ncomp : Int)
  · obtain ⟨t, ht, hK, hc, h0, h1⟩ := hq
    obtain ⟨K, i, j, k, n⟩ := q
    simp only at hK hc h0 h1
    subst hK
    have e1 := hres.1 t ht i j k (n - scomp) hc (by omega) (by omega)
    have e2 := hres'.1 t ((hmem t).mpr ht) i j k (n - scomp) hc (by omega) (by omega)
    simp only [sub_add_cancel] at e1 e2
    rw [e1, e2]
  · have hq' : ∀ t ∈ T, ¬ (q.1 = t.dstIndex ∧
        t.dbox.contains ⟨q.2.1, q.2.2.1, q.2.2.2.1⟩ = true ∧
        scomp ≤ q.2.2.2.2 ∧ q.2.2.2.2 < scomp + (ncomp : Int)) :=
      fun t ht hcon => hq ⟨t, ht, hcon⟩
    rw [hres.2 q hq', hres'.2 q (fun t ht => hq' t ((hmem t).mp ht))]

theorem FB_local_copy_cpu_order_independent_witness :
    [wrapHi, wrapLo].Perm [wrapLo, wrapHi] ∧
    (∀ t ∈ [wrapLo, wrapHi], t.dbox.sameSize t.sbox = true) ∧
    [wrapLo, wrapHi].Pairwise
      (fun a b => a.dstIndex = b.dstIndex → a.dbox.intersects b.dbox = false) ∧
    (∀ a ∈ [wrapLo, wrapHi], ∀ b ∈ [wrapLo, wrapHi],
      a.dstIndex = b.srcIndex → a.dbox.intersects b.sbox = false) ∧
    FB_local_copy_cpu [0] ⟨[wrapHi, wrapLo], true⟩ 0 1 cexFab =
      FB_local_copy_cpu [0] ⟨[wrapLo, wrapHi], true⟩ 0 1 cexFab :=
  ⟨List.Perm.swap _ _ _, by decide, by decide, by decide,
    FB_local_copy_cpu_order_independent [0] [wrapLo, wrapHi] [wrapHi, wrapLo] 0 1 cexFab
      (List.Perm.swap _ _ _) (by decide) (by decide) (by decide)⟩

/-! ### `pack_send_buffer_cpu` as a list of stores -/

theorem Buffer.write_eq_applyUpd {α : Type} (b : Buffer α) (addr : Int) (v : α) :
    b.write addr v = applyUpd b (addr, fun _ => v) := by
  funext a
  simp only [Buffer.write, applyUpd]

theorem pack_send_buffer_cpu.pack_tag_eq {α : Type} (sz : Int) (src : FabArray α) (scomp : Int)
    (ncomp : Nat) (st : Buffer α × Int) (t : CopyComTag) :
    pack_send_buffer_cpu.tag sz src scomp ncomp st t =
      ((packUpds sz src scomp ncomp st.2 t).foldl applyUpd st.1,
       st.2 + t.sbox.numPts * (ncomp : Int) * sz) := by
  unfold pack_send_buffer_cpu.tag packUpds
  simp only [Prod.mk.injEq, and_true]
  rw [LoopConcurrentOnCpu_eq_foldl]
  apply foldl_map_step
  intro s c
  exact Buffer.write_eq_applyUpd s _ _

theorem pack_send_buffer_cpu.pack_fold_eq {α : Type} (sz : Int) (src : FabArray α) (scomp : Int)
    (ncomp : Nat) (tags : List CopyComTag) (buf : Buffer α) (d : Int) :
    tags.foldl (pack_send_buffer_cpu.tag sz src scomp ncomp) (buf, d) =
      ((packUpdsFrom sz src scomp ncomp d tags).foldl applyUpd buf,
       d + sendBytes sz ncomp tags) := by
  induction tags generalizing buf d with
  | nil => simp [packUpdsFrom, sendBytes]
  | cons t ts ih =>
    rw [List.foldl_cons, pack_send_buffer_cpu.pack_tag_eq, ih]
    simp only [packUpdsFrom, List.foldl_append, sendBytes, List.map_cons, List.sum_cons,
      Prod.mk.injEq, true_and]
    ring

theorem packUpdsFrom_append {α : Type} (sz : Int) (src : FabArray α) (scomp : Int)
    (ncomp : Nat) (d : Int) (l1 l2 : List CopyComTag) :
    packUpdsFrom sz src scomp ncomp d (l1 ++ l2) =
      packUpdsFrom sz src scomp ncomp d l1 ++
        packUpdsFrom sz src scomp ncomp (d + sendBytes sz ncomp l1) l2 := by
  induction l1 generalizing d with
  | nil => simp [packUpdsFrom, sendBytes]
  | cons t ts ih =>
    have e : d + sendBytes sz ncomp (t :: ts) =
        d + t.sbox.numPts * (ncomp : Int) * sz + sendBytes sz ncomp ts := by
      simp only [sendBytes, List.map_cons, List.sum_cons]
      ring
    rw [e, List.cons_append]
    simp only [packUpdsFrom, List.append_assoc]
    rw [ih]

theorem tagBytes_nonneg (sz : Int) (hsz : 0 < sz) (ncomp : Nat) (b : Box) :
    0 ≤ b.numPts * (ncomp : Int) * sz :=
  mul_nonneg (mul_nonneg (Box.numPts_nonneg b) (Int.ofNat_nonneg _)) (le_of_lt hsz)

theorem sendBytes_nonneg (sz : Int) (hsz : 0 < sz) (ncomp : Nat) (tags : List CopyComTag) :
    0 ≤ sendBytes sz ncomp tags := by
  unfold sendBytes
  apply List.sum_nonneg
  intro x hx
  obtain ⟨t, _, rfl⟩ := List.mem_map.mp hx
  exact tagBytes_nonneg sz hsz ncomp _

/-- The element with linear index `off < N` of a slice starting at `d` lies
inside the `N * sz` bytes of the slice. -/
theorem slice_range (sz : Int) (hsz : 0 < sz) (d off N : Int) (h0 : 0 ≤ off) (h1 : off < N) :
    d ≤ d + sz * off ∧ d + sz * off + sz ≤ d + N * sz := by
  have h2 : 0 ≤ sz * off := mul_nonneg (le_of_lt hsz) h0
  have h3 : 0 ≤ sz * (N - off - 1) := mul_nonneg (le_of_lt hsz) (by omega)
  constructor
  · omega
  · nlinarith

theorem packUpds_range {α : Type} (sz : Int) (hsz : 0 < sz) (src : FabArray α) (scomp : Int)
    (ncomp : Nat) (d : Int) (t : CopyComTag) :
    ∀ u ∈ packUpds sz src scomp ncomp d t,
      d ≤ u.1 ∧ u.1 + sz ≤ d + t.sbox.numPts * (ncomp : Int) * sz := by
  intro u hu
  unfold packUpds at hu
  obtain ⟨c, hc, rfl⟩ := List.mem_map.mp hu
  rw [mem_loopIndices] at hc
  obtain ⟨hb0, hb1⟩ := Array4.offsetOf_bound t.sbox ncomp c.1 c.2.1 c.2.2.1 c.2.2.2 hc.1 hc.2.1
    hc.2.2
  exact slice_range sz hsz d _ _ hb0 hb1

theorem packUpdsFrom_range {α : Type} (sz : Int) (hsz : 0 < sz) (src : FabArray α)
    (scomp : Int) (ncomp : Nat) (tags : List CopyComTag) (d : Int) :
    ∀ u ∈ packUpdsFrom sz src scomp ncomp d tags,
      d ≤ u.1 ∧ u.1 + sz ≤ d + sendBytes sz ncomp tags := by
  induction tags generalizing d with
  | nil => intro u hu; simp [packUpdsFrom] at hu
  | cons t ts ih =>
    intro u hu
    simp only [packUpdsFrom, List.mem_append] at hu
    have hts := sendBytes_nonneg sz hsz ncomp ts
    have ht := tagBytes_nonneg sz hsz ncomp t.sbox
    simp only [sendBytes, List.map_cons, List.sum_cons] at hts ⊢
    rcases hu with hu | hu
    · have := packUpds_range sz hsz src scomp ncomp d t u hu
      omega
    · have := ih _ u hu
      simp only [sendBytes] at this
      omega

/-- Value of a packed buffer at the element of cell `(i,j,k)`, component `n`
of the tag `t` that follows the tags `pre`. -/
theorem packed_value {α : Type} (sz : Int) (hsz : 0 < sz) (src : FabArray α) (scomp : Int)
    (ncomp : Nat) (buf : Buffer α) (d : Int) (pre post : List CopyComTag) (t : CopyComTag)
    (i j k n : Int) (hc : t.sbox.contains ⟨i, j, k⟩ = true) (hn0 : 0 ≤ n)
    (hn1 : n < (ncomp : Int)) :
    (packUpdsFrom sz src scomp ncomp d (pre ++ t :: post)).foldl applyUpd buf
        (d + sendBytes sz ncomp pre + sz * Array4.offsetOf t.sbox i j k n) =
      src t.srcIndex i j k (n + scomp) := by
  obtain ⟨hb0, hb1⟩ := Array4.offsetOf_bound t.sbox ncomp i j k n hc hn0 hn1
  have hq := slice_range sz hsz (d + sendBytes sz ncomp pre) _ _ hb0 hb1
  rw [foldl_applyUpd_apply]
  rw [packUpdsFrom_append]
  simp only [packUpdsFrom, List.filter_append]
  have h1 : (packUpdsFrom sz src scomp ncomp d pre).filter
      (fun u => decide (u.1 = d + sendBytes sz ncomp pre + sz * Array4.offsetOf t.sbox i j k n))
      = [] := by
    rw [List.filter_eq_nil_iff]
    intro u hu
    have := packUpdsFrom_range sz hsz src scomp ncomp pre d u hu
    simp only [decide_eq_true_eq]
    omega
  have h3 : (packUpdsFrom sz src scomp ncomp
      (d + sendBytes sz ncomp pre + t.sbox.numPts * (ncomp : Int) * sz) post).filter
      (fun u => decide (u.1 = d + sendBytes sz ncomp pre + sz * Array4.offsetOf t.sbox i j k n))
      = [] := by
    rw [List.filter_eq_nil_iff]
    intro u hu
    have := packUpdsFrom_range sz hsz src scomp ncomp post _ u hu
    simp only [decide_eq_true_eq]
    omega
  rw [h1, h3, List.nil_append, List.append_nil]
  apply foldl_const_updates
  · intro hnil
    rw [List.filter_eq_nil_iff] at hnil
    refine hnil (d + sendBytes sz ncomp pre + sz * Array4.offsetOf t.sbox i j k n,
      fun _ => src t.srcIndex i j k (n + scomp)) ?_ (by simp)
    unfold packUpds
    exact List.mem_map.mpr ⟨(i, j, k, n), (mem_loopIndices _ _ _).mpr ⟨hc, hn0, hn1⟩, rfl⟩
  · intro u hu x
    obtain ⟨hu1, hu2⟩ := List.mem_filter.mp hu
    unfold packUpds at hu1
    obtain ⟨c, hcm, rfl⟩ := List.mem_map.mp hu1
    rw [mem_loopIndices] at hcm
    simp only [decide_eq_true_eq] at hu2
    have hoff : Array4.offsetOf t.sbox c.1 c.2.1 c.2.2.1 c.2.2.2 =
        Array4.offsetOf t.sbox i j k n := by
      have : sz * Array4.offsetOf t.sbox c.1 c.2.1 c.2.2.1 c.2.2.2 =
          sz * Array4.offsetOf t.sbox i j k n := by omega
      exact mul_left_cancel₀ (ne_of_gt hsz) this
    obtain ⟨e1, e2, e3, e4⟩ := Array4.offsetOf_inj t.sbox _ _ _ _ _ _ _ _ hcm.1 hc hoff
    simp only [e1, e2, e3, e4]

theorem sendBytes_eq (sz : Int) (ncomp : Nat) (tags : List CopyComTag) :
    sendBytes sz ncomp tags = sz * (ncomp : Int) * (tags.map (fun u => u.sbox.numPts)).sum := by
  induction tags with
  | nil => simp [sendBytes]
  | cons t ts ih =>
    simp only [sendBytes, List.map_cons, List.sum_cons] at ih ⊢
    rw [ih]
    ring

theorem recvBytes_eq (sz : Int) (ncomp : Nat) (tags : List CopyComTag) :
    recvBytes sz ncomp tags = sz * (ncomp : Int) * (tags.map (fun u => u.dbox.numPts)).sum := by
  induction tags with
  | nil => simp [recvBytes]
  | cons t ts ih =>
    simp only [recvBytes, List.map_cons, List.sum_cons] at ih ⊢
    rw [ih]
    ring

theorem pack_send_buffer_cpu.pack_peer_eq {α : Type} (sz : Int) (src : FabArray α) (scomp : Int)
    (ncomp : Nat) (pr : CommPeer α) (hsize : 0 < pr.size) :
    pack_send_buffer_cpu.peer sz src scomp ncomp pr =
      ((packUpdsFrom sz src scomp ncomp 0 pr.cctc).foldl applyUpd pr.data,
       sendBytes sz ncomp pr.cctc) := by
  unfold pack_send_buffer_cpu.peer
  rw [if_pos hsize, pack_send_buffer_cpu.pack_fold_eq, zero_add]

theorem pack_send_buffer_cpu_getElem {α : Type} (sz : Int) (src : FabArray α) (scomp : Int)
    (ncomp : Nat) (S1 S2 : List (CommPeer α)) (pr : CommPeer α) :
    (pack_send_buffer_cpu sz src scomp ncomp (S1 ++ pr :: S2))[S1.length]? =
      some (pack_send_buffer_cpu.peer sz src scomp ncomp pr).1 := by
  unfold pack_send_buffer_cpu
  rw [List.map_append, List.map_cons]
  rw [List.getElem?_append_right (by simp)]
  simp

/-- C3: `pack_send_buffer_cpu` lays out a non-empty peer buffer as the peer's
tags in container order with no gaps: the tag `t` that follows the tags `pre`
starts at byte `sizeof(value_type) * ncomp * (sum of sbox.numPts() over pre)`,
and the element with linear index
`(i-lo.x) + nx*((j-lo.y) + ny*((k-lo.z) + nz*n))` of that tag, an index in
`[0, numPts * ncomp)`, is `src[srcIndex](i,j,k,scomp+n)`, for every cell of
`sbox` and every `n < ncomp`. -/
theorem pack_send_buffer_cpu_layout {α : Type} (sz : Int) (hsz : 0 < sz) (src : FabArray α)
    (scomp : Int) (ncomp : Nat) (S1 S2 : List (CommPeer α)) (mem : Buffer α) (size : Nat)
    (hsize : 0 < size) (pre post : List CopyComTag) (t : CopyComTag) (i j k : Int) (n : Nat)
    (hc : t.sbox.contains ⟨i, j, k⟩ = true) (hn : n < ncomp) :
    ∃ buf : Buffer α,
      (pack_send_buffer_cpu sz src scomp ncomp
        (S1 ++ ⟨mem, size, pre ++ t :: post⟩ :: S2))[S1.length]? = some buf ∧
      buf (sz * (ncomp : Int) * (pre.map (fun u => u.sbox.numPts)).sum +
          sz * ((i - t.sbox.smallEnd.x) + t.sbox.length.x * ((j - t.sbox.smallEnd.y) +
            t.sbox.length.y * ((k - t.sbox.smallEnd.z) + t.sbox.length.z * (n : Int))))) =
        src t.srcIndex i j k (scomp + (n : Int)) ∧
      0 ≤ (i - t.sbox.smallEnd.x) + t.sbox.length.x * ((j - t.sbox.smallEnd.y) +
            t.sbox.length.y * ((k - t.sbox.smallEnd.z) + t.sbox.length.z * (n : Int))) ∧
      (i - t.sbox.smallEnd.x) + t.sbox.length.x * ((j - t.sbox.smallEnd.y) +
            t.sbox.length.y * ((k - t.sbox.smallEnd.z) + t.sbox.length.z * (n : Int))) <
        t.sbox.numPts * (ncomp : Int) := by
  refine ⟨_, pack_send_buffer_cpu_getElem sz src scomp ncomp S1 S2 _, ?_,
    Array4.offsetOf_bound t.sbox ncomp i j k n hc (by omega) (by omega)⟩
  rw [pack_send_buffer_cpu.pack_peer_eq sz src scomp ncomp _ hsize]
  have := packed_value sz hsz src scomp ncomp mem 0 pre post t i j k (n : Int) hc (by omega)
    (by omega)
  rw [zero_add, sendBytes_eq, add_comm (n : Int) scomp] at this
  exact this

theorem pack_send_buffer_cpu_layout_witness :
    (0 : Int) < 4 ∧ 0 < 16 ∧ wrapHi.sbox.contains ⟨1, 0, 0⟩ = true ∧ 0 < 1 ∧
    ∃ buf : Buffer Int,
      (pack_send_buffer_cpu 4 cexFab 0 1
        ([] ++ ⟨fun _ => 0, 16, [wrapLo] ++ wrapHi :: []⟩ :: []))[([] : List (CommPeer Int)).length]?
          = some buf ∧
      buf (4 * ((1 : Nat) : Int) * ([wrapLo].map (fun u => u.sbox.numPts)).sum +
          4 * ((1 - wrapHi.sbox.smallEnd.x) + wrapHi.sbox.length.x * ((0 - wrapHi.sbox.smallEnd.y) +
            wrapHi.sbox.length.y * ((0 - wrapHi.sbox.smallEnd.z) +
              wrapHi.sbox.length.z * ((0 : Nat) : Int))))) =
        cexFab wrapHi.srcIndex 1 0 0 (0 + ((0 : Nat) : Int)) ∧
      0 ≤ (1 - wrapHi.sbox.smallEnd.x) + wrapHi.sbox.length.x * ((0 - wrapHi.sbox.smallEnd.y) +
            wrapHi.sbox.length.y * ((0 - wrapHi.sbox.smallEnd.z) +
              wrapHi.sbox.length.z * ((0 : Nat) : Int))) ∧
      (1 - wrapHi.sbox.smallEnd.x) + wrapHi.sbox.length.x * ((0 - wrapHi.sbox.smallEnd.y) +
            wrapHi.sbox.length.y * ((0 - wrapHi.sbox.smallEnd.z) +
              wrapHi.sbox.length.z * ((0 : Nat) : Int))) <
        wrapHi.sbox.numPts * ((1 : Nat) : Int) :=
  ⟨by decide, by decide, by decide, by decide,
    pack_send_buffer_cpu_layout 4 (by decide) cexFab 0 1 [] [] (fun _ => 0) 16 (by decide)
      [wrapLo] [] wrapHi 1 0 0 0 (by decide) (by decide)⟩

/-! ### `unpack_recv_buffer_cpu` as a list of in-place updates -/

theorem toFun_set_upd {α : Type} (fa : FabArray α) (K i j k n : Int) (g : α → α) :
    (fa.set K i j k n (g (fa K i j k n))).toFun = applyUpd fa.toFun ((K, i, j, k, n), g) := by
  rw [FabArray.toFun_set]
  rfl

theorem unpack_recv_buffer_cpu.apply_toFun {α : Type} [Add α] (sz : Int) (dcomp : Int)
    (ncomp : Nat) (op : CpOp) (dst : FabArray α) (x : Int × VoidCopyTag α) :
    (unpack_recv_buffer_cpu.apply sz dcomp ncomp op x.1 dst x.2).toFun =
      (voidUpds sz dcomp ncomp op x).foldl applyUpd dst.toFun := by
  unfold unpack_recv_buffer_cpu.apply voidUpds
  cases op
  · simp only
    rw [LoopConcurrentOnCpu_eq_foldl]
    apply foldl_hom_map FabArray.toFun
    intro s c
    exact toFun_set_upd s _ _ _ _ _ (opFun CpOp.COPY _)
  · simp only
    rw [LoopConcurrentOnCpu_eq_foldl]
    apply foldl_hom_map FabArray.toFun
    intro s c
    exact toFun_set_upd s _ _ _ _ _ (opFun CpOp.ADD _)

theorem unpack_recv_buffer_cpu.unpack_tag_eq {α : Type} [Add α] (sz : Int) (dcomp : Int) (ncomp : Nat)
    (op : CpOp) (mem : Buffer α) (st : FabArray α × Int) (t : CopyComTag) :
    unpack_recv_buffer_cpu.tag sz dcomp ncomp op mem st t =
      (unpack_recv_buffer_cpu.apply sz dcomp ncomp op t.dstIndex st.1 ⟨mem, st.2, t.dbox⟩,
       st.2 + t.dbox.numPts * (ncomp : Int) * sz) := by
  cases op <;> rfl

theorem unpack_recv_buffer_cpu.unpack_fold_eq {α : Type} [Add α] (sz : Int) (dcomp : Int) (ncomp : Nat)
    (op : CpOp) (mem : Buffer α) (tags : List CopyComTag) (dst : FabArray α) (d : Int) :
    tags.foldl (unpack_recv_buffer_cpu.tag sz dcomp ncomp op mem) (dst, d) =
      ((place sz ncomp mem d tags).foldl
          (fun dst x => unpack_recv_buffer_cpu.apply sz dcomp ncomp op x.1 dst x.2) dst,
       d + recvBytes sz ncomp tags) := by
  induction tags generalizing dst d with
  | nil => simp [place, recvBytes]
  | cons t ts ih =>
    rw [List.foldl_cons, unpack_recv_buffer_cpu.unpack_tag_eq, ih]
    simp only [place, List.foldl_cons, recvBytes, List.map_cons, List.sum_cons, Prod.mk.injEq,
      true_and]
    ring

theorem unpack_recv_buffer_cpu.unpack_peer_eq {α : Type} [Add α] (sz : Int) (dcomp : Int) (ncomp : Nat)
    (op : CpOp) (dst : FabArray α) (pr : CommPeer α) :
    (unpack_recv_buffer_cpu.peer sz dcomp ncomp op dst pr).1 =
      (placedPeer sz ncomp pr).foldl
        (fun dst x => unpack_recv_buffer_cpu.apply sz dcomp ncomp op x.1 dst x.2) dst := by
  unfold unpack_recv_buffer_cpu.peer placedPeer
  by_cases h : 0 < pr.size
  · rw [if_pos h, if_pos h, unpack_recv_buffer_cpu.unpack_fold_eq]
  · rw [if_neg h, if_neg h]
    rfl

theorem unpack_recv_buffer_cpu.file_fold_eq {α : Type} (sz : Int) (ncomp : Nat)
    (mem : Buffer α) (tags : List CopyComTag) (ld : LayoutData (VoidCopyTag α)) (d : Int) :
    tags.foldl (fun (st : LayoutData (VoidCopyTag α) × Int) tag =>
        (st.1.push_back tag.dstIndex ⟨mem, st.2, tag.dbox⟩,
         st.2 + tag.dbox.numPts * (ncomp : Int) * sz)) (ld, d) =
      ((place sz ncomp mem d tags).foldl (fun ld x => LayoutData.push_back ld x.1 x.2) ld,
       d + recvBytes sz ncomp tags) := by
  induction tags generalizing ld d with
  | nil => simp [place, recvBytes]
  | cons t ts ih =>
    rw [List.foldl_cons, ih]
    simp only [place, List.foldl_cons, recvBytes, List.map_cons, List.sum_cons, Prod.mk.injEq,
      true_and]
    ring

theorem unpack_recv_buffer_cpu.file_eq {α : Type} (sz : Int) (ncomp : Nat)
    (ld : LayoutData (VoidCopyTag α)) (pr : CommPeer α) :
    (unpack_recv_buffer_cpu.file sz ncomp ld pr).1 =
      (placedPeer sz ncomp pr).foldl (fun ld x => LayoutData.push_back ld x.1 x.2) ld := by
  unfold unpack_recv_buffer_cpu.file placedPeer
  by_cases h : 0 < pr.size
  · rw [if_pos h, if_pos h, unpack_recv_buffer_cpu.file_fold_eq]
  · rw [if_neg h, if_neg h]
    rfl

/-- The thread-safe branch of `unpack_recv_buffer_cpu` performs the updates of
the placed tags in buffer order. -/
theorem unpack_recv_buffer_cpu.unpack_toFun_threadsafe {α : Type} [Add α] (sz : Int)
    (indexArray : List Int) (dst : FabArray α) (dcomp : Int) (ncomp : Nat)
    (rcv : List (CommPeer α)) (op : CpOp) :
    (unpack_recv_buffer_cpu sz indexArray dst dcomp ncomp rcv op true).toFun =
      ((rcv.flatMap (placedPeer sz ncomp)).flatMap (voidUpds sz dcomp ncomp op)).foldl
        applyUpd dst.toFun := by
  unfold unpack_recv_buffer_cpu
  simp only
  by_cases h0 : rcv.length = 0
  · rw [if_pos h0]
    have : rcv = [] := List.length_eq_zero.mp h0
    subst this
    rfl
  · rw [if_neg h0]
    simp only [if_true]
    rw [List.flatMap_assoc]
    apply foldl_hom_flatMap FabArray.toFun
    intro s pr
    rw [unpack_recv_buffer_cpu.unpack_peer_eq]
    exact foldl_hom_flatMap FabArray.toFun _ applyUpd (voidUpds sz dcomp ncomp op)
      (fun s x => unpack_recv_buffer_cpu.apply_toFun sz dcomp ncomp op s x) _ s

theorem recv_copy_tags_apply {α : Type} (sz : Int) (ncomp : Nat) (rcv : List (CommPeer α))
    (K : Int) :
    (rcv.foldl (fun ld pr => (unpack_recv_buffer_cpu.file sz ncomp ld pr).1) (fun _ => [])) K =
      ((rcv.flatMap (placedPeer sz ncomp)).filter (fun x => decide (x.1 = K))).map Prod.snd := by
  have h : rcv.foldl (fun ld pr => (unpack_recv_buffer_cpu.file sz ncomp ld pr).1)
      (fun _ => []) =
      (rcv.flatMap (placedPeer sz ncomp)).foldl
        (fun ld x => LayoutData.push_back ld x.1 x.2) (fun _ => []) := by
    rw [foldl_flatMap_eq]
    congr 1
    funext ld pr
    exact unpack_recv_buffer_cpu.file_eq sz ncomp ld pr
  rw [h, LayoutData.build_apply Prod.fst Prod.snd]
  simp

/-- The other branch of `unpack_recv_buffer_cpu` performs the updates of the
placed tags regrouped by destination. -/
theorem unpack_recv_buffer_cpu.unpack_toFun_regrouped {α : Type} [Add α] (sz : Int)
    (indexArray : List Int) (dst : FabArray α) (dcomp : Int) (ncomp : Nat)
    (rcv : List (CommPeer α)) (op : CpOp) :
    (unpack_recv_buffer_cpu sz indexArray dst dcomp ncomp rcv op false).toFun =
      ((regroup Prod.fst indexArray (rcv.flatMap (placedPeer sz ncomp))).flatMap
        (voidUpds sz dcomp ncomp op)).foldl applyUpd dst.toFun := by
  unfold unpack_recv_buffer_cpu
  simp only
  by_cases h0 : rcv.length = 0
  · rw [if_pos h0]
    have : rcv = [] := List.length_eq_zero.mp h0
    subst this
    have : regroup Prod.fst indexArray
        (([] : List (CommPeer α)).flatMap (placedPeer sz ncomp)) = [] := by
      unfold regroup
      simp
    rw [this]
    rfl
  · rw [if_neg h0]
    simp only [Bool.false_eq_true, if_false]
    unfold regroup
    rw [List.flatMap_assoc]
    apply foldl_hom_flatMap FabArray.toFun
    intro s K
    rw [recv_copy_tags_apply, List.foldl_map]
    apply foldl_hom_flatMap_mem FabArray.toFun
    intro s' x hx
    have hK : x.1 = K := by simpa using (List.mem_filter.mp hx).2
    subst hK
    exact unpack_recv_buffer_cpu.apply_toFun sz dcomp ncomp op s' x

theorem filter_flatMap_restrict {τ υ : Type} (L : List τ) (g : τ → List υ) (p : υ → Bool)
    (r : τ → Bool) (h : ∀ x ∈ L, r x = false → (g x).filter p = []) :
    (L.flatMap g).filter p = ((L.filter r).flatMap g).filter p := by
  induction L with
  | nil => rfl
  | cons x L ih =>
    have ih' := ih (fun y hy => h y (List.mem_cons_of_mem _ hy))
    cases hr : r x
    · rw [List.filter_cons_of_neg (by simp [hr]), List.flatMap_cons, List.filter_append,
        h x (List.mem_cons_self _ _) hr, List.nil_append, ih']
    · rw [List.filter_cons_of_pos hr, List.flatMap_cons, List.flatMap_cons, List.filter_append,
        List.filter_append, ih']

theorem filter_regroup {τ : Type} (key : τ → Int) (indexArray : List Int) (T : List τ)
    (K : Int) (hnd : indexArray.Nodup) (hK : K ∈ indexArray) :
    (regroup key indexArray T).filter (fun t => decide (key t = K)) =
      T.filter (fun t => decide (key t = K)) := by
  unfold regroup
  induction indexArray with
  | nil => exact absurd hK (List.not_mem_nil _)
  | cons a l ih =>
    rw [List.flatMap_cons, List.filter_append, List.filter_filter]
    have hnil : ∀ l' : List Int, K ∉ l' →
        (l'.flatMap (fun K' => T.filter (fun t => decide (key t = K')))).filter
          (fun t => decide (key t = K)) = [] := by
      intro l' hl'
      rw [List.filter_eq_nil_iff]
      intro t ht
      obtain ⟨K', hK', htK'⟩ := List.mem_flatMap.mp ht
      have : key t = K' := by simpa using (List.mem_filter.mp htK').2
      simp only [decide_eq_true_eq]
      intro hcon
      exact hl' (by rw [← hcon, this]; exact hK')
    by_cases ha : a = K
    · subst ha
      rw [hnil l (List.nodup_cons.mp hnd).1, List.append_nil]
      congr 1
      funext t
      simp
    · have hKl : K ∈ l := by
        rcases List.mem_cons.mp hK with h | h
        · exact absurd h.symm ha
        · exact h
      rw [ih (List.nodup_cons.mp hnd).2 hKl]
      have : T.filter (fun t => decide (key t = K) && decide (key t = a)) = [] := by
        rw [List.filter_eq_nil_iff]
        intro t _
        simp only [Bool.and_eq_true, decide_eq_true_eq, not_and]
        intro h1 h2
        exact ha (by rw [← h2, h1])
      rw [this, List.nil_append]

theorem filter_unique {β : Type} (l : List β) (p : β → Bool) (c : β) (hnd : l.Nodup)
    (hc : c ∈ l) (hp : ∀ y ∈ l, p y = true ↔ y = c) : l.filter p = [c] := by
  induction l with
  | nil => exact absurd hc (List.not_mem_nil _)
  | cons a l ih =>
    obtain ⟨hal, hndl⟩ := List.nodup_cons.mp hnd
    by_cases hac : a = c
    · subst hac
      rw [List.filter_cons_of_pos ((hp a (List.mem_cons_self _ _)).mpr rfl)]
      congr 1
      rw [List.filter_eq_nil_iff]
      intro y hy hpy
      have := (hp y (List.mem_cons_of_mem _ hy)).mp hpy
      subst this
      exact hal hy
    · have hcl : c ∈ l := by
        rcases List.mem_cons.mp hc with h | h
        · exact absurd h.symm hac
        · exact h
      rw [List.filter_cons_of_neg (fun hpa => hac ((hp a (List.mem_cons_self _ _)).mp hpa))]
      exact ih hndl hcl (fun y hy => hp y (List.mem_cons_of_mem _ hy))

theorem voidUpds_key {α : Type} [Add α] (sz : Int) (dcomp : Int) (ncomp : Nat) (op : CpOp)
    (x : Int × VoidCopyTag α) :
    ∀ u ∈ voidUpds sz dcomp ncomp op x,
      u.1.1 = x.1 ∧ x.2.dbox.contains ⟨u.1.2.1, u.1.2.2.1, u.1.2.2.2.1⟩ = true := by
  intro u hu
  unfold voidUpds at hu
  obtain ⟨c, hc, rfl⟩ := List.mem_map.mp hu
  exact ⟨rfl, ((mem_loopIndices _ _ _).mp hc).1⟩

/-- Value of a location after `unpack_recv_buffer_cpu`: the updates of the
placed tags that name the location, applied in buffer order.  In the branch
that regroups by destination this needs the location's grid to be visited
exactly once by `MFIter`. -/
theorem unpack_recv_buffer_cpu.value {α : Type} [Add α] (sz : Int) (indexArray : List Int)
    (dst : FabArray α) (dcomp : Int) (ncomp : Nat) (rcv : List (CommPeer α)) (op : CpOp)
    (ts : Bool) (q : Loc) (h : ts = true ∨ (indexArray.Nodup ∧ q.1 ∈ indexArray)) :
    (unpack_recv_buffer_cpu sz indexArray dst dcomp ncomp rcv op ts).toFun q =
      (((rcv.flatMap (placedPeer sz ncomp)).flatMap (voidUpds sz dcomp ncomp op)).filter
        (fun u => decide (u.1 = q))).foldl (fun v u => u.2 v) (dst.toFun q) := by
  cases ts
  · rcases h with h | ⟨hnd, hq⟩
    · exact absurd h (by decide)
    rw [unpack_recv_buffer_cpu.unpack_toFun_regrouped, foldl_applyUpd_apply]
    congr 1
    have hrestrict : ∀ L : List (Int × VoidCopyTag α),
        (L.flatMap (voidUpds sz dcomp ncomp op)).filter (fun u => decide (u.1 = q)) =
          ((L.filter (fun x => decide (x.1 = q.1))).flatMap
            (voidUpds sz dcomp ncomp op)).filter (fun u => decide (u.1 = q)) := by
      intro L
      apply filter_flatMap_restrict
      intro x _ hx
      rw [List.filter_eq_nil_iff]
      intro u hu
      have := (voidUpds_key sz dcomp ncomp op x u hu).1
      simp only [decide_eq_false_iff_not] at hx
      simp only [decide_eq_true_eq]
      intro hcon
      exact hx (by rw [← this, hcon])
    rw [hrestrict, hrestrict (rcv.flatMap (placedPeer sz ncomp)),
      filter_regroup Prod.fst indexArray _ q.1 hnd hq]
  · rw [unpack_recv_buffer_cpu.unpack_toFun_threadsafe, foldl_applyUpd_apply]

theorem place_append {α : Type} (sz : Int) (ncomp : Nat) (mem : Buffer α) (d : Int)
    (l1 l2 : List CopyComTag) :
    place sz ncomp mem d (l1 ++ l2) =
      place sz ncomp mem d l1 ++ place sz ncomp mem (d + recvBytes sz ncomp l1) l2 := by
  induction l1 generalizing d with
  | nil => simp [place, recvBytes]
  | cons t ts ih =>
    have e : d + recvBytes sz ncomp (t :: ts) =
        d + t.dbox.numPts * (ncomp : Int) * sz + recvBytes sz ncomp ts := by
      simp only [recvBytes, List.map_cons, List.sum_cons]
      ring
    rw [e, List.cons_append]
    simp only [place, List.cons_append]
    rw [ih]

theorem mem_place {α : Type} (sz : Int) (ncomp : Nat) (mem : Buffer α) (tags : List CopyComTag)
    (d : Int) :
    ∀ y ∈ place sz ncomp mem d tags, ∃ u ∈ tags, y.1 = u.dstIndex ∧ y.2.dbox = u.dbox := by
  induction tags generalizing d with
  | nil => intro y hy; simp [place] at hy
  | cons t ts ih =>
    intro y hy
    simp only [place, List.mem_cons] at hy
    rcases hy with rfl | hy
    · exact ⟨t, List.mem_cons_self _ _, rfl, rfl⟩
    · obtain ⟨u, hu, h1, h2⟩ := ih _ y hy
      exact ⟨u, List.mem_cons_of_mem _ hu, h1, h2⟩

theorem mem_placedPeer {α : Type} (sz : Int) (ncomp : Nat) (pr : CommPeer α) :
    ∀ y ∈ placedPeer sz ncomp pr, ∃ u ∈ pr.cctc, y.1 = u.dstIndex ∧ y.2.dbox = u.dbox := by
  intro y hy
  unfold placedPeer at hy
  by_cases h : 0 < pr.size
  · rw [if_pos h] at hy
    exact mem_place sz ncomp pr.data pr.cctc 0 y hy
  · rw [if_neg h] at hy
    exact absurd hy (List.not_mem_nil _)

/-- Updates of placed tags none of which covers the cell of `q` on the fab of
`q` do not name `q`. -/
theorem filter_voidUpds_nil {α : Type} [Add α] (sz : Int) (dcomp : Int) (ncomp : Nat)
    (op : CpOp) (L : List (Int × VoidCopyTag α)) (q : Loc)
    (h : ∀ y ∈ L, ¬ (y.1 = q.1 ∧ y.2.dbox.contains ⟨q.2.1, q.2.2.1, q.2.2.2.1⟩ = true)) :
    (L.flatMap (voidUpds sz dcomp ncomp op)).filter (fun u => decide (u.1 = q)) = [] := by
  rw [List.filter_eq_nil_iff]
  intro u hu
  obtain ⟨y, hy, huy⟩ := List.mem_flatMap.mp hu
  obtain ⟨h1, h2⟩ := voidUpds_key sz dcomp ncomp op y u huy
  simp only [decide_eq_true_eq]
  intro hcon
  subst hcon
  exact h y hy ⟨h1.symm, h2⟩

/-- The updates of one placed tag name the location of a cell of its box and a
valid component exactly once. -/
theorem filter_voidUpds_single {α : Type} [Add α] (sz : Int) (dcomp : Int) (ncomp : Nat)
    (op : CpOp) (x : Int × VoidCopyTag α) (i j k n : Int)
    (hc : x.2.dbox.contains ⟨i, j, k⟩ = true) (hn0 : 0 ≤ n) (hn1 : n < (ncomp : Int)) :
    (voidUpds sz dcomp ncomp op x).filter (fun u => decide (u.1 = (x.1, i, j, k, n + dcomp))) =
      [((x.1, i, j, k, n + dcomp),
        opFun op (x.2.mem (x.2.p + sz * Array4.offsetOf x.2.dbox i j k n)))] := by
  unfold voidUpds
  rw [List.filter_map]
  rw [filter_unique (loopIndices x.2.dbox ncomp) _ (i, j, k, n) (nodup_loopIndices _ _)
    ((mem_loopIndices _ _ _).mpr ⟨hc, hn0, hn1⟩)]
  · rfl
  · rintro ⟨i', j', k', n'⟩ _
    simp only [Function.comp, decide_eq_true_eq, Prod.mk.injEq, true_and]
    constructor
    · rintro ⟨rfl, rfl, rfl, h⟩
      exact ⟨rfl, rfl, rfl, by omega⟩
    · rintro ⟨rfl, rfl, rfl, rfl⟩
      exact ⟨rfl, rfl, rfl, rfl⟩

/-- Value left by `unpack_recv_buffer_cpu` in a cell that exactly one receive
tag covers: the copy operator applied to the buffer element of the cell. -/
theorem unpack_recv_buffer_cpu.value_at {α : Type} [Add α] (sz : Int) (indexArray : List Int)
    (dst : FabArray α) (dcomp : Int) (ncomp : Nat) (R1 R2 : List (CommPeer α))
    (mem : Buffer α) (size : Nat) (hsize : 0 < size) (pre post : List CopyComTag)
    (t : CopyComTag) (op : CpOp) (ts : Bool) (p : IntVect) (n : Int)
    (h : ts = true ∨ (indexArray.Nodup ∧ t.dstIndex ∈ indexArray))
    (hp : t.dbox.contains p = true) (hn0 : 0 ≤ n) (hn1 : n < (ncomp : Int))
    (hother1 : ∀ pr ∈ R1 ++ R2, ∀ u ∈ pr.cctc,
      ¬ (u.dstIndex = t.dstIndex ∧ u.dbox.contains p = true))
    (hother2 : ∀ u ∈ pre ++ post, ¬ (u.dstIndex = t.dstIndex ∧ u.dbox.contains p = true)) :
    unpack_recv_buffer_cpu sz indexArray dst dcomp ncomp
        (R1 ++ ⟨mem, size, pre ++ t :: post⟩ :: R2) op ts t.dstIndex p.x p.y p.z (n + dcomp) =
      opFun op (mem (recvBytes sz ncomp pre + sz * Array4.offsetOf t.dbox p.x p.y p.z n))
        (dst t.dstIndex p.x p.y p.z (n + dcomp)) := by
  have hv := unpack_recv_buffer_cpu.value sz indexArray dst dcomp ncomp
    (R1 ++ ⟨mem, size, pre ++ t :: post⟩ :: R2) op ts (t.dstIndex, p.x, p.y, p.z, n + dcomp) h
  simp only [FabArray.toFun] at hv
  rw [hv]
  have hpeer : placedPeer sz ncomp (⟨mem, size, pre ++ t :: post⟩ : CommPeer α) =
      place sz ncomp mem 0 pre ++
        ((t.dstIndex, ⟨mem, recvBytes sz ncomp pre, t.dbox⟩) ::
          place sz ncomp mem (recvBytes sz ncomp pre + t.dbox.numPts * (ncomp : Int) * sz)
            post) := by
    unfold placedPeer
    rw [if_pos hsize]
    simp only
    rw [place_append, zero_add]
    rfl
  rw [List.flatMap_append, List.flatMap_cons, hpeer]
  simp only [List.flatMap_append, List.flatMap_cons, List.filter_append]
  have hR : ∀ R : List (CommPeer α), (∀ pr ∈ R, pr ∈ R1 ++ R2) →
      ((R.flatMap (placedPeer sz ncomp)).flatMap (voidUpds sz dcomp ncomp op)).filter
        (fun u => decide (u.1 = (t.dstIndex, p.x, p.y, p.z, n + dcomp))) = [] := by
    intro R hR
    apply filter_voidUpds_nil
    intro y hy
    obtain ⟨pr, hpr, hypr⟩ := List.mem_flatMap.mp hy
    obtain ⟨u, hu, h1, h2⟩ := mem_placedPeer sz ncomp pr y hypr
    rw [h1, h2]
    exact hother1 pr (hR pr hpr) u hu
  have hT : ∀ (d : Int) (l : List CopyComTag), (∀ u ∈ l, u ∈ pre ++ post) →
      ((place sz ncomp mem d l).flatMap (voidUpds sz dcomp ncomp op)).filter
        (fun u => decide (u.1 = (t.dstIndex, p.x, p.y, p.z, n + dcomp))) = [] := by
    intro d l hl
    apply filter_voidUpds_nil
    intro y hy
    obtain ⟨u, hu, h1, h2⟩ := mem_place sz ncomp mem l d y hy
    rw [h1, h2]
    exact hother2 u (hl u hu)
  rw [hR R1 (fun pr hpr => List.mem_append_left _ hpr),
    hR R2 (fun pr hpr => List.mem_append_right _ hpr),
    hT 0 pre (fun u hu => List.mem_append_left _ hu),
    hT _ post (fun u hu => List.mem_append_right _ hu)]
  have hs := filter_voidUpds_single sz dcomp ncomp op
    ((t.dstIndex, ⟨mem, recvBytes sz ncomp pre, t.dbox⟩) : Int × VoidCopyTag α)
    p.x p.y p.z n hp hn0 hn1
  simp only at hs
  rw [hs]
  rfl

/-- C7: for a destination cell covered by exactly one receive tag `t` (of a
peer with a non-empty buffer), holding `X` in component `dcomp+n` before the
call while the buffer element of that cell and component holds `Y`,
`unpack_recv_buffer_cpu` leaves `X + Y` with `op = ADD` and `Y` with
`op = COPY`, in the thread-safe and in the other branch alike (in the other
branch the destination being a grid `MFIter` visits, once). -/
theorem unpack_recv_buffer_cpu_add_vs_copy {α : Type} [Add α] (sz : Int)
    (indexArray : List Int) (dst : FabArray α) (dcomp : Int) (ncomp : Nat)
    (R1 R2 : List (CommPeer α)) (mem : Buffer α) (size : Nat) (pre post : List CopyComTag)
    (t : CopyComTag) (ts : Bool) (p : IntVect) (n : Nat)
    (hidx : ts = false → indexArray.Nodup ∧ t.dstIndex ∈ indexArray) (hsize : 0 < size)
    (hp : t.dbox.contains p = true) (hn : n < ncomp)
    (hother1 : ∀ pr ∈ R1 ++ R2, ∀ u ∈ pr.cctc,
      ¬ (u.dstIndex = t.dstIndex ∧ u.dbox.contains p = true))
    (hother2 : ∀ u ∈ pre ++ post, ¬ (u.dstIndex = t.dstIndex ∧ u.dbox.contains p = true)) :
    unpack_recv_buffer_cpu sz indexArray dst dcomp ncomp
        (R1 ++ ⟨mem, size, pre ++ t :: post⟩ :: R2) CpOp.ADD ts
        t.dstIndex p.x p.y p.z (dcomp + (n : Int)) =
      dst t.dstIndex p.x p.y p.z (dcomp + (n : Int)) +
        mem (sz * (ncomp : Int) * (pre.map (fun u => u.dbox.numPts)).sum +
          sz * Array4.offsetOf t.dbox p.x p.y p.z (n : Int)) ∧
    unpack_recv_buffer_cpu sz indexArray dst dcomp ncomp
        (R1 ++ ⟨mem, size, pre ++ t :: post⟩ :: R2) CpOp.COPY ts
        t.dstIndex p.x p.y p.z (dcomp + (n : Int)) =
      mem (sz * (ncomp : Int) * (pre.map (fun u => u.dbox.numPts)).sum +
          sz * Array4.offsetOf t.dbox p.x p.y p.z (n : Int)) := by
  have hts : ts = true ∨ (indexArray.Nodup ∧ t.dstIndex ∈ indexArray) := by
    cases ts
    · exact Or.inr (hidx rfl)
    · exact Or.inl rfl
  have hA := unpack_recv_buffer_cpu.value_at sz indexArray dst dcomp ncomp R1 R2 mem size hsize
    pre post t CpOp.ADD ts p (n : Int) hts hp (by omega) (by omega) hother1 hother2
  have hC := unpack_recv_buffer_cpu.value_at sz indexArray dst dcomp ncomp R1 R2 mem size hsize
    pre post t CpOp.COPY ts p (n : Int) hts hp (by omega) (by omega) hother1 hother2
  rw [add_comm dcomp (n : Int), ← recvBytes_eq]
  exact ⟨hA, hC⟩

theorem unpack_recv_buffer_cpu_add_vs_copy_witness :
    (false = false → [(0 : Int)].Nodup ∧ wrapHi.dstIndex ∈ [(0 : Int)]) ∧ 0 < 16 ∧
    wrapHi.dbox.contains ⟨11, 0, 0⟩ = true ∧ 0 < 1 ∧
    (∀ pr ∈ ([] : List (CommPeer Int)) ++ [], ∀ u ∈ pr.cctc,
      ¬ (u.dstIndex = wrapHi.dstIndex ∧ u.dbox.contains ⟨11, 0, 0⟩ = true)) ∧
    (∀ u ∈ [wrapLo] ++ [],
      ¬ (u.dstIndex = wrapHi.dstIndex ∧ u.dbox.contains ⟨11, 0, 0⟩ = true)) ∧
    (unpack_recv_buffer_cpu 4 [0] cexFab 0 1
        ([] ++ ⟨fun a => 1000 + a, 16, [wrapLo] ++ wrapHi :: []⟩ :: []) CpOp.ADD false
        wrapHi.dstIndex 11 0 0 (0 + ((0 : Nat) : Int)) =
      cexFab wrapHi.dstIndex 11 0 0 (0 + ((0 : Nat) : Int)) +
        (fun a : Int => 1000 + a) (4 * ((1 : Nat) : Int) *
            ([wrapLo].map (fun u => u.dbox.numPts)).sum +
          4 * Array4.offsetOf wrapHi.dbox 11 0 0 ((0 : Nat) : Int)) ∧
    unpack_recv_buffer_cpu 4 [0] cexFab 0 1
        ([] ++ ⟨fun a => 1000 + a, 16, [wrapLo] ++ wrapHi :: []⟩ :: []) CpOp.COPY false
        wrapHi.dstIndex 11 0 0 (0 + ((0 : Nat) : Int)) =
      (fun a : Int => 1000 + a) (4 * ((1 : Nat) : Int) *
            ([wrapLo].map (fun u => u.dbox.numPts)).sum +
          4 * Array4.offsetOf wrapHi.dbox 11 0 0 ((0 : Nat) : Int))) :=
  ⟨fun _ => by decide, by decide, by decide, by decide,
    fun pr hpr => absurd hpr (List.not_mem_nil _), by decide,
    unpack_recv_buffer_cpu_add_vs_copy 4 [0] cexFab 0 1 [] [] (fun a => 1000 + a) 16
      [wrapLo] [] wrapHi false ⟨11, 0, 0⟩ 0 (fun _ => by decide) (by decide) (by decide)
      (by decide) (fun pr hpr => absurd hpr (List.not_mem_nil _)) (by decide)⟩

theorem zipWith_map_self {a b c : Type} (f : a → b → c) (g : a → b) (l : List a) :
    List.zipWith f l (l.map g) = l.map (fun x => f x (g x)) := by
  induction l with
  | nil => rfl
  | cons x l ih => simp only [List.map_cons, List.zipWith_cons_cons, ih]

theorem pairwise_split {τ : Type} (R : τ → τ → Prop) (A B : List τ) (t : τ)
    (h : (A ++ t :: B).Pairwise R) : (∀ a ∈ A, R a t) ∧ (∀ b ∈ B, R t b) := by
  rw [List.pairwise_append, List.pairwise_cons] at h
  exact ⟨fun a ha => h.2.2 a ha t (List.mem_cons_self _ _), h.2.1.1⟩

theorem Box.numPts_pos_of_contains (b : Box) (p : IntVect) (h : b.contains p = true) :
    0 < b.numPts := by
  have := Array4.offsetOf_bound b 1 p.x p.y p.z 0 h (le_refl _) (by decide)
  simp only [Nat.cast_one, mul_one] at this
  omega

theorem recvBytes_eq_sendBytes (sz : Int) (ncomp : Nat) (tags : List CopyComTag)
    (h : ∀ t ∈ tags, t.dbox.sameSize t.sbox = true) :
    recvBytes sz ncomp tags = sendBytes sz ncomp tags := by
  unfold recvBytes sendBytes
  congr 1
  apply List.map_congr_left
  intro t ht
  rw [Box.numPts_eq_of_sameSize _ _ (h t ht)]

theorem sendBytes_append (sz : Int) (ncomp : Nat) (l1 l2 : List CopyComTag) :
    sendBytes sz ncomp (l1 ++ l2) = sendBytes sz ncomp l1 + sendBytes sz ncomp l2 := by
  simp only [sendBytes, List.map_append, List.sum_append]

/-- C4: pack/unpack round trip.  For send peers whose buffers are at least as
large as their tags need, whose tags have equal source and destination
extents and pairwise disjoint destination boxes per destination fab (the
destinations being grids `MFIter` visits, each once, where the routine
regroups by destination), unpacking with `op = COPY`, the same tag
lists and the same `ncomp` what `pack_send_buffer_cpu` wrote gives
`dst[dstIndex](p, dcomp+n) == src[srcIndex](p + sbox.smallEnd() -
dbox.smallEnd(), scomp+n)` for every tag, every cell `p` of `dbox` and every
`n < ncomp`, in both branches of `unpack_recv_buffer_cpu`. -/
theorem pack_unpack_round_trip {α : Type} [Add α] (sz : Int) (indexArray : List Int)
    (src dst : FabArray α) (scomp dcomp : Int) (ncomp : Nat) (snd : List (CommPeer α))
    (ts : Bool)
    (hsz : 0 < sz)
    (hidx : ts = false →
      indexArray.Nodup ∧ ∀ pr ∈ snd, ∀ t ∈ pr.cctc, t.dstIndex ∈ indexArray)
    (hsize : ∀ pr ∈ snd, sendBytes sz ncomp pr.cctc ≤ (pr.size : Int))
    (hsame : ∀ pr ∈ snd, ∀ t ∈ pr.cctc, t.dbox.sameSize t.sbox = true)
    (hdd : (snd.flatMap (fun pr => pr.cctc)).Pairwise
      (fun a b => a.dstIndex = b.dstIndex → a.dbox.intersects b.dbox = false)) :
    ∀ pr ∈ snd, ∀ t ∈ pr.cctc, ∀ p : IntVect, t.dbox.contains p = true →
      ∀ n : Nat, n < ncomp →
        unpack_recv_buffer_cpu sz indexArray dst dcomp ncomp
            (List.zipWith (fun (pr : CommPeer α) buf => (⟨buf, pr.size, pr.cctc⟩ : CommPeer α))
              snd (pack_send_buffer_cpu sz src scomp ncomp snd))
            CpOp.COPY ts t.dstIndex p.x p.y p.z (dcomp + (n : Int)) =
          src t.srcIndex (p.add (t.sbox.smallEnd.sub t.dbox.smallEnd)).x
            (p.add (t.sbox.smallEnd.sub t.dbox.smallEnd)).y
            (p.add (t.sbox.smallEnd.sub t.dbox.smallEnd)).z (scomp + (n : Int)) := by
  intro pr hpr t ht p hp n hn
  obtain ⟨S1, S2, rfl⟩ := List.append_of_mem hpr
  obtain ⟨pre, post, hcctc⟩ := List.append_of_mem ht
  obtain ⟨mem, size, cctc⟩ := pr
  simp only at hcctc ht
  subst hcctc
  -- the buffer of this peer is large enough to be non-empty
  have hpos : 0 < size := by
    have h1 := hsize ⟨mem, size, pre ++ t :: post⟩ (List.mem_append_right _ (List.mem_cons_self _ _))
    simp only at h1
    rw [sendBytes_append] at h1
    have h2 := sendBytes_nonneg sz hsz ncomp pre
    have h3 : sendBytes sz ncomp (t :: post) =
        t.sbox.numPts * (ncomp : Int) * sz + sendBytes sz ncomp post := by
      simp only [sendBytes, List.map_cons, List.sum_cons]
    have h4 := sendBytes_nonneg sz hsz ncomp post
    have hts := hsame _ (List.mem_append_right _ (List.mem_cons_self _ _)) t ht
    have h5 : 0 < t.sbox.numPts := by
      rw [← Box.numPts_eq_of_sameSize _ _ hts]
      exact Box.numPts_pos_of_contains _ p hp
    have h6 : 0 < t.sbox.numPts * (ncomp : Int) * sz :=
      mul_pos (mul_pos h5 (by omega)) hsz
    omega
  -- the receive peers are the send peers with the packed buffers
  unfold pack_send_buffer_cpu
  rw [zipWith_map_self, List.map_append, List.map_cons]
  simp only
  have hR : ∀ pr' ∈ S1.map (fun x : CommPeer α =>
        (⟨(pack_send_buffer_cpu.peer sz src scomp ncomp x).1, x.size, x.cctc⟩ : CommPeer α)) ++
      S2.map (fun x : CommPeer α =>
        (⟨(pack_send_buffer_cpu.peer sz src scomp ncomp x).1, x.size, x.cctc⟩ : CommPeer α)),
      ∀ u ∈ pr'.cctc, ¬ (u.dstIndex = t.dstIndex ∧ u.dbox.contains p = true) := by
    intro pr' hpr' u hu
    rw [List.flatMap_append, List.flatMap_cons] at hdd
    simp only at hdd
    rw [← List.append_assoc, List.append_assoc _ (pre ++ t :: post),
      List.append_assoc pre, List.cons_append, ← List.append_assoc _ pre] at hdd
    obtain ⟨hA, hB⟩ := pairwise_split _ _ _ _ hdd
    rintro ⟨hK, hc⟩
    rcases List.mem_append.mp hpr' with h | h
    · obtain ⟨x, hx, rfl⟩ := List.mem_map.mp h
      have := hA u (List.mem_append_left _ (List.mem_flatMap.mpr ⟨x, hx, hu⟩)) hK
      exact Box.not_intersects _ _ this p ⟨hc, hp⟩
    · obtain ⟨x, hx, rfl⟩ := List.mem_map.mp h
      have := hB u (List.mem_append_right _ (List.mem_flatMap.mpr ⟨x, hx, hu⟩)) hK.symm
      exact Box.not_intersects _ _ this p ⟨hp, hc⟩
  have hT : ∀ u ∈ pre ++ post, ¬ (u.dstIndex = t.dstIndex ∧ u.dbox.contains p = true) := by
    intro u hu
    rw [List.flatMap_append, List.flatMap_cons] at hdd
    simp only at hdd
    rw [← List.append_assoc, List.append_assoc _ (pre ++ t :: post),
      List.append_assoc pre, List.cons_append, ← List.append_assoc _ pre] at hdd
    obtain ⟨hA, hB⟩ := pairwise_split _ _ _ _ hdd
    rintro ⟨hK, hc⟩
    rcases List.mem_append.mp hu with h | h
    · have := hA u (List.mem_append_right _ h) hK
      exact Box.not_intersects _ _ this p ⟨hc, hp⟩
    · have := hB u (List.mem_append_left _ h) hK.symm
      exact Box.not_intersects _ _ this p ⟨hp, hc⟩
  have hts : ts = true ∨ (indexArray.Nodup ∧ t.dstIndex ∈ indexArray) := by
    cases ts
    · exact Or.inr ⟨(hidx rfl).1,
        (hidx rfl).2 _ (List.mem_append_right _ (List.mem_cons_self _ _)) t ht⟩
    · exact Or.inl rfl
  have hv := unpack_recv_buffer_cpu.value_at sz indexArray dst dcomp ncomp _ _
    (pack_send_buffer_cpu.peer sz src scomp ncomp ⟨mem, size, pre ++ t :: post⟩).1 size hpos
    pre post t CpOp.COPY ts p (n : Int) hts hp (by omega) (by omega) hR hT
  rw [add_comm dcomp (n : Int), hv]
  simp only [opFun]
  rw [pack_send_buffer_cpu.pack_peer_eq sz src scomp ncomp _ hpos]
  simp only
  have hsame_t := hsame _ (List.mem_append_right _ (List.mem_cons_self _ _)) t ht
  have hsame_pre : ∀ u ∈ pre, u.dbox.sameSize u.sbox = true := fun u hu =>
    hsame _ (List.mem_append_right _ (List.mem_cons_self _ _)) u (List.mem_append_left _ hu)
  have hcs : t.sbox.contains ⟨p.x + (t.sbox.smallEnd.sub t.dbox.smallEnd).x,
      p.y + (t.sbox.smallEnd.sub t.dbox.smallEnd).y,
      p.z + (t.sbox.smallEnd.sub t.dbox.smallEnd).z⟩ = true := by
    have := Box.contains_shift t.dbox t.sbox hsame_t p
    rw [hp] at this
    exact this
  have hpv := packed_value sz hsz src scomp ncomp mem 0 pre post t _ _ _ (n : Int) hcs
    (by omega) (by omega)
  rw [zero_add, Array4.offsetOf_shift _ _ hsame_t, ← recvBytes_eq_sendBytes sz ncomp pre hsame_pre]
    at hpv
  rw [hpv, add_comm scomp (n : Int)]
  rfl

theorem pack_unpack_round_trip_witness :
    (0 : Int) < 4 ∧
    (false = false → [(0 : Int)].Nodup ∧
      ∀ pr ∈ [(⟨fun _ => 0, 16, [wrapLo, wrapHi]⟩ : CommPeer Int)],
        ∀ t ∈ pr.cctc, t.dstIndex ∈ [(0 : Int)]) ∧
    (∀ pr ∈ [(⟨fun _ => 0, 16, [wrapLo, wrapHi]⟩ : CommPeer Int)],
      sendBytes 4 1 pr.cctc ≤ (pr.size : Int)) ∧
    (∀ pr ∈ [(⟨fun _ => 0, 16, [wrapLo, wrapHi]⟩ : CommPeer Int)],
      ∀ t ∈ pr.cctc, t.dbox.sameSize t.sbox = true) ∧
    ([(⟨fun _ => 0, 16, [wrapLo, wrapHi]⟩ : CommPeer Int)].flatMap (fun pr => pr.cctc)).Pairwise
      (fun a b => a.dstIndex = b.dstIndex → a.dbox.intersects b.dbox = false) ∧
    unpack_recv_buffer_cpu 4 [0] (fun _ _ _ _ _ => 0) 0 1
        (List.zipWith (fun (pr : CommPeer Int) buf => (⟨buf, pr.size, pr.cctc⟩ : CommPeer Int))
          [(⟨fun _ => 0, 16, [wrapLo, wrapHi]⟩ : CommPeer Int)]
          (pack_send_buffer_cpu 4 cexFab 0 1 [(⟨fun _ => 0, 16, [wrapLo, wrapHi]⟩ : CommPeer Int)]))
        CpOp.COPY false wrapHi.dstIndex 11 0 0 (0 + ((0 : Nat) : Int)) =
      cexFab wrapHi.srcIndex 1 0 0 (0 + ((0 : Nat) : Int)) :=
  ⟨by decide, fun _ => by decide, by decide, by decide, by decide,
    pack_unpack_round_trip 4 [0] cexFab (fun _ _ _ _ _ => 0) 0 0 1
      [(⟨fun _ => 0, 16, [wrapLo, wrapHi]⟩ : CommPeer Int)] false
      (by decide) (fun _ => by decide) (by decide) (by decide) (by decide)
      ⟨fun _ => 0, 16, [wrapLo, wrapHi]⟩ (List.mem_singleton_self _) wrapHi (by decide)
      ⟨11, 0, 0⟩ (by decide) 0 (by decide)⟩

/-! ### Buffer extents -/

/-- C11: for all `BDKey` values over totally ordered reference ids, `a == b`
iff both ids are equal, `a != b` is the negation of `a == b`, `operator<` is
the lexicographic order on (BoxArray id, DistributionMapping id), exactly one
of `a < b`, `a == b`, `b < a` holds, and keys built from the same references
are equal and ordered neither way. -/
theorem bdkey_comparisons {BA DM : Type} [LinearOrder BA] [LinearOrder DM]
    (a b : BDKey BA DM) (x : BA) (y : DM) :
    (a.eq b = true ↔ (a.m_ba_id = b.m_ba_id ∧ a.m_dm_id = b.m_dm_id)) ∧
    (a.eq b = true ↔ a = b) ∧
    a.ne b = !(a.eq b) ∧
    (a.lt b = true ↔
      Prod.Lex (fun u v : BA => u < v) (fun u v : DM => u < v)
        (a.m_ba_id, a.m_dm_id) (b.m_ba_id, b.m_dm_id)) ∧
    ((a.lt b = true ∧ a.eq b = false ∧ b.lt a = false) ∨
     (a.lt b = false ∧ a.eq b = true ∧ b.lt a = false) ∨
     (a.lt b = false ∧ a.eq b = false ∧ b.lt a = true)) ∧
    ((BDKey.mk x y).eq (BDKey.mk x y) = true ∧ (BDKey.mk x y).lt (BDKey.mk x y) = false) := by
  obtain ⟨a1, a2⟩ := a
  obtain ⟨b1, b2⟩ := b
  refine ⟨by simp [BDKey.eq], by simp [BDKey.eq], ?_, by simp [BDKey.lt, Prod.lex_def], ?_,
    by simp [BDKey.eq, BDKey.lt]⟩
  · simp only [BDKey.ne, BDKey.eq]
    by_cases h1 : a1 = b1 <;> by_cases h2 : a2 = b2 <;> simp [h1, h2]
  · simp only [BDKey.lt, BDKey.eq]
    rcases lt_trichotomy a1 b1 with h | h | h
    · left
      simp [h, ne_of_lt h, ne_of_gt h, not_lt_of_gt h]
    · subst h
      rcases lt_trichotomy a2 b2 with h | h | h
      · left
        simp [h, ne_of_lt h, ne_of_gt h, not_lt_of_gt h]
      · right; left
        simp [h]
      · right; right
        simp [h, ne_of_lt h, ne_of_gt h, not_lt_of_gt h]
    · right; right
      simp [h, ne_of_lt h, ne_of_gt h, not_lt_of_gt h]

theorem CacheStats.run_cons (s : CacheStats) (c : CacheCall) (cs : List CacheCall) :
    s.run (c :: cs) = (s.call c).run cs := rfl

theorem CacheStats.size_balance (cs : List CacheCall) (s : CacheStats) :
    (s.run cs).size - ((s.run cs).nbuild - (s.run cs).nerase) =
      s.size - (s.nbuild - s.nerase) := by
  induction cs generalizing s with
  | nil => rfl
  | cons c cs ih =>
    rw [CacheStats.run_cons, ih]
    cases c <;>
      simp only [CacheStats.call, CacheStats.recordBuild, CacheStats.recordErase,
        CacheStats.recordUse] <;> omega

/-- C12: starting from a freshly constructed `CacheStats`, after any finite
sequence of `recordBuild`, `recordErase` and `recordUse` calls the field
`size` equals `nbuild - nerase`. -/
theorem cacheStats_size_eq_nbuild_sub_nerase (name_ : String) (calls : List CacheCall) :
    ((CacheStats.new name_).run calls).size =
      ((CacheStats.new name_).run calls).nbuild - ((CacheStats.new name_).run calls).nerase := by
  have h := CacheStats.size_balance calls (CacheStats.new name_)
  simp only [CacheStats.new] at h ⊢
  omega

theorem CacheStats.maxsize_history (cs : List CacheCall) (s : CacheStats)
    (h : s.size ≤ s.maxsize) :
    (∀ v ∈ s.sizeHistory cs, v ≤ (s.run cs).maxsize) ∧
    ((s.run cs).maxsize = s.maxsize ∨ (s.run cs).maxsize ∈ s.sizeHistory cs) ∧
    s.maxsize ≤ (s.run cs).maxsize ∧
    (s.run cs).size ≤ (s.run cs).maxsize := by
  induction cs generalizing s with
  | nil =>
    refine ⟨?_, Or.inl rfl, le_refl _, h⟩
    intro v hv
    simp only [CacheStats.sizeHistory, List.mem_singleton] at hv
    rw [hv]
    exact h
  | cons c cs ih =>
    rw [CacheStats.run_cons]
    have hstep : (s.call c).size ≤ (s.call c).maxsize ∧ s.maxsize ≤ (s.call c).maxsize ∧
        ((s.call c).maxsize = s.maxsize ∨ (s.call c).maxsize = (s.call c).size) := by
      cases c
      · simp only [CacheStats.call, CacheStats.recordBuild]
        rcases le_total s.maxsize (s.size + 1) with hm | hm
        · rw [max_eq_right hm]
          exact ⟨le_refl _, hm, Or.inr rfl⟩
        · rw [max_eq_left hm]
          exact ⟨hm, le_refl _, Or.inl rfl⟩
      · simp only [CacheStats.call, CacheStats.recordErase]
        exact ⟨by omega, le_refl _, Or.inl trivial⟩
      · simp only [CacheStats.call, CacheStats.recordUse]
        exact ⟨h, le_refl _, Or.inl trivial⟩
    obtain ⟨h1, h2, h3, h4⟩ := ih (s.call c) hstep.1
    have hhead : (s.call c).size ∈ (s.call c).sizeHistory cs := by
      cases cs <;> simp [CacheStats.sizeHistory]
    refine ⟨?_, ?_, le_trans hstep.2.1 h3, h4⟩
    · intro v hv
      simp only [CacheStats.sizeHistory, List.mem_cons] at hv
      rcases hv with rfl | hv
      · exact le_trans h (le_trans hstep.2.1 h3)
      · exact h1 v hv
    · rcases h2 with h2 | h2
      · rcases hstep.2.2 with h5 | h5
        · left
          rw [h2, h5]
        · right
          simp only [CacheStats.sizeHistory, List.mem_cons]
          right
          rw [h2, h5]
          exact hhead
      · right
        simp only [CacheStats.sizeHistory, List.mem_cons]
        exact Or.inr h2

/-- C13: starting from a freshly constructed `CacheStats`, after any finite
sequence of calls `maxsize` is the largest value `size` has held (the initial
0 included): it is one of the values held and bounds them all; in particular
`maxsize >= size` and `maxsize >= 0`; and `recordUse` changes nothing but
`nuse`, which it increases by exactly one. -/
theorem cacheStats_maxsize_is_high_water_mark (name_ : String) (calls : List CacheCall)
    (s : CacheStats) :
    ((CacheStats.new name_).run calls).maxsize ∈ (CacheStats.new name_).sizeHistory calls ∧
    (∀ v ∈ (CacheStats.new name_).sizeHistory calls,
      v ≤ ((CacheStats.new name_).run calls).maxsize) ∧
    ((CacheStats.new name_).run calls).size ≤ ((CacheStats.new name_).run calls).maxsize ∧
    0 ≤ ((CacheStats.new name_).run calls).maxsize ∧
    s.recordUse = { s with nuse := s.nuse + 1 } ∧
    (s.recordUse).nuse = s.nuse + 1 ∧
    (s.recordUse).size = s.size ∧ (s.recordUse).maxsize = s.maxsize ∧
    (s.recordUse).maxuse = s.maxuse ∧ (s.recordUse).nbuild = s.nbuild ∧
    (s.recordUse).nerase = s.nerase ∧ (s.recordUse).bytes = s.bytes ∧
    (s.recordUse).bytes_hwm = s.bytes_hwm ∧ (s.recordUse).name = s.name := by
  obtain ⟨h1, h2, h3, h4⟩ := CacheStats.maxsize_history calls (CacheStats.new name_)
    (by simp [CacheStats.new])
  have h0 : (CacheStats.new name_).size ∈ (CacheStats.new name_).sizeHistory calls := by
    cases calls <;> simp [CacheStats.sizeHistory]
  refine ⟨?_, h1, h4, ?_, rfl, rfl, rfl, rfl, rfl, rfl, rfl, rfl, rfl, rfl⟩
  · rcases h2 with h2 | h2
    · rw [h2]
      exact h0
    · exact h2
  · exact h3

/-! ### Particle id and cpu words -/

theorem toUInt64_of_nonneg (x : Int) (h0 : 0 ≤ x) (h1 : x < 18446744073709551616) :
    toUInt64 x = x.toNat := by
  unfold toUInt64
  rw [Int.emod_eq_of_lt h0 h1]

theorem toLong_of_lt (x : Nat) (h : x < 9223372036854775808) : toLong x = (x : Int) := by
  unfold toLong
  have : x % 18446744073709551616 = x := Nat.mod_eq_of_lt (by omega)
  rw [this, if_pos h]

theorem toInt32_of_lt (x : Nat) (h : x < 2147483648) : toInt32 x = (x : Int) := by
  unfold toInt32
  have : x % 4294967296 = x := Nat.mod_eq_of_lt (by omega)
  rw [this, if_pos h]

/-- The word written by `ParticleIDWrapper::operator=`: the low 24 bits kept,
the magnitude in the next 39 bits, the sign flag in the top bit. -/
theorem ParticleIDWrapper.assign_eq (m : Nat) (sign val : Nat) (hs : sign ≤ 1)
    (hv : val < 549755813888) :
    ((m &&& 0x00FFFFFF) ||| ((sign <<< 63) % 18446744073709551616)) |||
        ((val <<< 24) % 18446744073709551616) =
      9223372036854775808 * sign + 16777216 * val + m % 16777216 := by
  have e0 : m &&& 0x00FFFFFF = m % 16777216 := by
    have := Nat.and_pow_two_sub_one_eq_mod m 24
    norm_num at this
    exact this
  have e1 : (sign <<< 63) % 18446744073709551616 = 2 ^ 63 * sign := by
    rw [Nat.shiftLeft_eq]
    norm_num
    omega
  have e2 : (val <<< 24) % 18446744073709551616 = 2 ^ 24 * val := by
    rw [Nat.shiftLeft_eq]
    norm_num
    omega
  rw [e0, e1, e2, Nat.or_comm (m % 16777216), Nat.or_assoc, Nat.or_comm (m % 16777216),
    ← Nat.or_assoc]
  have h1 : 2 ^ 63 * sign ||| 2 ^ 24 * val = 2 ^ 24 * (2 ^ 39 * sign + val) := by
    rw [← Nat.mul_add_lt_is_or (by norm_num; omega) sign]
    ring
  rw [h1, ← Nat.mul_add_lt_is_or (by norm_num; omega)]
  ring

theorem ParticleIDWrapper.read_eq (sign val low : Nat)
    (hv : val < 549755813888) (hl : low < 16777216) :
    (9223372036854775808 * sign + 16777216 * val + low) >>> 63 = sign ∧
    ((9223372036854775808 * sign + 16777216 * val + low) >>> 24) &&& 0x7FFFFFFFFF = val := by
  have e := Nat.and_pow_two_sub_one_eq_mod
    ((9223372036854775808 * sign + 16777216 * val + low) >>> 24) 39
  norm_num at e
  rw [e, Nat.shiftRight_eq_div_pow, Nat.shiftRight_eq_div_pow]
  norm_num
  omega

theorem ParticleIDWrapper.id_word_read_back (m : Nat) (id : Int) (h0 : -549755813887 ≤ id)
    (h1 : id ≤ 549755813887) :
    ParticleIDWrapper.toLong (ParticleIDWrapper.assign m id) = id := by
  unfold ParticleIDWrapper.toLong ParticleIDWrapper.assign
  simp only
  by_cases hid : id ≥ 0
  · rw [if_pos hid]
    simp only [ne_eq, one_ne_zero, not_false_eq_true, if_true]
    rw [toUInt64_of_nonneg id hid (by omega),
      ParticleIDWrapper.assign_eq m 1 id.toNat (le_refl _) (by omega)]
    obtain ⟨r1, r2⟩ := ParticleIDWrapper.read_eq 1 id.toNat (m % 16777216)
      (by omega) (Nat.mod_lt _ (by norm_num))
    rw [r1, r2, toLong_of_lt _ (by omega)]
    simp only [ne_eq, one_ne_zero, not_false_eq_true, if_true]
    omega
  · rw [if_neg hid]
    simp only [ne_eq, not_true_eq_false, if_false]
    rw [toUInt64_of_nonneg (-id) (by omega) (by omega),
      ParticleIDWrapper.assign_eq m 0 (-id).toNat (by omega) (by omega)]
    obtain ⟨r1, r2⟩ := ParticleIDWrapper.read_eq 0 (-id).toNat (m % 16777216)
      (by omega) (Nat.mod_lt _ (by norm_num))
    rw [r1, r2, toLong_of_lt _ (by omega)]
    simp only [ne_eq, not_true_eq_false, if_false]
    omega

/-- C16: for every 64-bit word and every id with
`-(2^39 - 1) <= id <= 2^39 - 1`, after assigning `id` through
`ParticleIDWrapper` the conversion to `Long` of `ParticleIDWrapper` and of
`ConstParticleIDWrapper` on the same word returns exactly `id`. -/
theorem particle_id_round_trip (m_idata : Nat) (id : Int)
    (_hword : m_idata < 18446744073709551616)
    (hlo : -(2 ^ 39 - 1) ≤ id) (hhi : id ≤ 2 ^ 39 - 1) :
    ParticleIDWrapper.toLong (ParticleIDWrapper.assign m_idata id) = id ∧
    ConstParticleIDWrapper.toLong (ParticleIDWrapper.assign m_idata id) = id ∧
    ParticleIDWrapper.assign m_idata id < 18446744073709551616 := by
  have h0 : -549755813887 ≤ id := by norm_num at hlo; omega
  have h1 : id ≤ 549755813887 := by norm_num at hhi; omega
  refine ⟨ParticleIDWrapper.id_word_read_back m_idata id h0 h1,
    ParticleIDWrapper.id_word_read_back m_idata id h0 h1, ?_⟩
  unfold ParticleIDWrapper.assign
  simp only
  by_cases hid : id ≥ 0
  · rw [if_pos hid]
    simp only [ne_eq, one_ne_zero, not_false_eq_true, if_true]
    rw [toUInt64_of_nonneg id hid (by omega),
      ParticleIDWrapper.assign_eq m_idata 1 id.toNat (le_refl _) (by omega)]
    omega
  · rw [if_neg hid]
    simp only [ne_eq, not_true_eq_false, if_false]
    rw [toUInt64_of_nonneg (-id) (by omega) (by omega),
      ParticleIDWrapper.assign_eq m_idata 0 (-id).toNat (by omega) (by omega)]
    omega

theorem particle_id_round_trip_witness :
    (12345678901234567890 : Nat) < 18446744073709551616 ∧
    -(2 ^ 39 - 1) ≤ (-549755813887 : Int) ∧ (-549755813887 : Int) ≤ 2 ^ 39 - 1 ∧
    (ParticleIDWrapper.toLong (ParticleIDWrapper.assign 12345678901234567890 (-549755813887)) =
        -549755813887 ∧
     ConstParticleIDWrapper.toLong
        (ParticleIDWrapper.assign 12345678901234567890 (-549755813887)) = -549755813887 ∧
     ParticleIDWrapper.assign 12345678901234567890 (-549755813887) < 18446744073709551616) :=
  ⟨by decide, by decide, by decide,
    particle_id_round_trip 12345678901234567890 (-549755813887) (by decide) (by decide)
      (by decide)⟩

theorem ParticleCPUWrapper.cpu_word_read_back (m : Nat) (cpu : Int) (h0 : 0 ≤ cpu)
    (h1 : cpu ≤ 16777215) :
    ParticleCPUWrapper.toInt (ParticleCPUWrapper.assign m cpu) = cpu := by
  unfold ParticleCPUWrapper.toInt ParticleCPUWrapper.assign
  simp only
  rw [toUInt64_of_nonneg cpu h0 (by omega)]
  have hmask : toUInt64 (-(0x00FFFFFF : Int) - 1) = 18446744073692774400 := by decide
  rw [hmask, Nat.and_comm, Nat.and_or_distrib_left, Nat.and_comm m, ← Nat.and_assoc]
  have hz : (0x00FFFFFF : Nat) &&& 18446744073692774400 = 0 := by decide
  rw [hz, Nat.zero_and, Nat.zero_or, Nat.and_comm]
  have e := Nat.and_pow_two_sub_one_eq_mod cpu.toNat 24
  norm_num at e
  rw [e, Nat.mod_eq_of_lt (by omega), toInt32_of_lt _ (by omega)]
  omega

/-- C17: for every 64-bit word and every cpu with `0 <= cpu <= 2^24 - 1`,
after assigning `cpu` through `ParticleCPUWrapper` the conversion to `int` of
`ParticleCPUWrapper` and of `ConstParticleCPUWrapper` on the same word returns
exactly `cpu`. -/
theorem particle_cpu_round_trip (m_idata : Nat) (cpu : Int)
    (_hword : m_idata < 18446744073709551616)
    (hlo : 0 ≤ cpu) (hhi : cpu ≤ 2 ^ 24 - 1) :
    ParticleCPUWrapper.toInt (ParticleCPUWrapper.assign m_idata cpu) = cpu ∧
    ConstParticleCPUWrapper.toInt (ParticleCPUWrapper.assign m_idata cpu) = cpu := by
  have h1 : cpu ≤ 16777215 := by norm_num at hhi; omega
  exact ⟨ParticleCPUWrapper.cpu_word_read_back m_idata cpu hlo h1,
    ParticleCPUWrapper.cpu_word_read_back m_idata cpu hlo h1⟩

theorem particle_cpu_round_trip_witness :
    (12345678901234567890 : Nat) < 18446744073709551616 ∧
    (0 : Int) ≤ 16777215 ∧ (16777215 : Int) ≤ 2 ^ 24 - 1 ∧
    (ParticleCPUWrapper.toInt (ParticleCPUWrapper.assign 12345678901234567890 16777215) =
        16777215 ∧
     ConstParticleCPUWrapper.toInt (ParticleCPUWrapper.assign 12345678901234567890 16777215) =
        16777215) :=
  ⟨by decide, by decide, by decide,
    particle_cpu_round_trip 12345678901234567890 16777215 (by decide) (by decide) (by decide)⟩

/-! ### `Particle::NextID` -/

theorem Particle.NextID_calls_ok (k : Nat) (hk : (k : Int) ≤ LastParticleID) :
    Particle.NextID_calls k Particle.the_next_id_init =
      some ((List.range k).map (fun (i : Nat) => (i : Int) + 1), (k : Int) + 1) := by
  induction k with
  | zero => rfl
  | succ k ih =>
    have hk' : (k : Int) ≤ LastParticleID := by push_cast at hk; omega
    simp only [Particle.NextID_calls, ih hk', Particle.NextID]
    have hle : ¬ ((k : Int) + 1 > LastParticleID) := by push_cast at hk; omega
    rw [if_neg hle]
    simp only [List.range_succ, List.map_append, List.map_cons, List.map_nil]
    push_cast
    rfl

theorem Particle.NextID_calls_abort (k : Nat) (hk : LastParticleID < (k : Int)) :
    Particle.NextID_calls k Particle.the_next_id_init = none := by
  induction k with
  | zero => simp [LastParticleID, GhostParticleID] at hk
  | succ k ih =>
    by_cases hprev : LastParticleID < (k : Int)
    · simp only [Particle.NextID_calls, ih hprev]
    · have hk' : (k : Int) ≤ LastParticleID := by omega
      simp only [Particle.NextID_calls, Particle.NextID_calls_ok k hk', Particle.NextID]
      have hgt : (k : Int) + 1 > LastParticleID := by push_cast at hk; omega
      rw [if_pos hgt]

/-- C18: starting from `the_next_id == 1`, while `k <= LastParticleID` the
first `k` calls of `Particle::NextID()` return `1, 2, ..., k` (the `j`-th call
returns `j`), so the ids are strictly increasing, pairwise different and at
most `LastParticleID = 2^39 - 3`; the call that would return
`LastParticleID + 1` aborts, and so does any longer run. -/
theorem particle_NextID_sequence (k : Nat) (hk : (k : Int) ≤ LastParticleID) :
    Particle.the_next_id_init = 1 ∧ LastParticleID = 2 ^ 39 - 3 ∧
    (∃ ids : List Int,
      Particle.NextID_calls k Particle.the_next_id_init = some (ids, (k : Int) + 1) ∧
      ids.length = k ∧
      (∀ j (hj : j < ids.length), ids.get ⟨j, hj⟩ = (j : Int) + 1) ∧
      ids.Pairwise (fun a b => a < b) ∧ ids.Nodup ∧
      (∀ v ∈ ids, 1 ≤ v ∧ v ≤ LastParticleID)) ∧
    (Particle.NextID (LastParticleID + 1)).1 = none ∧
    (∀ k' : Nat, LastParticleID < (k' : Int) →
      Particle.NextID_calls k' Particle.the_next_id_init = none) := by
  refine ⟨rfl, by norm_num [LastParticleID, GhostParticleID], ?_, ?_, Particle.NextID_calls_abort⟩
  · refine ⟨_, Particle.NextID_calls_ok k hk, by simp, ?_, ?_, ?_, ?_⟩
    · intro j hj
      simp
    · rw [List.pairwise_map]
      have := List.pairwise_lt_range k
      exact this.imp (fun h => by omega)
    · apply List.Nodup.map _ (List.nodup_range k)
      intro a b h
      simp only at h
      omega
    · intro v hv
      obtain ⟨i, hi, rfl⟩ := List.mem_map.mp hv
      rw [List.mem_range] at hi
      omega
  · simp [Particle.NextID]

theorem particle_NextID_sequence_witness :
    ((3 : Nat) : Int) ≤ LastParticleID ∧
    Particle.NextID_calls 3 Particle.the_next_id_init = some ([1, 2, 3], 4) ∧
    (Particle.NextID (LastParticleID + 1)).1 = none :=
  ⟨by decide,
    by
      obtain ⟨ids, h, _⟩ := (particle_NextID_sequence 3 (by decide)).2.2.1
      rw [h]
      have h' : Particle.NextID_calls 3 Particle.the_next_id_init = some ([1, 2, 3], 4) := by
        decide
      rw [h'] at h
      exact h.symm,
    (particle_NextID_sequence 3 (by decide)).2.2.2.1⟩

/-! ### `Gpu::Atomic::If` on the host -/

/-- C19: host version of `Gpu::Atomic::If(add, value, op, cond)`: with
`t = op(*add, value)` computed from the value stored before the call, if
`cond(t)` is true the call stores `t` into `*add` and returns true; otherwise
`*add` is left unchanged and the call returns false. -/
theorem atomic_If_host {T : Type} (add value : T) (op : T → T → T) (cond : T → Bool) :
    (cond (op add value) = true →
      Gpu.Atomic.If add value op cond = (true, op add value)) ∧
    (cond (op add value) = false →
      Gpu.Atomic.If add value op cond = (false, add)) := by
  constructor
  · intro h
    simp only [Gpu.Atomic.If, h, if_true]
  · intro h
    simp only [Gpu.Atomic.If, h, Bool.false_eq_true, if_false]

theorem atomic_If_host_witness :
    ((fun t : Int => decide (t ≤ 10)) ((fun a b : Int => a + b) 3 4) = true →
      Gpu.Atomic.If (3 : Int) 4 (fun a b => a + b) (fun t => decide (t ≤ 10)) = (true, 7)) ∧
    ((fun t : Int => decide (t ≤ 5)) ((fun a b : Int => a + b) 3 4) = false →
      Gpu.Atomic.If (3 : Int) 4 (fun a b => a + b) (fun t => decide (t ≤ 5)) = (false, 3)) :=
  ⟨(atomic_If_host (3 : Int) 4 (fun a b => a + b) (fun t => decide (t ≤ 10))).1,
    (atomic_If_host (3 : Int) 4 (fun a b => a + b) (fun t => decide (t ≤ 5))).2⟩

/-! ### `face_linear_face_interp_x` -/

/-- C20: `face_linear_face_interp_x` with positive ratio and `coarsen` the
floor division: if `fi` is not a multiple of `ratio[0]`, or the mask is zero
at the coarsened index, `fine` is unchanged; otherwise `fine(fi,fj,fk,n)`
becomes `crse(ci,cj,ck,n)` and no other entry changes, `ci, cj, ck` being the
floor quotients of `fi, fj, fk` by the ratio (also for negative indices). -/
theorem face_linear_face_interp_x_effect {T : Type} (coarsen : Int → Int → Int)
    (fi fj fk n : Int) (fine crse : Int → Int → Int → Int → T)
    (mask : Int → Int → Int → Int → Int) (ratio : IntVect)
    (hratio : 0 < ratio.x ∧ 0 < ratio.y ∧ 0 < ratio.z)
    (hcoarsen : ∀ i r : Int, 0 < r → r * coarsen i r ≤ i ∧ i < r * coarsen i r + r) :
    (coarsen fi ratio.x = Int.floor ((fi : ℚ) / (ratio.x : ℚ)) ∧
     coarsen fj ratio.y = Int.floor ((fj : ℚ) / (ratio.y : ℚ)) ∧
     coarsen fk ratio.z = Int.floor ((fk : ℚ) / (ratio.z : ℚ))) ∧
    ((¬ (ratio.x ∣ fi) ∨
        mask (coarsen fi ratio.x) (coarsen fj ratio.y) (coarsen fk ratio.z) n = 0) →
      face_linear_face_interp_x coarsen fi fj fk n fine crse mask ratio = fine) ∧
    ((ratio.x ∣ fi ∧
        mask (coarsen fi ratio.x) (coarsen fj ratio.y) (coarsen fk ratio.z) n ≠ 0) →
      face_linear_face_interp_x coarsen fi fj fk n fine crse mask ratio fi fj fk n =
        crse (coarsen fi ratio.x) (coarsen fj ratio.y) (coarsen fk ratio.z) n ∧
      ∀ i j k m, ¬ (i = fi ∧ j = fj ∧ k = fk ∧ m = n) →
        face_linear_face_interp_x coarsen fi fj fk n fine crse mask ratio i j k m =
          fine i j k m) := by
  have hfloor : ∀ i r : Int, 0 < r → coarsen i r = Int.floor ((i : ℚ) / (r : ℚ)) := by
    intro i r hr
    obtain ⟨h1, h2⟩ := hcoarsen i r hr
    symm
    rw [Int.floor_eq_iff]
    have hrq : (0 : ℚ) < (r : ℚ) := by exact_mod_cast hr
    constructor
    · rw [le_div_iff₀ hrq]
      have : ((r * coarsen i r : Int) : ℚ) ≤ (i : ℚ) := by exact_mod_cast h1
      push_cast at this
      linarith
    · rw [div_lt_iff₀ hrq]
      have : ((i : Int) : ℚ) < ((r * coarsen i r + r : Int) : ℚ) := by exact_mod_cast h2
      push_cast at this
      linarith
  have hmult : coarsen fi ratio.x * ratio.x = fi ↔ ratio.x ∣ fi := by
    obtain ⟨h1, h2⟩ := hcoarsen fi ratio.x hratio.1
    constructor
    · intro h
      exact ⟨coarsen fi ratio.x, by rw [mul_comm] at h; exact h.symm⟩
    · rintro ⟨c, hc⟩
      have : coarsen fi ratio.x = c := by
        subst hc
        have hx := hratio.1
        have e1 : ratio.x * coarsen (ratio.x * c) ratio.x ≤ ratio.x * c := h1
        have e2 : ratio.x * c < ratio.x * (coarsen (ratio.x * c) ratio.x + 1) := by
          rw [mul_add, mul_one]; exact h2
        have f1 := le_of_mul_le_mul_left e1 hx
        have f2 := lt_of_mul_lt_mul_left e2 (le_of_lt hx)
        omega
      rw [this, hc]
      ring
  refine ⟨⟨hfloor _ _ hratio.1, hfloor _ _ hratio.2.1, hfloor _ _ hratio.2.2⟩, ?_, ?_⟩
  · intro h
    unfold face_linear_face_interp_x
    simp only
    by_cases hm : coarsen fi ratio.x * ratio.x = fi
    · rw [if_pos hm]
      rcases h with h | h
      · exact absurd (hmult.mp hm) h
      · rw [if_neg (by simpa using h)]
    · rw [if_neg hm]
  · rintro ⟨hd, hmask⟩
    unfold face_linear_face_interp_x
    simp only
    rw [if_pos (hmult.mpr hd), if_pos hmask]
    refine ⟨by simp, ?_⟩
    intro i j k m hne
    rw [if_neg hne]

theorem face_linear_face_interp_x_effect_witness :
    ((0 : Int) < (IntVect.mk 2 2 2).x ∧ (0 : Int) < (IntVect.mk 2 2 2).y ∧
      (0 : Int) < (IntVect.mk 2 2 2).z) ∧
    (∀ i r : Int, 0 < r → r * (fun a b : Int => a / b) i r ≤ i ∧
      i < r * (fun a b : Int => a / b) i r + r) ∧
    face_linear_face_interp_x (fun a b : Int => a / b) (-4) (-3) 5 0
        (fun _ _ _ _ => (0 : Int)) (fun i j k _ => 100 * i + 10 * j + k) (fun _ _ _ _ => 1)
        ⟨2, 2, 2⟩ (-4) (-3) 5 0 = 100 * (-2) + 10 * (-2) + 2 :=
  ⟨by decide,
    fun i r hr => ⟨Int.mul_ediv_self_le (ne_of_gt hr), Int.lt_mul_ediv_self_add hr⟩,
    ((face_linear_face_interp_x_effect (fun a b : Int => a / b) (-4) (-3) 5 0
      (fun _ _ _ _ => (0 : Int)) (fun i j k _ => 100 * i + 10 * j + k) (fun _ _ _ _ => 1)
      ⟨2, 2, 2⟩ (by decide)
      (fun i r hr => ⟨Int.mul_ediv_self_le (ne_of_gt hr), Int.lt_mul_ediv_self_add hr⟩)).2.2
      ⟨by decide, by decide⟩).1.trans (by decide)⟩

/-! ### The FillBoundary metadata of the periodic example -/

/-- C14: for the single sub-domain `[0,9]` owned by one rank, periodic with
period 10 and halo width 2, the FillBoundary metadata holds exactly two local
tags, one with sbox `[8,9]` and dbox `[-2,-1]` and one with sbox `[0,1]` and
dbox `[10,11]`, and its send and receive tag maps are empty. -/
theorem periodic_wraparound_example :
    exampleGeometry.periodicity = Periodicity.mk ⟨10, 0, 0⟩ ∧
    (FB.define_fb exampleFabArray ⟨2, 0, 0⟩ exampleGeometry.periodicity 0).m_LocTags.Perm
      [wrapLo, wrapHi] ∧
    (FB.define_fb exampleFabArray ⟨2, 0, 0⟩ exampleGeometry.periodicity 0).m_LocTags.length = 2 ∧
    wrapLo.sbox = ⟨⟨8, 0, 0⟩, ⟨9, 0, 0⟩⟩ ∧ wrapLo.dbox = ⟨⟨-2, 0, 0⟩, ⟨-1, 0, 0⟩⟩ ∧
    wrapHi.sbox = ⟨⟨0, 0, 0⟩, ⟨1, 0, 0⟩⟩ ∧ wrapHi.dbox = ⟨⟨10, 0, 0⟩, ⟨11, 0, 0⟩⟩ ∧
    (FB.define_fb exampleFabArray ⟨2, 0, 0⟩ exampleGeometry.periodicity 0).m_SndTags = [] ∧
    (FB.define_fb exampleFabArray ⟨2, 0, 0⟩ exampleGeometry.periodicity 0).m_RcvTags = [] := by
  have h : (FB.define_fb exampleFabArray ⟨2, 0, 0⟩ exampleGeometry.periodicity 0).m_LocTags =
      [wrapHi, wrapLo] := by decide
  refine ⟨by decide, ?_, ?_, rfl, rfl, rfl, rfl, by decide, by decide⟩
  · rw [h]
    exact List.Perm.swap _ _ _
  · rw [h]
    rfl

/-! ### The FillBoundary cache -/

theorem FBCacheState.matches_use (fa : FabArrayBase) (nghost : IntVect) (period : Periodicity)
    (cross epo : Bool) (e : BDKey Nat Nat × FBObject) :
    FBCacheState.matches fa nghost period cross epo
        (e.1, { e.2 with m_nuse := e.2.m_nuse + 1 }) =
      FBCacheState.matches fa nghost period cross epo e := rfl

theorem FBCacheState.useFirst_addrs (p : BDKey Nat Nat × FBObject → Bool)
    (l : List (BDKey Nat Nat × FBObject)) :
    (FBCacheState.useFirst p l).map (fun e => e.2.addr) = l.map (fun e => e.2.addr) := by
  induction l with
  | nil => rfl
  | cons e l ih =>
    simp only [FBCacheState.useFirst]
    by_cases h : p e = true
    · rw [if_pos h]
      rfl
    · rw [if_neg h, List.map_cons, List.map_cons, ih]

theorem FBCacheState.useFirst_find (p : BDKey Nat Nat × FBObject → Bool)
    (hp : ∀ e, p (e.1, { e.2 with m_nuse := e.2.m_nuse + 1 }) = p e)
    (l : List (BDKey Nat Nat × FBObject)) (e : BDKey Nat Nat × FBObject)
    (h : l.find? p = some e) :
    (FBCacheState.useFirst p l).find? p =
      some (e.1, { e.2 with m_nuse := e.2.m_nuse + 1 }) := by
  induction l with
  | nil => simp at h
  | cons a l ih =>
    simp only [FBCacheState.useFirst]
    by_cases ha : p a = true
    · rw [if_pos ha]
      rw [List.find?_cons_of_pos _ ha] at h
      cases h
      rw [List.find?_cons_of_pos _ (by rw [hp]; exact ha)]
    · rw [if_neg ha]
      rw [List.find?_cons_of_neg _ ha] at h
      rw [List.find?_cons_of_neg _ ha]
      exact ih h

/-- Reading the use counter by identity after the first matching entry was
used: one more for that entry, unchanged for every other identity. -/
theorem FBCacheState.useFirst_nuse (p : BDKey Nat Nat × FBObject → Bool)
    (l : List (BDKey Nat Nat × FBObject)) (e : BDKey Nat Nat × FBObject)
    (h : l.find? p = some e) (hnd : (l.map (fun e => e.2.addr)).Nodup) (a : Nat) :
    ((FBCacheState.useFirst p l).find? (fun x => decide (x.2.addr = a))).map
        (fun x => x.2.m_nuse) =
      (l.find? (fun x => decide (x.2.addr = a))).map
        (fun x => if a = e.2.addr then x.2.m_nuse + 1 else x.2.m_nuse) := by
  induction l with
  | nil => simp at h
  | cons b l ih =>
    simp only [FBCacheState.useFirst]
    rw [List.map_cons, List.nodup_cons] at hnd
    by_cases hb : p b = true
    · rw [if_pos hb]
      rw [List.find?_cons_of_pos _ hb] at h
      have hbe : e = b := (Option.some.inj h).symm
      subst hbe
      by_cases hba : e.2.addr = a
      · rw [List.find?_cons_of_pos _ (by simpa using hba),
          List.find?_cons_of_pos _ (by simpa using hba)]
        simp [hba]
      · rw [List.find?_cons_of_neg _ (by simpa using hba),
          List.find?_cons_of_neg _ (by simpa using hba)]
        have hne : ¬ (a = e.2.addr) := fun h => hba h.symm
        simp only [if_neg hne]
    · rw [if_neg hb]
      rw [List.find?_cons_of_neg _ hb] at h
      have hmem : e ∈ l := List.mem_of_find?_eq_some h
      by_cases hba : b.2.addr = a
      · rw [List.find?_cons_of_pos _ (by simpa using hba),
          List.find?_cons_of_pos _ (by simpa using hba)]
        have hne : ¬ (a = e.2.addr) := by
          intro hae
          apply hnd.1
          rw [hba, hae]
          exact List.mem_map.mpr ⟨e, hmem, rfl⟩
        simp only [Option.map_some', if_neg hne]
      · rw [List.find?_cons_of_neg _ (by simpa using hba),
          List.find?_cons_of_neg _ (by simpa using hba)]
        exact ih h hnd.2

theorem FBCacheState.find_addr_none (l : List (BDKey Nat Nat × FBObject)) (a : Nat)
    (h : ∀ e ∈ l, e.2.addr < a) : l.find? (fun x => decide (x.2.addr = a)) = none := by
  rw [List.find?_eq_none]
  intro e he
  have := h e he
  simp only [decide_eq_true_eq]
  omega

/-- What one `getFB` call does to a well-formed cache. -/
theorem getFB_effect
    (build : FabArrayBase → IntVect → Bool → Periodicity → Bool → CommMetaData)
    (fa : FabArrayBase) (nghost : IntVect) (period : Periodicity) (cross epo : Bool)
    (st : FBCacheState) (hwf : st.wf) :
    (getFB build fa nghost period cross epo st).1.wf ∧
    st.next_addr ≤ (getFB build fa nghost period cross epo st).1.next_addr ∧
    (getFB build fa nghost period cross epo st).2 <
      (getFB build fa nghost period cross epo st).1.next_addr ∧
    (∃ e, (getFB build fa nghost period cross epo st).1.m_TheFBCache.find?
        (FBCacheState.matches fa nghost period cross epo) = some e ∧
      e.2.addr = (getFB build fa nghost period cross epo st).2) ∧
    (getFB build fa nghost period cross epo st).1.nuse
        (getFB build fa nghost period cross epo st).2 =
      st.nuse (getFB build fa nghost period cross epo st).2 + 1 ∧
    (∀ e, st.m_TheFBCache.find? (FBCacheState.matches fa nghost period cross epo) = some e →
      (getFB build fa nghost period cross epo st).2 = e.2.addr ∧
      (getFB build fa nghost period cross epo st).1.m_FBC_stats.nbuild =
        st.m_FBC_stats.nbuild) ∧
    (st.m_TheFBCache.find? (FBCacheState.matches fa nghost period cross epo) = none →
      (getFB build fa nghost period cross epo st).2 = st.next_addr ∧
      (getFB build fa nghost period cross epo st).1.m_FBC_stats.nbuild =
        st.m_FBC_stats.nbuild + 1 ∧
      (getFB build fa nghost period cross epo st).1.nuse st.next_addr = 1) := by
  obtain ⟨hnd, hlt⟩ := hwf
  cases hfind : st.m_TheFBCache.find? (FBCacheState.matches fa nghost period cross epo) with
  | some e =>
    have hmem : e ∈ st.m_TheFBCache := List.mem_of_find?_eq_some hfind
    have hg : getFB build fa nghost period cross epo st =
        ({ st with
            m_TheFBCache :=
              FBCacheState.useFirst (FBCacheState.matches fa nghost period cross epo)
                st.m_TheFBCache,
            m_FBC_stats := st.m_FBC_stats.recordUse }, e.2.addr) := by
      simp only [getFB, hfind]
    rw [hg]
    refine ⟨⟨?_, ?_⟩, le_refl _, hlt e hmem, ?_, ?_, ?_, ?_⟩
    · simp only
      rw [FBCacheState.useFirst_addrs]
      exact hnd
    · intro x hx
      simp only at hx ⊢
      have : x.2.addr ∈ (FBCacheState.useFirst
          (FBCacheState.matches fa nghost period cross epo) st.m_TheFBCache).map
          (fun e => e.2.addr) := List.mem_map.mpr ⟨x, hx, rfl⟩
      rw [FBCacheState.useFirst_addrs] at this
      obtain ⟨y, hy, hxy⟩ := List.mem_map.mp this
      rw [← hxy]
      exact hlt y hy
    · exact ⟨_, FBCacheState.useFirst_find _
        (FBCacheState.matches_use fa nghost period cross epo) _ e hfind, rfl⟩
    · have h := FBCacheState.useFirst_nuse _ st.m_TheFBCache e hfind hnd e.2.addr
      simp only [FBCacheState.nuse]
      have hfe : ∃ y, st.m_TheFBCache.find? (fun x => decide (x.2.addr = e.2.addr)) = some y := by
        cases hq : st.m_TheFBCache.find? (fun x => decide (x.2.addr = e.2.addr)) with
        | some y => exact ⟨y, rfl⟩
        | none =>
          rw [List.find?_eq_none] at hq
          exact absurd (by simp) (hq e hmem)
      obtain ⟨y, hy⟩ := hfe
      rw [hy] at h ⊢
      simp only [Option.map_some', if_true] at h
      cases hz : (FBCacheState.useFirst (FBCacheState.matches fa nghost period cross epo)
          st.m_TheFBCache).find? (fun x => decide (x.2.addr = e.2.addr)) with
      | some z =>
        rw [hz] at h
        simp only [Option.map_some', Option.some.injEq] at h
        exact h
      | none =>
        rw [hz] at h
        simp at h
    · intro e' he'
      cases he'
      exact ⟨rfl, rfl⟩
    · intro h
      simp at h
  | none =>
    have hg : getFB build fa nghost period cross epo st =
        (FBCacheState.mk
          (st.m_TheFBCache ++ [(fa.m_bdkey, getFB.new_fb build fa nghost period cross epo st)])
          st.m_FBC_stats.recordBuild.recordUse (st.next_addr + 1), st.next_addr) := by
      simp only [getFB, hfind]
      rfl
    rw [hg]
    have hnone := FBCacheState.find_addr_none st.m_TheFBCache st.next_addr hlt
    have hnew : (st.m_TheFBCache ++
        [(fa.m_bdkey, getFB.new_fb build fa nghost period cross epo st)]).find?
        (fun x => decide (x.2.addr = st.next_addr)) =
        some (fa.m_bdkey, getFB.new_fb build fa nghost period cross epo st) := by
      rw [List.find?_append, hnone]
      simp [getFB.new_fb]
    have hn1 : (FBCacheState.mk
          (st.m_TheFBCache ++ [(fa.m_bdkey, getFB.new_fb build fa nghost period cross epo st)])
          st.m_FBC_stats.recordBuild.recordUse (st.next_addr + 1)).nuse st.next_addr = 1 := by
      simp only [FBCacheState.nuse, hnew]
      rfl
    refine ⟨⟨?_, ?_⟩, Nat.le_succ _, Nat.lt_succ_self _, ?_, ?_, ?_, ?_⟩
    · simp only
      rw [List.map_append, List.nodup_append]
      refine ⟨hnd, by simp, ?_⟩
      intro a ha hb
      simp only [List.map_cons, List.map_nil, List.mem_singleton, getFB.new_fb] at hb
      obtain ⟨y, hy, rfl⟩ := List.mem_map.mp ha
      have := hlt y hy
      omega
    · intro x hx
      simp only [List.mem_append, List.mem_singleton] at hx ⊢
      rcases hx with hx | rfl
      · exact Nat.lt_succ_of_lt (hlt x hx)
      · exact Nat.lt_succ_self _
    · refine ⟨(fa.m_bdkey, getFB.new_fb build fa nghost period cross epo st), ?_, rfl⟩
      simp only
      rw [List.find?_append, hfind]
      simp [FBCacheState.matches, getFB.new_fb]
    · rw [hn1]
      simp only [FBCacheState.nuse, hnone]
      rfl
    · intro e he
      simp at he
    · intro _
      exact ⟨rfl, by simp [CacheStats.recordBuild, CacheStats.recordUse], hn1⟩

theorem flushFB_effect (fa : FabArrayBase) (st : FBCacheState) (hwf : st.wf)
    (nghost : IntVect) (period : Periodicity) (cross epo : Bool) :
    (flushFB fa st).wf ∧ (flushFB fa st).next_addr = st.next_addr ∧
    (flushFB fa st).m_TheFBCache.find? (FBCacheState.matches fa nghost period cross epo) =
      none ∧
    (flushFB fa st).m_FBC_stats.nbuild = st.m_FBC_stats.nbuild := by
  obtain ⟨hnd, hlt⟩ := hwf
  refine ⟨⟨?_, ?_⟩, rfl, ?_, ?_⟩
  · simp only [flushFB]
    exact (List.filter_sublist _).map _ |>.nodup hnd
  · intro e he
    simp only [flushFB] at he ⊢
    exact hlt e (List.mem_filter.mp he).1
  · rw [List.find?_eq_none]
    intro e he
    simp only [flushFB, List.mem_filter, Bool.not_eq_true', decide_eq_false_iff_not] at he
    simp [FBCacheState.matches, he.2]
  · simp only [flushFB]
    generalize st.m_TheFBCache.filter (fun e => decide (e.1 = fa.m_bdkey)) = l
    generalize st.m_FBC_stats = s
    induction l generalizing s with
    | nil => rfl
    | cons e l ih =>
      rw [List.foldl_cons, ih]
      rfl
/-- C15: on a well-formed cache, two `getFB` calls with identical
`(nghost, period, cross, enforce_periodicity_only)` on the same
`FabArrayBase` return the same `FB` object, and each call increases that
object's use counter `m_nuse` by exactly one (from 0 for an object the first
call builds); after `flushFB` a further identical request builds a new object,
different from every object cached before, with use counter 1, and increases
the cache's build counter by one. -/
theorem getFB_cache_idempotence
    (build : FabArrayBase → IntVect → Bool → Periodicity → Bool → CommMetaData)
    (fa : FabArrayBase) (nghost : IntVect) (period : Periodicity) (cross epo : Bool)
    (st st1 st2 st3 st4 : FBCacheState) (a1 a2 a4 : Nat)
    (hwf : st.wf)
    (h1 : getFB build fa nghost period cross epo st = (st1, a1))
    (h2 : getFB build fa nghost period cross epo st1 = (st2, a2))
    (h3 : flushFB fa st2 = st3)
    (h4 : getFB build fa nghost period cross epo st3 = (st4, a4)) :
    a2 = a1 ∧
    st1.nuse a1 = st.nuse a1 + 1 ∧
    st2.nuse a1 = st1.nuse a1 + 1 ∧
    st2.m_FBC_stats.nbuild = st1.m_FBC_stats.nbuild ∧
    a4 ≠ a1 ∧ (∀ e ∈ st2.m_TheFBCache, e.2.addr ≠ a4) ∧
    st4.nuse a4 = 1 ∧
    st4.m_FBC_stats.nbuild = st2.m_FBC_stats.nbuild + 1 := by
  have g1 := getFB_effect build fa nghost period cross epo st hwf
  rw [h1] at g1
  obtain ⟨wf1, _, lt1, ⟨e1, hf1, ha1⟩, n1, _, _⟩ := g1
  have g2 := getFB_effect build fa nghost period cross epo st1 wf1
  rw [h2] at g2
  obtain ⟨wf2, le2, _, _, n2, hit2, _⟩ := g2
  obtain ⟨e2a, nb2⟩ := hit2 e1 hf1
  simp only at ha1 e2a
  have ha21 : a2 = a1 := by rw [e2a, ha1]
  obtain ⟨wf3, na3, hf3, nb3⟩ := flushFB_effect fa st2 wf2 nghost period cross epo
  rw [h3] at wf3 na3 hf3 nb3
  have g4 := getFB_effect build fa nghost period cross epo st3 wf3
  rw [h4] at g4
  obtain ⟨_, _, _, _, _, _, miss4⟩ := g4
  obtain ⟨ea4, nb4, n4⟩ := miss4 hf3
  simp only at ea4 nb4 n4 lt1 le2 n1 n2 nb2
  refine ⟨ha21, n1, ?_, nb2, ?_, ?_, ?_, ?_⟩
  · rw [ha21] at n2
    exact n2
  · rw [ea4, na3]
    omega
  · intro e he
    have wf2' : st2.wf := wf2
    have := wf2'.2 e he
    rw [ea4, na3]
    omega
  · rw [ea4]
    exact n4
  · rw [nb4, nb3]

theorem FBCacheState.empty_wf : FBCacheState.empty.wf :=
  ⟨List.nodup_nil, fun _ he => absurd he (List.not_mem_nil _)⟩

theorem getFB_cache_idempotence_witness :
    FBCacheState.empty.wf ∧
    (getFB (fun fa ng _ per _ => FB.define_fb fa ng per 0) exampleFabArray ⟨2, 0, 0⟩
        exampleGeometry.periodicity false false
        (getFB (fun fa ng _ per _ => FB.define_fb fa ng per 0) exampleFabArray ⟨2, 0, 0⟩
          exampleGeometry.periodicity false false FBCacheState.empty).1).2 =
      (getFB (fun fa ng _ per _ => FB.define_fb fa ng per 0) exampleFabArray ⟨2, 0, 0⟩
        exampleGeometry.periodicity false false FBCacheState.empty).2 ∧
    (getFB (fun fa ng _ per _ => FB.define_fb fa ng per 0) exampleFabArray ⟨2, 0, 0⟩
        exampleGeometry.periodicity false false
        (flushFB exampleFabArray
          (getFB (fun fa ng _ per _ => FB.define_fb fa ng per 0) exampleFabArray ⟨2, 0, 0⟩
            exampleGeometry.periodicity false false
            (getFB (fun fa ng _ per _ => FB.define_fb fa ng per 0) exampleFabArray ⟨2, 0, 0⟩
              exampleGeometry.periodicity false false FBCacheState.empty).1).1)).2 ≠
      (getFB (fun fa ng _ per _ => FB.define_fb fa ng per 0) exampleFabArray ⟨2, 0, 0⟩
        exampleGeometry.periodicity false false FBCacheState.empty).2 :=
  ⟨FBCacheState.empty_wf,
    (getFB_cache_idempotence (fun fa ng _ per _ => FB.define_fb fa ng per 0) exampleFabArray
      ⟨2, 0, 0⟩ exampleGeometry.periodicity false false FBCacheState.empty _ _ _ _ _ _ _
      FBCacheState.empty_wf rfl rfl rfl rfl).1,
    (getFB_cache_idempotence (fun fa ng _ per _ => FB.define_fb fa ng per 0) exampleFabArray
      ⟨2, 0, 0⟩ exampleGeometry.periodicity false false FBCacheState.empty _ _ _ _ _ _ _
      FBCacheState.empty_wf rfl rfl rfl rfl).2.2.2.2.1⟩

/-! ### Regrouping by destination -/

theorem FB_local_copy_cpu.local_mfi_loop {α : Type} (indexArray : List Int)
    (T : List CopyComTag) (scomp : Int) (ncomp : Nat) (fa : FabArray α) :
    FB_local_copy_cpu indexArray ⟨T, false⟩ scomp ncomp fa =
      indexArray.foldl
        (FB_local_copy_cpu.mfi_body (FB_local_copy_cpu.loc_copy_tags T) scomp ncomp) fa := by
  unfold FB_local_copy_cpu
  simp only
  by_cases h0 : T.length = 0
  · rw [if_pos h0]
    have hT : T = [] := List.length_eq_zero.mp h0
    subst hT
    have hb : ∀ (s : FabArray α) (mfi : Int),
        FB_local_copy_cpu.mfi_body (FB_local_copy_cpu.loc_copy_tags []) scomp ncomp s mfi = s :=
      fun _ _ => rfl
    induction indexArray with
    | nil => rfl
    | cons a l ih => rw [List.foldl_cons, hb]; exact ih
  · rw [if_neg h0]
    rfl

theorem unpack_recv_buffer_cpu.unpack_mfi_loop {α : Type} [Add α] (sz : Int)
    (indexArray : List Int) (dst : FabArray α) (dcomp : Int) (ncomp : Nat)
    (rcv : List (CommPeer α)) (op : CpOp) :
    unpack_recv_buffer_cpu sz indexArray dst dcomp ncomp rcv op false =
      indexArray.foldl (unpack_recv_buffer_cpu.mfi_body sz dcomp ncomp op
        (unpack_recv_buffer_cpu.recv_copy_tags sz ncomp rcv)) dst := by
  unfold unpack_recv_buffer_cpu
  simp only
  by_cases h0 : rcv.length = 0
  · rw [if_pos h0]
    have hT : rcv = [] := List.length_eq_zero.mp h0
    subst hT
    have hb : ∀ (s : FabArray α) (mfi : Int),
        unpack_recv_buffer_cpu.mfi_body sz dcomp ncomp op
          (unpack_recv_buffer_cpu.recv_copy_tags sz ncomp []) s mfi = s :=
      fun _ _ => rfl
    induction indexArray with
    | nil => rfl
    | cons a l ih => rw [List.foldl_cons, hb]; exact ih
  · rw [if_neg h0]
    rfl

theorem LoopConcurrentOnCpu_invariant {σ : Type} (P : σ → Prop) (bx : Box) (ncomp : Nat)
    (f : σ → Int → Int → Int → Int → σ) (hf : ∀ s i j k n, P s → P (f s i j k n)) (s : σ)
    (hs : P s) : P (LoopConcurrentOnCpu bx ncomp f s) := by
  rw [LoopConcurrentOnCpu_eq_foldl]
  generalize loopIndices bx ncomp = l
  induction l generalizing s with
  | nil => exact hs
  | cons c l ih => exact ih _ (hf s _ _ _ _ hs)

theorem foldl_invariant {σ τ : Type} (P : σ → Prop) (f : σ → τ → σ) (l : List τ)
    (hf : ∀ s, ∀ x ∈ l, P s → P (f s x)) (s : σ) (hs : P s) : P (l.foldl f s) := by
  induction l generalizing s with
  | nil => exact hs
  | cons c l ih =>
    exact ih (fun s x hx => hf s x (List.mem_cons_of_mem _ hx)) _
      (hf s c (List.mem_cons_self _ _) hs)

theorem FabArray.set_other {α : Type} (fa : FabArray α) (K K' i j k n : Int) (v : α)
    (h : K' ≠ K) : fa.set K i j k n v K' = fa K' := by
  funext i' j' k' n'
  simp only [FabArray.set]
  rw [if_neg (fun hc => h hc.1)]

theorem FB_local_copy_cpu.local_mfi_body_frame {α : Type} (ld : LayoutData FabCopyTag) (scomp : Int)
    (ncomp : Nat) (fa : FabArray α) (mfi K : Int) (h : K ≠ mfi) :
    FB_local_copy_cpu.mfi_body ld scomp ncomp fa mfi K = fa K := by
  unfold FB_local_copy_cpu.mfi_body
  apply foldl_invariant (fun s : FabArray α => s K = fa K)
  · intro s tag _ hs
    apply LoopConcurrentOnCpu_invariant (fun s : FabArray α => s K = fa K)
    · intro s' i j k n hs'
      rw [FabArray.set_other _ _ _ _ _ _ _ _ h]
      exact hs'
    · exact hs
  · rfl

theorem unpack_recv_buffer_cpu.unpack_mfi_body_frame {α : Type} [Add α] (sz : Int) (dcomp : Int)
    (ncomp : Nat) (op : CpOp) (ld : LayoutData (VoidCopyTag α)) (dst : FabArray α)
    (mfi K : Int) (h : K ≠ mfi) :
    unpack_recv_buffer_cpu.mfi_body sz dcomp ncomp op ld dst mfi K = dst K := by
  unfold unpack_recv_buffer_cpu.mfi_body
  apply foldl_invariant (fun s : FabArray α => s K = dst K)
  · intro s tag _ hs
    unfold unpack_recv_buffer_cpu.apply
    cases op
    · apply LoopConcurrentOnCpu_invariant (fun s : FabArray α => s K = dst K)
      · intro s' i j k n hs'
        rw [FabArray.set_other _ _ _ _ _ _ _ _ h]
        exact hs'
      · exact hs
    · apply LoopConcurrentOnCpu_invariant (fun s : FabArray α => s K = dst K)
      · intro s' i j k n hs'
        rw [FabArray.set_other _ _ _ _ _ _ _ _ h]
        exact hs'
      · exact hs
  · rfl

/-- Grouping a list by a key, the keys taken from a duplicate-free list that
holds every key of the list, permutes the list. -/
theorem regroup_perm {τ : Type} (key : τ → Int) (indexArray : List Int) (T : List τ)
    (hnd : indexArray.Nodup) (hT : ∀ t ∈ T, key t ∈ indexArray) :
    (regroup key indexArray T).Perm T := by
  unfold regroup
  induction indexArray generalizing T with
  | nil =>
    cases T with
    | nil => exact List.Perm.refl _
    | cons t T => exact absurd (hT t (List.mem_cons_self _ _)) (List.not_mem_nil _)
  | cons a l ih =>
    obtain ⟨hal, hndl⟩ := List.nodup_cons.mp hnd
    rw [List.flatMap_cons]
    have hrest : l.flatMap (fun K => T.filter (fun t => decide (key t = K))) =
        l.flatMap (fun K => (T.filter (fun t => !decide (key t = a))).filter
          (fun t => decide (key t = K))) := by
      apply List.flatMap_congr
      intro K hK
      rw [List.filter_filter]
      apply List.filter_congr
      intro t _
      by_cases hk : key t = K
      · have hKa : K ≠ a := fun hc => hal (by rw [← hc]; exact hK)
        simp [hk, hKa]
      · simp [hk]
    rw [hrest]
    have ih' := ih (T.filter (fun t => !decide (key t = a))) hndl (by
      intro t ht
      obtain ⟨htT, hta⟩ := List.mem_filter.mp ht
      rcases List.mem_cons.mp (hT t htT) with h | h
      · simp [h] at hta
      · exact h)
    exact (List.Perm.append_left _ ih').trans (List.filter_append_perm _ T)

theorem placedPeer_tags {α : Type} (sz : Int) (ncomp : Nat) (mem : Buffer α) (d : Int)
    (tags : List CopyComTag) :
    (place sz ncomp mem d tags).map (fun x => (x.1, x.2.dbox)) =
      tags.map (fun t => (t.dstIndex, t.dbox)) := by
  induction tags generalizing d with
  | nil => rfl
  | cons t ts ih => simp only [place, List.map_cons, ih]

theorem placed_filed_tags {α : Type} (sz : Int) (ncomp : Nat) (rcv : List (CommPeer α)) :
    (rcv.flatMap (placedPeer sz ncomp)).map (fun x => (x.1, x.2.dbox)) =
      (unpack_recv_buffer_cpu.filed_tags rcv).map (fun t => (t.dstIndex, t.dbox)) := by
  unfold unpack_recv_buffer_cpu.filed_tags
  induction rcv with
  | nil => rfl
  | cons pr rcv ih =>
    rw [List.flatMap_cons, List.flatMap_cons, List.map_append, List.map_append, ih]
    congr 1
    unfold placedPeer
    by_cases h : 0 < pr.size
    · rw [if_pos h, if_pos h, placedPeer_tags]
    · rw [if_neg h, if_neg h]
      rfl
/-- C21: in the branches of `FB_local_copy_cpu` and `unpack_recv_buffer_cpu`
that are not thread-safe, with `MFIter` visiting every destination grid once:
the list filed under grid `K` holds exactly the tags with `dstIndex = K`, in
their original relative order (for the receive tags: the tags of the peers
with a non-empty buffer, each with the buffer position it is unpacked from;
these are all receive tags when no peer with tags has an empty buffer);
the lists of the visited grids together are a permutation of the whole tag
list; the routine is the loop over the visited grids of the per-grid body, and
the body of grid `mfi` leaves every other fab as it was, so the writes to a
fab all come from the iteration of that fab. -/
theorem regrouping_partitions_by_destination {α : Type} [Add α] (sz : Int)
    (indexArray : List Int) (T : List CopyComTag) (rcv : List (CommPeer α)) (scomp dcomp : Int)
    (ncomp : Nat) (op : CpOp) (fa : FabArray α)
    (hnd : indexArray.Nodup) (hT : ∀ t ∈ T, t.dstIndex ∈ indexArray)
    (hR : ∀ t ∈ unpack_recv_buffer_cpu.filed_tags rcv, t.dstIndex ∈ indexArray) :
    ((∀ K, FB_local_copy_cpu.loc_copy_tags T K =
        (T.filter (fun t => decide (t.dstIndex = K))).map FB_local_copy_cpu.fabCopyTag) ∧
     (∀ K, (FB_local_copy_cpu.loc_copy_tags T K).Sublist
        (T.map FB_local_copy_cpu.fabCopyTag)) ∧
     (indexArray.flatMap (FB_local_copy_cpu.loc_copy_tags T)).Perm
        (T.map FB_local_copy_cpu.fabCopyTag) ∧
     FB_local_copy_cpu indexArray ⟨T, false⟩ scomp ncomp fa =
        indexArray.foldl
          (FB_local_copy_cpu.mfi_body (FB_local_copy_cpu.loc_copy_tags T) scomp ncomp) fa ∧
     (∀ (s : FabArray α) (mfi K : Int), K ≠ mfi →
        FB_local_copy_cpu.mfi_body (FB_local_copy_cpu.loc_copy_tags T) scomp ncomp s mfi K =
          s K)) ∧
    ((∀ K, unpack_recv_buffer_cpu.recv_copy_tags sz ncomp rcv K =
        ((rcv.flatMap (placedPeer sz ncomp)).filter (fun x => decide (x.1 = K))).map Prod.snd) ∧
     (rcv.flatMap (placedPeer sz ncomp)).map (fun x => (x.1, x.2.dbox)) =
        (unpack_recv_buffer_cpu.filed_tags rcv).map (fun t => (t.dstIndex, t.dbox)) ∧
     ((∀ pr ∈ rcv, pr.cctc ≠ [] → 0 < pr.size) →
        unpack_recv_buffer_cpu.filed_tags rcv = rcv.flatMap CommPeer.cctc) ∧
     (∀ K, (unpack_recv_buffer_cpu.recv_copy_tags sz ncomp rcv K).map VoidCopyTag.dbox =
        ((unpack_recv_buffer_cpu.filed_tags rcv).filter
          (fun t => decide (t.dstIndex = K))).map CopyComTag.dbox) ∧
     (∀ K, (unpack_recv_buffer_cpu.recv_copy_tags sz ncomp rcv K).Sublist
        ((rcv.flatMap (placedPeer sz ncomp)).map Prod.snd)) ∧
     (indexArray.flatMap (unpack_recv_buffer_cpu.recv_copy_tags sz ncomp rcv)).Perm
        ((rcv.flatMap (placedPeer sz ncomp)).map Prod.snd) ∧
     unpack_recv_buffer_cpu sz indexArray fa dcomp ncomp rcv op false =
        indexArray.foldl (unpack_recv_buffer_cpu.mfi_body sz dcomp ncomp op
          (unpack_recv_buffer_cpu.recv_copy_tags sz ncomp rcv)) fa ∧
     (∀ (s : FabArray α) (mfi K : Int), K ≠ mfi →
        unpack_recv_buffer_cpu.mfi_body sz dcomp ncomp op
          (unpack_recv_buffer_cpu.recv_copy_tags sz ncomp rcv) s mfi K = s K)) := by
  have hloc : ∀ K, FB_local_copy_cpu.loc_copy_tags T K =
      (T.filter (fun t => decide (t.dstIndex = K))).map FB_local_copy_cpu.fabCopyTag :=
    fun K => FB_local_copy_cpu.loc_copy_tags_apply T K
  have hrcv : ∀ K, unpack_recv_buffer_cpu.recv_copy_tags sz ncomp rcv K =
      ((rcv.flatMap (placedPeer sz ncomp)).filter (fun x => decide (x.1 = K))).map Prod.snd :=
    fun K => recv_copy_tags_apply sz ncomp rcv K
  have hpf := placed_filed_tags sz ncomp rcv
  have hplaced : ∀ x ∈ rcv.flatMap (placedPeer sz ncomp), x.1 ∈ indexArray := by
    intro x hx
    have hm : (x.1, x.2.dbox) ∈
        (rcv.flatMap (placedPeer sz ncomp)).map (fun x => (x.1, x.2.dbox)) :=
      List.mem_map.mpr ⟨x, hx, rfl⟩
    rw [hpf] at hm
    obtain ⟨t, ht, he⟩ := List.mem_map.mp hm
    have h1 : t.dstIndex = x.1 := congrArg Prod.fst he
    rw [← h1]
    exact hR t ht
  refine ⟨⟨hloc, ?_, ?_, FB_local_copy_cpu.local_mfi_loop indexArray T scomp ncomp fa,
      fun s mfi K h => FB_local_copy_cpu.local_mfi_body_frame _ scomp ncomp s mfi K h⟩,
    ⟨hrcv, hpf, ?_, ?_, ?_, ?_,
      unpack_recv_buffer_cpu.unpack_mfi_loop sz indexArray fa dcomp ncomp rcv op,
      fun s mfi K h => unpack_recv_buffer_cpu.unpack_mfi_body_frame sz dcomp ncomp op _ s mfi K h⟩⟩
  · intro K
    rw [hloc]
    exact List.Sublist.map _ (List.filter_sublist _)
  · have he : indexArray.flatMap (FB_local_copy_cpu.loc_copy_tags T) =
        (regroup CopyComTag.dstIndex indexArray T).map FB_local_copy_cpu.fabCopyTag := by
      unfold regroup
      rw [List.map_flatMap]
      exact List.flatMap_congr (fun K _ => hloc K)
    rw [he]
    exact (regroup_perm CopyComTag.dstIndex indexArray T hnd hT).map _
  · intro hsize
    unfold unpack_recv_buffer_cpu.filed_tags
    apply List.flatMap_congr
    intro pr hpr
    by_cases h : 0 < pr.size
    · rw [if_pos h]
    · rw [if_neg h]
      by_cases hc : pr.cctc = []
      · exact hc.symm
      · exact absurd (hsize pr hpr hc) h
  · intro K
    rw [hrcv, List.map_map]
    have h1 : ((rcv.flatMap (placedPeer sz ncomp)).filter (fun x => decide (x.1 = K))).map
        (VoidCopyTag.dbox ∘ Prod.snd) =
        ((((rcv.flatMap (placedPeer sz ncomp)).map (fun x => (x.1, x.2.dbox))).filter
          (fun y => decide (y.1 = K))).map Prod.snd) := by
      rw [List.filter_map, List.map_map]
      rfl
    rw [h1, hpf, List.filter_map, List.map_map]
    rfl
  · intro K
    rw [hrcv]
    exact List.Sublist.map _ (List.filter_sublist _)
  · have he : indexArray.flatMap (unpack_recv_buffer_cpu.recv_copy_tags sz ncomp rcv) =
        (regroup Prod.fst indexArray (rcv.flatMap (placedPeer sz ncomp))).map Prod.snd := by
      unfold regroup
      rw [List.map_flatMap]
      exact List.flatMap_congr (fun K _ => hrcv K)
    rw [he]
    exact (regroup_perm Prod.fst indexArray _ hnd hplaced).map _

theorem regrouping_partitions_by_destination_witness :
    [(0 : Int), 1].Nodup ∧
    (∀ t ∈ [overlapTagA, overlapTagC, overlapTagB], t.dstIndex ∈ [(0 : Int), 1]) ∧
    (∀ t ∈ unpack_recv_buffer_cpu.filed_tags
        [(⟨fun a => 1000 + a, 16, [overlapTagA, overlapTagC]⟩ : CommPeer Int),
         ⟨fun a => 2000 + a, 8, [overlapTagB]⟩], t.dstIndex ∈ [(0 : Int), 1]) ∧
    FB_local_copy_cpu.loc_copy_tags [overlapTagA, overlapTagC, overlapTagB] 0 =
      [FB_local_copy_cpu.fabCopyTag overlapTagA, FB_local_copy_cpu.fabCopyTag overlapTagB] ∧
    (unpack_recv_buffer_cpu.recv_copy_tags 4 1
        [(⟨fun a => 1000 + a, 16, [overlapTagA, overlapTagC]⟩ : CommPeer Int),
         ⟨fun a => 2000 + a, 8, [overlapTagB]⟩] 0).map VoidCopyTag.dbox =
      [overlapTagA.dbox, overlapTagB.dbox] :=
  ⟨by decide, by decide, by decide,
    ((regrouping_partitions_by_destination 4 [0, 1] [overlapTagA, overlapTagC, overlapTagB]
      [(⟨fun a => 1000 + a, 16, [overlapTagA, overlapTagC]⟩ : CommPeer Int),
       ⟨fun a => 2000 + a, 8, [overlapTagB]⟩] 0 0 1 CpOp.COPY cexFab
      (by decide) (by decide) (by decide)).1.1 0).trans rfl,
    ((regrouping_partitions_by_destination 4 [0, 1] [overlapTagA, overlapTagC, overlapTagB]
      [(⟨fun a => 1000 + a, 16, [overlapTagA, overlapTagC]⟩ : CommPeer Int),
       ⟨fun a => 2000 + a, 8, [overlapTagB]⟩] 0 0 1 CpOp.COPY cexFab
      (by decide) (by decide) (by decide)).2.2.2.2.1 0).trans (by decide)⟩

/-! ### The two branches of the CPU routines agree -/

/-- Regrouping by a key does not change which items (and in which order)
produce the elements a predicate selects, when the predicate determines the
key. -/
theorem filter_flatMap_regroup {τ υ : Type} (key : τ → Int) (indexArray : List Int)
    (T : List τ) (g : τ → List υ) (p : υ → Bool) (K : Int)
    (hkey : ∀ x ∈ T, ∀ u ∈ g x, p u = true → key x = K)
    (hnd : indexArray.Nodup) (hT : ∀ t ∈ T, key t ∈ indexArray) :
    ((regroup key indexArray T).flatMap g).filter p = (T.flatMap g).filter p := by
  have hr : ∀ L : List τ, (∀ x ∈ L, x ∈ T) →
      (L.flatMap g).filter p =
        ((L.filter (fun x => decide (key x = K))).flatMap g).filter p := by
    intro L hL
    apply filter_flatMap_restrict
    intro x hx hxK
    rw [List.filter_eq_nil_iff]
    intro u hu hpu
    have := hkey x (hL x hx) u hu hpu
    simp [this] at hxK
  rw [hr _ (fun x hx => ((mem_regroup key indexArray T x).mp hx).1), hr T (fun x hx => hx)]
  by_cases hK : K ∈ indexArray
  · rw [filter_regroup key indexArray T K hnd hK]
  · have h1 : (regroup key indexArray T).filter (fun x => decide (key x = K)) = [] := by
      rw [List.filter_eq_nil_iff]
      intro x hx hxK
      have hk : key x = K := by simpa using hxK
      exact hK (hk ▸ ((mem_regroup key indexArray T x).mp hx).2)
    have h2 : T.filter (fun x => decide (key x = K)) = [] := by
      rw [List.filter_eq_nil_iff]
      intro x hx hxK
      have hk : key x = K := by simpa using hxK
      exact hK (hk ▸ hT x hx)
    rw [h1, h2]

/-- C23: for a local tag list in which every tag's boxes have equal extents
and no destination box meets a source box on the same fab (destination boxes
may overlap each other), the destinations being grids `MFIter` visits, each
once, `FB_local_copy_cpu` run in list order leaves the same contents in every
fab with `m_threadsafe_loc = true` and with `m_threadsafe_loc = false`. -/
theorem FB_local_copy_cpu_branches_agree {α : Type} (indexArray : List Int)
    (T : List CopyComTag) (scomp : Int) (ncomp : Nat) (fa : FabArray α)
    (hnd : indexArray.Nodup) (hloc : ∀ t ∈ T, t.dstIndex ∈ indexArray)
    (hsame : ∀ t ∈ T, t.dbox.sameSize t.sbox = true)
    (hds : ∀ a ∈ T, ∀ b ∈ T, a.dstIndex = b.srcIndex → a.dbox.intersects b.sbox = false) :
    FB_local_copy_cpu indexArray ⟨T, true⟩ scomp ncomp fa =
      FB_local_copy_cpu indexArray ⟨T, false⟩ scomp ncomp fa := by
  apply FabArray.toFun_inj
  rw [FB_local_copy_cpu.local_toFun_threadsafe, FB_local_copy_cpu.local_toFun_regrouped]
  have hmem : ∀ t, t ∈ regroup CopyComTag.dstIndex indexArray T → t ∈ T :=
    fun t ht => ((mem_regroup _ _ _ t).mp ht).1
  rw [foldl_applyMove_eq _ _ (tagMoves_noninterfering T scomp ncomp hds hsame),
    foldl_applyMove_eq _ _ (tagMoves_noninterfering (regroup CopyComTag.dstIndex indexArray T)
      scomp ncomp (fun a ha b hb => hds a (hmem a ha) b (hmem b hb))
      (fun t ht => hsame t (hmem t ht)))]
  funext q
  rw [foldl_applyUpd_apply, foldl_applyUpd_apply, List.filter_map, List.filter_map]
  congr 2
  symm
  apply filter_flatMap_regroup CopyComTag.dstIndex indexArray T (tagMoves scomp ncomp) _ q.1 _
    hnd hloc
  intro t _ m hm hp
  obtain ⟨i, j, k, n, _, _, _, rfl⟩ := (mem_tagMoves _ _ _ _).mp hm
  have hq : (t.dstIndex, i, j, k, n + scomp) = q := by simpa using hp
  rw [← hq]

theorem FB_local_copy_cpu_branches_agree_witness :
    [(0 : Int), 1].Nodup ∧
    (∀ t ∈ [overlapTagA, overlapTagC, overlapTagB], t.dstIndex ∈ [(0 : Int), 1]) ∧
    (∀ t ∈ [overlapTagA, overlapTagC, overlapTagB], t.dbox.sameSize t.sbox = true) ∧
    (∀ a ∈ [overlapTagA, overlapTagC, overlapTagB],
      ∀ b ∈ [overlapTagA, overlapTagC, overlapTagB],
        a.dstIndex = b.srcIndex → a.dbox.intersects b.sbox = false) ∧
    overlapTagA.dbox.intersects overlapTagB.dbox = true ∧
    FB_local_copy_cpu [0, 1] ⟨[overlapTagA, overlapTagC, overlapTagB], true⟩ 0 1 cexFab =
      FB_local_copy_cpu [0, 1] ⟨[overlapTagA, overlapTagC, overlapTagB], false⟩ 0 1 cexFab ∧
    FB_local_copy_cpu [0, 1] ⟨[overlapTagA, overlapTagC, overlapTagB], false⟩ 0 1 cexFab
      0 0 0 0 0 = 106 :=
  ⟨by decide, by decide, by decide, by decide, by decide,
    FB_local_copy_cpu_branches_agree [0, 1] [overlapTagA, overlapTagC, overlapTagB] 0 1 cexFab
      (by decide) (by decide) (by decide) (by decide),
    by decide⟩

/-- C24: for every set of receive buffers and tag lists (destination boxes may
overlap) and both copy operators, the destinations being grids `MFIter`
visits, each once, `unpack_recv_buffer_cpu` run in list order leaves the same
destination contents with `is_thread_safe = true` and with
`is_thread_safe = false`; the list the second branch files under a grid is the
subsequence of the receive tags with that destination, in their original
order. -/
theorem unpack_recv_buffer_cpu_branches_agree {α : Type} [Add α] (sz : Int)
    (indexArray : List Int) (dst : FabArray α) (dcomp : Int) (ncomp : Nat)
    (rcv : List (CommPeer α)) (op : CpOp)
    (hnd : indexArray.Nodup)
    (hR : ∀ t ∈ unpack_recv_buffer_cpu.filed_tags rcv, t.dstIndex ∈ indexArray) :
    unpack_recv_buffer_cpu sz indexArray dst dcomp ncomp rcv op true =
      unpack_recv_buffer_cpu sz indexArray dst dcomp ncomp rcv op false ∧
    (∀ K, unpack_recv_buffer_cpu.recv_copy_tags sz ncomp rcv K =
      ((rcv.flatMap (placedPeer sz ncomp)).filter (fun x => decide (x.1 = K))).map Prod.snd) ∧
    (∀ K, (regroup Prod.fst indexArray (rcv.flatMap (placedPeer sz ncomp))).filter
        (fun x => decide (x.1 = K)) =
      (rcv.flatMap (placedPeer sz ncomp)).filter (fun x => decide (x.1 = K))) := by
  have hplaced : ∀ x ∈ rcv.flatMap (placedPeer sz ncomp), x.1 ∈ indexArray := by
    intro x hx
    have hm : (x.1, x.2.dbox) ∈
        (rcv.flatMap (placedPeer sz ncomp)).map (fun x => (x.1, x.2.dbox)) :=
      List.mem_map.mpr ⟨x, hx, rfl⟩
    rw [placed_filed_tags] at hm
    obtain ⟨t, ht, he⟩ := List.mem_map.mp hm
    have h1 : t.dstIndex = x.1 := congrArg Prod.fst he
    rw [← h1]
    exact hR t ht
  refine ⟨?_, fun K => recv_copy_tags_apply sz ncomp rcv K, ?_⟩
  · apply FabArray.toFun_inj
    rw [unpack_recv_buffer_cpu.unpack_toFun_threadsafe,
      unpack_recv_buffer_cpu.unpack_toFun_regrouped]
    funext q
    rw [foldl_applyUpd_apply, foldl_applyUpd_apply]
    congr 1
    symm
    apply filter_flatMap_regroup Prod.fst indexArray _ (voidUpds sz dcomp ncomp op) _ q.1 _
      hnd hplaced
    intro x _ u hu hp
    have h1 := (voidUpds_key sz dcomp ncomp op x u hu).1
    have hq : u.1 = q := by simpa using hp
    rw [← hq, h1]
  · intro K
    have h := filter_flatMap_regroup Prod.fst indexArray (rcv.flatMap (placedPeer sz ncomp))
      (fun x => [x]) (fun x => decide (x.1 = K)) K
      (fun x _ u hu hp => by
        have hux : u = x := by simpa using hu
        subst hux
        simpa using hp) hnd hplaced
    simpa using h

theorem unpack_recv_buffer_cpu_branches_agree_witness :
    [(0 : Int), 1].Nodup ∧
    (∀ t ∈ unpack_recv_buffer_cpu.filed_tags
        [(⟨fun a => 1000 + a, 16, [overlapTagA, overlapTagC]⟩ : CommPeer Int),
         ⟨fun a => 2000 + a, 8, [overlapTagB]⟩], t.dstIndex ∈ [(0 : Int), 1]) ∧
    unpack_recv_buffer_cpu 4 [0, 1] cexFab 0 1
        [(⟨fun a => 1000 + a, 16, [overlapTagA, overlapTagC]⟩ : CommPeer Int),
         ⟨fun a => 2000 + a, 8, [overlapTagB]⟩] CpOp.ADD true =
      unpack_recv_buffer_cpu 4 [0, 1] cexFab 0 1
        [(⟨fun a => 1000 + a, 16, [overlapTagA, overlapTagC]⟩ : CommPeer Int),
         ⟨fun a => 2000 + a, 8, [overlapTagB]⟩] CpOp.ADD false ∧
    unpack_recv_buffer_cpu 4 [0, 1] cexFab 0 1
        [(⟨fun a => 1000 + a, 16, [overlapTagA, overlapTagC]⟩ : CommPeer Int),
         ⟨fun a => 2000 + a, 8, [overlapTagB]⟩] CpOp.ADD false 0 1 0 0 0 = 3009 :=
  ⟨by decide, by decide,
    (unpack_recv_buffer_cpu_branches_agree 4 [0, 1] cexFab 0 1
      [(⟨fun a => 1000 + a, 16, [overlapTagA, overlapTagC]⟩ : CommPeer Int),
       ⟨fun a => 2000 + a, 8, [overlapTagB]⟩] CpOp.ADD (by decide) (by decide)).1,
    by decide⟩

/-! ### `Particle::atomicSetID` -/

/-- The word `ParticleIDWrapper::operator=` leaves, in arithmetic form. -/
theorem ParticleIDWrapper.assign_value (m : Nat) (id : Int) (h0 : -549755813887 ≤ id)
    (h1 : id ≤ 549755813887) :
    ParticleIDWrapper.assign m id =
      9223372036854775808 * (if id ≥ 0 then 1 else 0) + 16777216 * id.natAbs +
        m % 16777216 := by
  unfold ParticleIDWrapper.assign
  simp only
  by_cases hid : id ≥ 0
  · rw [if_pos hid]
    simp only [ne_eq, one_ne_zero, not_false_eq_true, if_true]
    rw [toUInt64_of_nonneg id hid (by omega),
      ParticleIDWrapper.assign_eq m 1 id.toNat (le_refl _) (by omega)]
    omega
  · rw [if_neg hid]
    simp only [ne_eq, not_true_eq_false, if_false]
    rw [toUInt64_of_nonneg (-id) (by omega) (by omega),
      ParticleIDWrapper.assign_eq m 0 (-id).toNat (by omega) (by omega)]
    omega

/-- The cpu field read from a word given in arithmetic form. -/
theorem ConstParticleCPUWrapper.read_low (hi low : Nat) (hl : low < 16777216) :
    ConstParticleCPUWrapper.toInt (16777216 * hi + low) = (low : Int) := by
  unfold ConstParticleCPUWrapper.toInt
  have e := Nat.and_pow_two_sub_one_eq_mod (16777216 * hi + low) 24
  norm_num at e
  rw [e, Nat.mul_add_mod, Nat.mod_eq_of_lt hl, toInt32_of_lt _ (by omega)]

/-- C26 (as stated, refuted): on the word 5 (id 0, cpu 5) `atomicSetID(7)`
leaves id 7 but cpu 0, while the plain assignment `p.id() = 7` leaves id 7
and cpu 5: the two do not leave the particle in the same state. -/
theorem atomicSetID_resets_cpu :
    (5 : Nat) < 18446744073709551616 ∧ -(2 ^ 39 - 1) ≤ (7 : Int) ∧ (7 : Int) ≤ 2 ^ 39 - 1 ∧
    ConstParticleCPUWrapper.toInt 5 = 5 ∧
    ConstParticleIDWrapper.toLong (Particle.atomicSetID 5 7) = 7 ∧
    ConstParticleCPUWrapper.toInt (Particle.atomicSetID 5 7) = 0 ∧
    ConstParticleCPUWrapper.toInt (Particle.atomicSetID 5 7) ≠ ConstParticleCPUWrapper.toInt 5 ∧
    ConstParticleCPUWrapper.toInt (ParticleIDWrapper.assign 5 7) = 5 ∧
    Particle.atomicSetID 5 7 ≠ ParticleIDWrapper.assign 5 7 := by
  refine ⟨by decide, by decide, by decide, by decide, by decide, by decide, by decide, by decide,
    by decide⟩

/-- C26 (amended): for every prior `m_idcpu` word and every id with
`|id| <= 2^39 - 1`, `atomicSetID(id)` replaces the whole word by the word the
assignment of `id` leaves on a zero word: afterwards `id() == id` and
`cpu() == 0`, and the word equals the one the plain assignment `p.id() = id`
leaves exactly when `cpu()` was 0 before the call. -/
theorem atomicSetID_effect (m_idcpu : Nat) (id : Int)
    (_hword : m_idcpu < 18446744073709551616)
    (hlo : -(2 ^ 39 - 1) ≤ id) (hhi : id ≤ 2 ^ 39 - 1) :
    Particle.atomicSetID m_idcpu id = ParticleIDWrapper.assign 0 id ∧
    ParticleIDWrapper.toLong (Particle.atomicSetID m_idcpu id) = id ∧
    ConstParticleIDWrapper.toLong (Particle.atomicSetID m_idcpu id) = id ∧
    ParticleCPUWrapper.toInt (Particle.atomicSetID m_idcpu id) = 0 ∧
    ConstParticleCPUWrapper.toInt (Particle.atomicSetID m_idcpu id) = 0 ∧
    (Particle.atomicSetID m_idcpu id = ParticleIDWrapper.assign m_idcpu id ↔
      ConstParticleCPUWrapper.toInt m_idcpu = 0) := by
  have h0 : -549755813887 ≤ id := by norm_num at hlo; omega
  have h1 : id ≤ 549755813887 := by norm_num at hhi; omega
  have hdef : Particle.atomicSetID m_idcpu id = ParticleIDWrapper.assign 0 id := rfl
  have hcpu : ConstParticleCPUWrapper.toInt (ParticleIDWrapper.assign 0 id) = 0 := by
    rw [ParticleIDWrapper.assign_value 0 id h0 h1]
    have e : 9223372036854775808 * (if id ≥ 0 then 1 else 0) + 16777216 * id.natAbs +
        0 % 16777216 =
        16777216 * (549755813888 * (if id ≥ 0 then 1 else 0) + id.natAbs) + 0 := by
      split_ifs <;> omega
    rw [e, ConstParticleCPUWrapper.read_low _ 0 (by norm_num)]
    rfl
  have hm : ConstParticleCPUWrapper.toInt m_idcpu = ((m_idcpu % 16777216 : Nat) : Int) := by
    have e : m_idcpu = 16777216 * (m_idcpu / 16777216) + m_idcpu % 16777216 :=
      (Nat.div_add_mod m_idcpu 16777216).symm
    conv_lhs => rw [e]
    exact ConstParticleCPUWrapper.read_low _ _ (Nat.mod_lt _ (by norm_num))
  refine ⟨hdef, ?_, ?_, hcpu, hcpu, ?_⟩
  · rw [hdef]
    exact ParticleIDWrapper.id_word_read_back 0 id h0 h1
  · rw [hdef]
    exact ParticleIDWrapper.id_word_read_back 0 id h0 h1
  · rw [hdef, hm, ParticleIDWrapper.assign_value 0 id h0 h1,
      ParticleIDWrapper.assign_value m_idcpu id h0 h1]
    omega

theorem atomicSetID_effect_witness :
    (12345678901234567890 : Nat) < 18446744073709551616 ∧
    -(2 ^ 39 - 1) ≤ (-549755813887 : Int) ∧ (-549755813887 : Int) ≤ 2 ^ 39 - 1 ∧
    ConstParticleIDWrapper.toLong (Particle.atomicSetID 12345678901234567890 (-549755813887)) =
      -549755813887 ∧
    ConstParticleCPUWrapper.toInt (Particle.atomicSetID 12345678901234567890 (-549755813887)) =
      0 :=
  ⟨by decide, by decide, by decide,
    (atomicSetID_effect 12345678901234567890 (-549755813887) (by decide) (by decide)
      (by decide)).2.2.1,
    (atomicSetID_effect 12345678901234567890 (-549755813887) (by decide) (by decide)
      (by decide)).2.2.2.2.1⟩

/-! ### Tagged parallel-for -/

/-- C22 (as stated, refuted): handed a metadata object whose two local tags
write the same cells of fab 0 and whose thread-safety flag is false, on an
element type without atomic store, `FB_local_copy_gpu` aborts; handed receive
tags that are not thread-safe, `unpack_recv_buffer_gpu` aborts for `COPY` on
an element type without atomic store and for `ADD` on one without atomic
add. -/
theorem gpu_transfer_aborts :
    overlapTagA.dstIndex = overlapTagB.dstIndex ∧
    overlapTagA.dbox.intersects overlapTagB.dbox = true ∧
    FB_local_copy_gpu false 32 bisectLinear [0, 1] ⟨[overlapTagA, overlapTagB], false⟩ 0 1
      cexFab = none ∧
    unpack_recv_buffer_gpu false true 32 bisectLinear 4 [0, 1] cexFab 0 1
      [(⟨fun a => 1000 + a, 16, [overlapTagA, overlapTagB]⟩ : CommPeer Int)]
      CpOp.COPY false = none ∧
    unpack_recv_buffer_gpu true false 32 bisectLinear 4 [0, 1] cexFab 0 1
      [(⟨fun a => 1000 + a, 16, [overlapTagA, overlapTagB]⟩ : CommPeer Int)]
      CpOp.ADD false = none :=
  ⟨by decide, by decide, rfl, rfl, rfl⟩

/-- C22 (amended): `FB_local_copy_gpu` aborts exactly when the local tag list
is not empty, `m_threadsafe_loc` is false and the element type has no atomic
store; `unpack_recv_buffer_gpu` aborts exactly when there is a receive peer,
`is_thread_safe` is false and the element type has no atomic store (`COPY`) or
no atomic add (`ADD`); in every other case the routine runs to completion.
The unsupported combination is a fatal error of the transfer routine. -/
theorem gpu_transfer_abort_iff {α : Type} [Add α] (IsStoreAtomic HasAtomicAdd : Bool)
    (warp_size : Int) (bisect : List Int → Int → Int → Int → Int) (sz : Int)
    (indexArray : List Int) (TheFB : FB) (scomp dcomp : Int) (ncomp : Nat) (fa : FabArray α)
    (rcv : List (CommPeer α)) (op : CpOp) (is_thread_safe : Bool) :
    (FB_local_copy_gpu IsStoreAtomic warp_size bisect indexArray TheFB scomp ncomp fa = none ↔
      (TheFB.m_LocTags ≠ [] ∧ TheFB.m_threadsafe_loc = false ∧ IsStoreAtomic = false)) ∧
    (unpack_recv_buffer_gpu IsStoreAtomic HasAtomicAdd warp_size bisect sz indexArray fa dcomp
        ncomp rcv op is_thread_safe = none ↔
      (rcv ≠ [] ∧ is_thread_safe = false ∧
        ((op = CpOp.COPY ∧ IsStoreAtomic = false) ∨
         (op = CpOp.ADD ∧ HasAtomicAdd = false)))) ∧
    ((FB_local_copy_gpu IsStoreAtomic warp_size bisect indexArray TheFB scomp ncomp fa).isSome =
        true ↔
      (TheFB.m_LocTags = [] ∨ TheFB.m_threadsafe_loc = true ∨ IsStoreAtomic = true)) ∧
    ((unpack_recv_buffer_gpu IsStoreAtomic HasAtomicAdd warp_size bisect sz indexArray fa dcomp
        ncomp rcv op is_thread_safe).isSome = true ↔
      (rcv = [] ∨ is_thread_safe = true ∨
        (op = CpOp.COPY ∧ IsStoreAtomic = true) ∨ (op = CpOp.ADD ∧ HasAtomicAdd = true))) := by
  have h1 : FB_local_copy_gpu IsStoreAtomic warp_size bisect indexArray TheFB scomp ncomp fa =
      none ↔
      (TheFB.m_LocTags ≠ [] ∧ TheFB.m_threadsafe_loc = false ∧ IsStoreAtomic = false) := by
    unfold FB_local_copy_gpu
    simp only
    by_cases h0 : TheFB.m_LocTags.length = 0
    · rw [if_pos h0]
      have : TheFB.m_LocTags = [] := List.length_eq_zero.mp h0
      simp [this]
    · rw [if_neg h0]
      have hne : TheFB.m_LocTags ≠ [] := fun h => h0 (by rw [h]; rfl)
      cases hts : TheFB.m_threadsafe_loc <;> cases IsStoreAtomic <;>
        simp [hne, detail.fab_to_fab, detail.fab_to_fab_atomic_cpy, detail.fab_to_fab_masks]
  have h2 : unpack_recv_buffer_gpu IsStoreAtomic HasAtomicAdd warp_size bisect sz indexArray fa
      dcomp ncomp rcv op is_thread_safe = none ↔
      (rcv ≠ [] ∧ is_thread_safe = false ∧
        ((op = CpOp.COPY ∧ IsStoreAtomic = false) ∨
         (op = CpOp.ADD ∧ HasAtomicAdd = false))) := by
    unfold unpack_recv_buffer_gpu
    simp only
    by_cases h0 : rcv.length = 0
    · rw [if_pos h0]
      have : rcv = [] := List.length_eq_zero.mp h0
      simp [this]
    · rw [if_neg h0]
      have hne : rcv ≠ [] := fun h => h0 (by rw [h]; rfl)
      cases op <;> cases is_thread_safe <;> cases IsStoreAtomic <;> cases HasAtomicAdd <;>
        simp [hne, detail.fab_to_fab, detail.fab_to_fab_atomic_cpy,
          detail.fab_to_fab_atomic_add, detail.fab_to_fab_masks]
  refine ⟨h1, h2, ?_, ?_⟩
  · rw [← Option.not_isSome_iff_eq_none] at h1
    rw [← not_iff_not, h1]
    cases TheFB.m_threadsafe_loc <;> cases IsStoreAtomic <;> simp
  · rw [← Option.not_isSome_iff_eq_none] at h2
    rw [← not_iff_not, h2]
    cases op <;> cases is_thread_safe <;> cases IsStoreAtomic <;> cases HasAtomicAdd <;> simp

end amrex
